import Mathlib

/-!
# lazyssh: ranking engine and Include resolver

A shallow embedding of `internal/core/services/server_service.go` (fuzzy scorer and
`ListServers`) and of `internal/adapters/data/ssh_config_file/include.go`
(`resolveIncludes` and its line scanners), together with the properties proved about them.

Modelling conventions.

* A Go `string` is a Lean `String`, read as the sequence of its runes (`String.data`); this
  covers the valid UTF-8 strings.  Go compares strings bytewise, which on valid UTF-8 is the
  lexicographic order of the code points (`stringLess`).
* Go's `unicode` tables (`ToLower`, `IsSpace`, `IsLower`, `IsUpper`, case folding) belong to the standard
  library, not to the repository: they are the parameter `UnicodeTables`, and every general
  theorem holds for all tables.  `asciiTables` is their restriction to ASCII, used to
  evaluate the program on ASCII inputs.
* Go `int` is `Int`; the scores are far from the 64-bit range.
* `time.Time` is an integer instant, the zero time being `0`.
* Go's `sort` package is the parameter `SortLib`; the theorems about `ListServers` assume its
  documented contract `SortLib.Lawful`, which Go's own insertion sort is proved to meet.
* The operating system (files, globbing, `path/filepath`, the home directory) is the parameter
  `FileSystem`.  A Go map used as a set is the list of its keys.  `resolveIncludes` carries a
  bound on the recursion depth; on a file system with finitely many paths every bound above
  the number of unvisited paths gives the same result.
* The config decoder (`ssh_config.Decode`) and the repository's key-value mapper
  `mapKVToServer`, whose code is not among the sources, are the parameter `Loader`; a decoded
  file is the list of its host blocks.  `net.ParseIP` is a parameter of `validateServer`, and
  the two regular expressions of `validateServer` are the character classes they denote.
-/

namespace LazySSH

/-! ## Standard-library parameters -/

/-- The functions of Go's `unicode` package that the program calls. -/
structure UnicodeTables where
  /-- Go `unicode.ToLower`. -/
  toLower : Char → Char
  /-- Go `unicode.IsSpace`. -/
  isSpace : Char → Bool
  /-- Go `unicode.IsLower`. -/
  isLower : Char → Bool
  /-- Go `unicode.IsUpper`. -/
  isUpper : Char → Bool
  /-- Two runes are equal under Unicode simple case folding (what `strings.EqualFold`
  compares rune by rune). -/
  foldEq : Char → Char → Bool

/-- The `unicode` tables on the ASCII range: letters `A`..`Z` and `a`..`z`, and the six ASCII
white-space characters.  Outside ASCII nothing is a letter or a space. -/
def asciiTables : UnicodeTables where
  toLower := fun c => if 'A' ≤ c ∧ c ≤ 'Z' then Char.ofNat (c.toNat + 32) else c
  isSpace := fun c => c == ' ' || c == '\t' || c == '\n' || c == '\r' ||
    c == Char.ofNat 11 || c == Char.ofNat 12
  isLower := fun c => decide ('a' ≤ c ∧ c ≤ 'z')
  isUpper := fun c => decide ('A' ≤ c ∧ c ≤ 'Z')
  foldEq := fun a b =>
    (if 'A' ≤ a ∧ a ≤ 'Z' then Char.ofNat (a.toNat + 32) else a)
      == (if 'A' ≤ b ∧ b ≤ 'Z' then Char.ofNat (b.toNat + 32) else b)

/-- Go `strings.ToLower`: every rune is mapped through `unicode.ToLower`. -/
def ToLower (U : UnicodeTables) (s : String) : String := ⟨s.data.map U.toLower⟩

/-- Go `strings.TrimSpace`: drops the leading and the trailing white space. -/
def TrimSpace (U : UnicodeTables) (s : String) : String :=
  ⟨((s.data.dropWhile U.isSpace).reverse.dropWhile U.isSpace).reverse⟩

/-! ## The fuzzy scorer (`server_service.go`, lines 150-248) -/

/-- The matching loop of `fuzzyScore` (lines 162-177).  The first argument is what is left of
`ql` (from `qi` on), the second what is left of `sl` from the cursor on, the third the cursor
`si` itself.  The result is the slice `positions`; `none` is the `return 0` of line 175. -/
def scanPositions : List Char → List Char → Nat → Option (List Nat)
  | [], _, _ => some []
  | _ :: _, [], _ => none
  | c :: ql, d :: sl, si =>
    if d == c then (scanPositions ql sl (si + 1)).map (fun ps => si :: ps)
    else scanPositions (c :: ql) sl (si + 1)

/-- Go `isWordBoundary` (lines 236-248). -/
def isWordBoundary (U : UnicodeTables) (prev curr : Char) (idx : Nat) : Bool :=
  if idx == 0 then true
  else if prev == '-' || prev == '_' || prev == '.' || prev == '/' || U.isSpace prev then true
  else if U.isLower prev && U.isUpper curr then true
  else false

/-- The adjacency / gap loop (lines 196-205) over the consecutive pairs of `positions`; the
state is `(score, totalGapPenalty)`. -/
def adjacencyLoop : List Nat → Int × Int → Int × Int
  | p0 :: p1 :: rest, (score, totalGapPenalty) =>
    if p1 == p0 + 1 then adjacencyLoop (p1 :: rest) (score + 5, totalGapPenalty)
    else
      let gap : Int := (p1 : Int) - (p0 : Int) - 1
      if gap > 0 then adjacencyLoop (p1 :: rest) (score, totalGapPenalty + gap)
      else adjacencyLoop (p1 :: rest) (score, totalGapPenalty)
  | _, st => st

/-- The word-boundary and case-bonus loop (lines 212-231): `qr` is `[]rune(q)`, `sr` is
`[]rune(s)`, the number is the loop index `idx`, the list what is left of `positions`.
An index outside `sr` would panic in Go; the scan only produces indices inside `sr`
(`scanPositions_bounds`), so the default rune is never read. -/
def bonusLoop (U : UnicodeTables) (qr sr : List Char) : Nat → List Nat → Int → Int
  | _, [], score => score
  | idx, pos :: rest, score =>
    let prev : Char := if pos > 0 then sr.getD (pos - 1) (Char.ofNat 0) else Char.ofNat 0
    let curr : Char := sr.getD pos (Char.ofNat 0)
    let score1 : Int :=
      if isWordBoundary U prev curr pos then (if pos == 0 then score + 8 else score + 6)
      else score
    let score2 : Int :=
      if idx < qr.length then
        (if qr.getD idx (Char.ofNat 0) == curr then score1 + 1 else score1)
      else score1
    bonusLoop U qr sr (idx + 1) rest score2

/-- Go `fuzzyScore` (lines 152-234). -/
def fuzzyScore (U : UnicodeTables) (q s : String) : Int :=
  if q == "" || s == "" then 0
  else
    let ql := (ToLower U q).data
    let sl := (ToLower U s).data
    let sr := s.data
    match scanPositions ql sl 0 with
    | none => 0
    | some positions =>
      if positions.length == 0 then 0
      else
        let score0 : Int := 0 + (positions.length : Int)
        let startIdx : Nat := positions.getD 0 0
        let score1 : Int := if startIdx < 20 then score0 + (20 - (startIdx : Int)) else score0
        let st := adjacencyLoop positions (score1, 0)
        let totalGapPenalty : Int := if st.2 > 15 then 15 else st.2
        let score2 : Int := st.1 - totalGapPenalty
        bonusLoop U q.data sr 0 positions score2

/-- Word boundary in the words of the specification: the position is index 0, or the preceding
rune is one of `- _ . /` or white space, or the preceding rune is lowercase and the current
one uppercase. -/
def specBoundary (U : UnicodeTables) (sr : List Char) (pos : Nat) : Bool :=
  pos == 0 ||
    (match sr[pos - 1]?, sr[pos]? with
      | some prev, some curr =>
        decide (prev ∈ ['-', '_', '.', '/']) || U.isSpace prev || (U.isLower prev && U.isUpper curr)
      | _, _ => false)

/-- The closed formula of the specification for the score on the matched positions `p`. -/
def specScore (U : UnicodeTables) (q s : String) (p : List Nat) : Int :=
  let pairs : List (Nat × Nat) := List.zip p p.tail
  (p.length : Int)
    + (if p.headD 0 < 20 then 20 - (p.headD 0 : Int) else 0)
    + 5 * ((pairs.filter (fun ab => decide (ab.2 = ab.1 + 1))).length : Int)
    - min 15 (((pairs.filter (fun ab => decide (ab.2 ≠ ab.1 + 1))).map
        (fun ab => (ab.2 : Int) - (ab.1 : Int) - 1)).sum)
    + ((p.filter (specBoundary U s.data)).map (fun pos => if pos = 0 then (8 : Int) else 6)).sum
    + (((List.zip q.data p).filter (fun cp => decide (s.data[cp.2]? = some cp.1))).length : Int)

/-! ## `ListServers` (`server_service.go`, lines 48-148) -/

/-- Modelled from the spec: the record `domain.Server`, whose declaration
(`internal/core/domain`) is not among the sources.  The fields are those of the
specification's Host Entry, under the names the Go code uses (`Alias` is the primary alias).
`PinnedAt` is an integer instant and `0` is the zero time. -/
structure Server where
  /-- Primary alias. -/
  Alias : String
  /-- All aliases of the host block. -/
  Aliases : List String
  /-- Host name or address. -/
  Host : String
  /-- Login name. -/
  User : String
  /-- TCP port. -/
  Port : Int
  /-- Identity files. -/
  IdentityFiles : List String
  /-- Free-form labels. -/
  Tags : List String
  /-- Pin time; `0` means not pinned. -/
  PinnedAt : Int
  /-- Path of the defining file. -/
  SourceFile : String
  /-- Whether the entry comes from an included file. -/
  Readonly : Bool
  deriving DecidableEq

/-- Go `<` on the rune sequences of two strings: lexicographic by code point. -/
def runesLess : List Char → List Char → Bool
  | [], [] => false
  | [], _ :: _ => true
  | _ :: _, [] => false
  | a :: as, b :: bs => if a < b then true else if b < a then false else runesLess as bs

/-- Go `<` on strings. -/
def stringLess (a b : String) : Bool := runesLess a.data b.data

/-- Go `strings.Join`. -/
def Join (elems : List String) (sep : String) : String :=
  ⟨List.intercalate sep.data (elems.map String.data)⟩

/-- Go `computeServerScore` (lines 126-148). -/
def computeServerScore (U : UnicodeTables) (srv : Server) (q : String) : Int :=
  let fields0 : List String := [srv.Alias, srv.Host, srv.User]
  let fields1 : List String :=
    if srv.Aliases.length > 0 then fields0 ++ [Join srv.Aliases " "] else fields0
  let fields2 : List String :=
    if srv.Tags.length > 0 then fields1 ++ [Join srv.Tags " "] else fields1
  fields2.foldl
    (fun best f =>
      if f == "" then best
      else
        let sc := fuzzyScore U q f
        if sc > best then sc else best)
    0

/-- The comparator of the empty-query sort (lines 59-74), on the two entries it reads. -/
def lessEmptyQuery (U : UnicodeTables) (si sj : Server) : Bool :=
  let pi : Bool := !(si.PinnedAt == 0)
  let pj : Bool := !(sj.PinnedAt == 0)
  if pi != pj then pi
  else if pi && pj then decide (si.PinnedAt > sj.PinnedAt)
  else
    let ai := ToLower U si.Alias
    let aj := ToLower U sj.Alias
    if ai != aj then stringLess ai aj
    else stringLess si.Alias sj.Alias

/-- The local type `scored` of `ListServers` (lines 85-88). -/
structure scored where
  /-- The entry. -/
  srv : Server
  /-- Its relevance score. -/
  score : Int
  deriving DecidableEq

/-- The comparator of the scored sort (lines 97-117), on the two elements it reads.
`byAlias` is the alias comparison of lines 111-116, reached when the pinned test of lines
106-110 does not return. -/
def lessScored (U : UnicodeTables) (ri rj : scored) : Bool :=
  if ri.score != rj.score then decide (ri.score > rj.score)
  else
    let pi : Bool := !(ri.srv.PinnedAt == 0)
    let pj : Bool := !(rj.srv.PinnedAt == 0)
    if pi != pj then pi
    else
      let ai := ToLower U ri.srv.Alias
      let aj := ToLower U rj.srv.Alias
      let byAlias : Bool :=
        if ai != aj then stringLess ai aj
        else stringLess ri.srv.Alias rj.srv.Alias
      if pi && pj then
        if !(ri.srv.PinnedAt == rj.srv.PinnedAt) then
          decide (ri.srv.PinnedAt > rj.srv.PinnedAt)
        else byAlias
      else byAlias

/-- The two entry points of Go's `sort` package that `ListServers` calls.  The package is
standard library; its algorithms (pattern-defeating quicksort, insertion sort and in-place
merging) are not fixed here, only their contract `SortLib.Lawful` is used. -/
structure SortLib where
  /-- Go `sort.Slice`, as a function of the comparator and the slice contents. -/
  Slice : {α : Type} → (α → α → Bool) → List α → List α
  /-- Go `sort.SliceStable`. -/
  SliceStable : {α : Type} → (α → α → Bool) → List α → List α

/-- A comparator is a strict weak order: asymmetric and negatively transitive.  This is the
requirement Go's `sort` package puts on `less`. -/
def StrictWeak {α : Type} (less : α → α → Bool) : Prop :=
  (∀ a b, less a b = true → less b a = false) ∧
    (∀ a b c, less a b = false → less b c = false → less a c = false)

/-- Two elements tie under a comparator when neither is less than the other. -/
def ties {α : Type} (less : α → α → Bool) (a b : α) : Bool := !less a b && !less b a

/-- The documented contract of `sort.Slice` and `sort.SliceStable`: the result is a
permutation of the input; for a strict weak order it has no inversion; the stable sort keeps
tied elements in their original order. -/
structure SortLib.Lawful (S : SortLib) : Prop where
  /-- `sort.Slice` permutes. -/
  slice_perm : ∀ {α : Type} (less : α → α → Bool) (l : List α), (S.Slice less l).Perm l
  /-- `sort.Slice` sorts. -/
  slice_sorted : ∀ {α : Type} (less : α → α → Bool), StrictWeak less → ∀ l : List α,
    (S.Slice less l).Pairwise (fun a b => less b a = false)
  /-- `sort.SliceStable` permutes. -/
  stable_perm : ∀ {α : Type} (less : α → α → Bool) (l : List α), (S.SliceStable less l).Perm l
  /-- `sort.SliceStable` sorts. -/
  stable_sorted : ∀ {α : Type} (less : α → α → Bool), StrictWeak less → ∀ l : List α,
    (S.SliceStable less l).Pairwise (fun a b => less b a = false)
  /-- `sort.SliceStable` is stable. -/
  stable_stable : ∀ {α : Type} (less : α → α → Bool), StrictWeak less → ∀ (l : List α) (x : α),
    (S.SliceStable less l).filter (ties less x) = l.filter (ties less x)

/-- The inner loop of Go's `insertionSortLessFunc`: `x` moves left past every element it is
less than.  The sorted prefix is given from its right end. -/
def sinkLeft {α : Type} (less : α → α → Bool) (x : α) : List α → List α
  | [] => [x]
  | y :: ys => if less x y then y :: sinkLeft less x ys else x :: y :: ys

/-- Go's `insertionSortLessFunc`, the routine both `sort.Slice` (up to 12 elements) and
`sort.SliceStable` (up to 20 elements) run on short slices. -/
def insertionSortLessFunc {α : Type} (less : α → α → Bool) (data : List α) : List α :=
  (data.foldl (fun sortedRev x => sinkLeft less x sortedRev) []).reverse

/-- An instance of the `sort` package: insertion sort for both entry points. -/
def insertionSortLib : SortLib where
  Slice := fun less data => insertionSortLessFunc less data
  SliceStable := fun less data => insertionSortLessFunc less data

/-- Go `ListServers` (lines 50-124).  `repo` is what `serverRepository.ListServers("")`
returns: the entries, or an error. -/
def ListServers (U : UnicodeTables) (S : SortLib) (repo : Except String (List Server))
    (query : String) : Except String (List Server) :=
  let q := TrimSpace U query
  if q == "" then
    match repo with
    | .error err => .error err
    | .ok servers => .ok (S.SliceStable (lessEmptyQuery U) servers)
  else
    match repo with
    | .error err => .error err
    | .ok all =>
      let results : List scored :=
        all.foldl
          (fun results srv =>
            let score := computeServerScore U srv q
            if score > 0 then results ++ [{ srv := srv, score := score }] else results)
          []
      let sorted := S.Slice (lessScored U) results
      .ok (sorted.foldl (fun out r => out ++ [r.srv]) [])

/-- Two entries the specified empty-query order does not separate: both pinned at the same
instant, or both unpinned under the same alias. -/
def sameRank (x y : Server) : Bool :=
  decide ((x.PinnedAt ≠ 0 ∧ y.PinnedAt ≠ 0 ∧ x.PinnedAt = y.PinnedAt) ∨
    (x.PinnedAt = 0 ∧ y.PinnedAt = 0 ∧ x.Alias = y.Alias))

/-- The specified empty-query order between an entry `a` and a later entry `b`: no unpinned
entry before a pinned one, pinned entries by non-increasing pin time, unpinned entries by
ascending lowercased alias and then by ascending alias. -/
def emptyQueryOrdered (U : UnicodeTables) (a b : Server) : Prop :=
  (b.PinnedAt ≠ 0 → a.PinnedAt ≠ 0) ∧
    (a.PinnedAt ≠ 0 → b.PinnedAt ≠ 0 → a.PinnedAt ≥ b.PinnedAt) ∧
    (a.PinnedAt = 0 → b.PinnedAt = 0 →
      stringLess (ToLower U b.Alias) (ToLower U a.Alias) = false ∧
        (ToLower U a.Alias = ToLower U b.Alias → stringLess b.Alias a.Alias = false))

/-- An entry whose only non-empty field is its primary alias. -/
def aliasOnly (name : String) (pinnedAt : Int) : Server :=
  { Alias := name, Aliases := [], Host := "", User := "", Port := 22, IdentityFiles := [],
    Tags := [], PinnedAt := pinnedAt, SourceFile := "", Readonly := false }

/-- The candidate fields of an entry in the words of the specification: the primary alias,
the host, the user, the space-joined aliases if any, the space-joined tags if any. -/
def candidateFields (srv : Server) : List String :=
  [srv.Alias, srv.Host, srv.User]
    ++ (if srv.Aliases = [] then [] else [Join srv.Aliases " "])
    ++ (if srv.Tags = [] then [] else [Join srv.Tags " "])

/-- The string `s` contains `q` as a case-insensitive subsequence. -/
def containsSubsequence (U : UnicodeTables) (q s : String) : Bool :=
  decide (List.Sublist (ToLower U q).data (ToLower U s).data)

/-! ## The Include resolver (`include.go`) -/

/-- What `resolveIncludes` reads from the operating system: the home directory, the files,
globbing and the path functions of `path/filepath`.  All are outside the repository.  The
file system is the same throughout one traversal. -/
structure FileSystem where
  /-- Go `os.UserHomeDir`; `none` when it fails. -/
  home : Option String
  /-- Opening a file and scanning it with `bufio.Scanner`: the lines the scanner delivers and
  whether `scanner.Err()` is non-nil afterwards; `none` when the file cannot be opened. -/
  openFile : String → Option (List String × Bool)
  /-- Go `filepath.Glob`; `none` when it returns an error. -/
  glob : String → Option (List String)
  /-- Go `filepath.IsAbs`. -/
  isAbs : String → Bool
  /-- Go `filepath.Abs`; `none` when it fails. -/
  abs : String → Option String
  /-- Go `filepath.Join` of two elements. -/
  join : String → String → String
  /-- Go `filepath.Dir`. -/
  dir : String → String

/-- Go `strings.EqualFold`. -/
def EqualFold (U : UnicodeTables) (s t : String) : Bool :=
  s.data.length == t.data.length && (List.zip s.data t.data).all (fun ab => U.foldEq ab.1 ab.2)

/-- Go `strings.HasPrefix`. -/
def HasPrefix (s pre : String) : Bool := pre.data.isPrefixOf s.data

/-- Go `expandTilde` (lines 179-198). -/
def expandTilde (fs : FileSystem) (p : String) : String :=
  if p == "" then p
  else if p.data.head? != some '~' then p
  else
    match fs.home with
    | none => p
    | some home =>
      if home == "" then p
      else if p == "~" then home
      else if HasPrefix p "~/" then fs.join home ⟨p.data.drop 2⟩
      else p

/-- Go `unquote` (lines 200-207). -/
def unquote (s : String) : String :=
  if s.data.length ≥ 2 then
    if (s.data.head? == some '"' && s.data.getLast? == some '"') ||
        (s.data.head? == some '\'' && s.data.getLast? == some '\'') then
      ⟨(s.data.drop 1).dropLast⟩
    else s
  else s

/-- The loop of `stripInlineComment` (lines 211-228): the part `s[:i]` in front of the first
`#` outside quotes, or all of `s`. -/
def stripInlineCommentLoop : List Char → Bool → Bool → List Char
  | [], _, _ => []
  | c :: cs, inSingle, inDouble =>
    if c == '\'' then
      c :: stripInlineCommentLoop cs (if !inDouble then !inSingle else inSingle) inDouble
    else if c == '"' then
      c :: stripInlineCommentLoop cs inSingle (if !inSingle then !inDouble else inDouble)
    else if c == '#' then
      if !inSingle && !inDouble then []
      else c :: stripInlineCommentLoop cs inSingle inDouble
    else c :: stripInlineCommentLoop cs inSingle inDouble

/-- Go `stripInlineComment` (lines 210-230). -/
def stripInlineComment (U : UnicodeTables) (s : String) : String :=
  TrimSpace U ⟨stripInlineCommentLoop s.data false false⟩

/-- The closure `flush` of `splitFieldsRespectQuotes` (lines 239-244); the builder is empty
afterwards. -/
def flush (fields : List String) (b : List Char) : List String :=
  if b.length > 0 then fields ++ [⟨b⟩] else fields

/-- The loop of `splitFieldsRespectQuotes` (lines 246-268) with its state: the fields so
far, the builder `b`, `inSingle`, `inDouble`; the final `flush` is line 269. -/
def splitFieldsLoop : List Char → List String → List Char → Bool → Bool → List String
  | [], fields, b, _, _ => flush fields b
  | ch :: rest, fields, b, inSingle, inDouble =>
    if ch == ' ' || ch == '\t' then
      if inSingle || inDouble then splitFieldsLoop rest fields (b ++ [ch]) inSingle inDouble
      else splitFieldsLoop rest (flush fields b) [] inSingle inDouble
    else if ch == '\'' then
      splitFieldsLoop rest fields (b ++ [ch]) (if !inDouble then !inSingle else inSingle) inDouble
    else if ch == '"' then
      splitFieldsLoop rest fields (b ++ [ch]) inSingle (if !inSingle then !inDouble else inDouble)
    else splitFieldsLoop rest fields (b ++ [ch]) inSingle inDouble

/-- Go `splitFieldsRespectQuotes` (lines 233-271). -/
def splitFieldsRespectQuotes (s : String) : List String :=
  splitFieldsLoop s.data [] [] false false

/-- What a call of `resolveIncludes` leaves behind: the returned slice, whether the returned
error is non-nil, and the shared `visited` map after the call. -/
structure Resolved where
  /-- The returned paths. -/
  paths : List String
  /-- Whether the returned error is non-nil. -/
  err : Bool
  /-- The keys of `visited` after the call. -/
  visited : List String
  deriving DecidableEq

/-- The variables the loops of `resolveIncludes` update: `results`, the keys of `added`, the
keys of `visited`. -/
structure LoopState where
  /-- The slice `results`. -/
  results : List String
  /-- The keys of the map `added`. -/
  added : List String
  /-- The keys of the map `visited`. -/
  visited : List String
  deriving DecidableEq

/-- Lines 73-78 and 136-141: a path that is not absolute is replaced by `filepath.Abs` of it
when that succeeds. -/
def toAbs (fs : FileSystem) (p : String) : String :=
  if !fs.isAbs p then
    match fs.abs p with
    | some ap => ap
    | none => p
  else p

/-- Lines 152-157: the elements of `sub` not yet in `added` are appended to `results`. -/
def appendSub : List String → List String × List String → List String × List String
  | [], st => st
  | s :: sub, (results, added) =>
    if s ∈ added then appendSub sub (results, added)
    else appendSub sub (results ++ [s], s :: added)

/-- The body of the loop over the glob matches (lines 136-157); `recur` is the recursive
call, `none` when it does not return. -/
def matchStep (fs : FileSystem) (recur : String → List String → Option Resolved)
    (st : LoopState) (m : String) : Option LoopState :=
  let child := toAbs fs m
  if child ∈ st.visited then some st
  else
    let visited := child :: st.visited
    let ra : List String × List String :=
      if child ∈ st.added then (st.results, st.added)
      else (st.results ++ [child], child :: st.added)
    match recur child visited with
    | none => none
    | some r =>
      let ra2 := appendSub r.paths ra
      some { results := ra2.1, added := ra2.2, visited := r.visited }

/-- The loop over the glob matches (line 135). -/
def matchLoop (fs : FileSystem) (recur : String → List String → Option Resolved) :
    List String → LoopState → Option LoopState
  | [], st => some st
  | m :: ms, st =>
    match matchStep fs recur st m with
    | none => none
    | some st1 => matchLoop fs recur ms st1

/-- The loop over the patterns of one line (lines 121-159). -/
def patternLoop (fs : FileSystem) (U : UnicodeTables)
    (recur : String → List String → Option Resolved) (baseDir : String) :
    List String → LoopState → Option LoopState
  | [], st => some st
  | pat :: pats, st =>
    let p := unquote (TrimSpace U pat)
    if p == "" then patternLoop fs U recur baseDir pats st
    else
      let p1 := expandTilde fs p
      let p2 := if !fs.isAbs p1 then fs.join baseDir p1 else p1
      match fs.glob p2 with
      | none => patternLoop fs U recur baseDir pats st
      | some globbed =>
        if globbed.length == 0 then patternLoop fs U recur baseDir pats st
        else
          match matchLoop fs recur globbed st with
          | none => none
          | some st1 => patternLoop fs U recur baseDir pats st1

/-- The loop over the lines of the file (lines 94-160). -/
def lineLoop (fs : FileSystem) (U : UnicodeTables)
    (recur : String → List String → Option Resolved) (baseDir : String) :
    List String → LoopState → Option LoopState
  | [], st => some st
  | line0 :: lines, st =>
    let line1 := TrimSpace U line0
    if line1 == "" then lineLoop fs U recur baseDir lines st
    else
      let line2 := stripInlineComment U line1
      if line2 == "" then lineLoop fs U recur baseDir lines st
      else if HasPrefix (TrimSpace U line2) "#" then lineLoop fs U recur baseDir lines st
      else
        let fields := splitFieldsRespectQuotes line2
        if fields.length == 0 then lineLoop fs U recur baseDir lines st
        else if !EqualFold U (fields.headD "") "Include" then
          lineLoop fs U recur baseDir lines st
        else
          match patternLoop fs U recur baseDir (fields.drop 1) st with
          | none => none
          | some st1 => lineLoop fs U recur baseDir lines st1

/-- Go `resolveIncludes` (lines 72-166).  The map `visited` is shared by all the calls: it is
passed in and handed back.  The first argument bounds the depth of the recursion; `none`
means the bound was reached. -/
def resolveIncludes (fs : FileSystem) (U : UnicodeTables) :
    Nat → String → List String → Option Resolved
  | 0, _, _ => none
  | fuel + 1, filePath, visited =>
    let fp := toAbs fs (expandTilde fs filePath)
    match fs.openFile fp with
    | none => some { paths := [], err := false, visited := visited }
    | some (lines, scanErr) =>
      match lineLoop fs U (fun child vis => resolveIncludes fs U fuel child vis) (fs.dir fp)
          lines { results := [], added := [], visited := visited } with
      | none => none
      | some st => some { paths := st.results, err := scanErr, visited := st.visited }

/-- A file system for examples: the listed files exist, with the given lines; a pattern
matches itself when it names a listed file and nothing otherwise; a path is absolute when it
starts with `/`; the working directory is `/`. -/
def listFS (files : List (String × List String)) : FileSystem where
  home := some "/home/u"
  openFile := fun p => (files.lookup p).map (fun lines => (lines, false))
  glob := fun p => if (files.lookup p).isSome then some [p] else some []
  isAbs := fun p => p.data.head? == some '/'
  abs := fun p => if p.data.head? == some '/' then some p else some ⟨'/' :: p.data⟩
  join := fun d p => ⟨d.data ++ '/' :: p.data⟩
  dir := fun p => ⟨((p.data.reverse.dropWhile (fun c => c != '/')).drop 1).reverse⟩

/-- The glob matches of one pattern token of an Include line, in glob order; none when the
token is empty, or its expansion fails or matches nothing. -/
def patternMatches (fs : FileSystem) (U : UnicodeTables) (baseDir pat : String) : List String :=
  let p := unquote (TrimSpace U pat)
  if p == "" then []
  else
    let p1 := expandTilde fs p
    match fs.glob (if !fs.isAbs p1 then fs.join baseDir p1 else p1) with
    | none => []
    | some globbed => globbed

/-- The pattern tokens of one line: the fields after `Include` when the line, trimmed and
without its inline comment, starts with that word in any case; none otherwise. -/
def linePatterns (U : UnicodeTables) (line0 : String) : List String :=
  let line2 := stripInlineComment U (TrimSpace U line0)
  let fields := splitFieldsRespectQuotes line2
  if TrimSpace U line0 == "" then []
  else if line2 == "" then []
  else if HasPrefix (TrimSpace U line2) "#" then []
  else if fields.length == 0 then []
  else if !EqualFold U (fields.headD "") "Include" then []
  else fields.drop 1

/-- The paths a file includes directly, in absolute form: line order, then pattern order,
then glob-match order. -/
def includeMatches (fs : FileSystem) (U : UnicodeTables) (baseDir : String)
    (lines : List String) : List String :=
  (lines.flatMap (fun line =>
    (linePatterns U line).flatMap (fun pat => patternMatches fs U baseDir pat))).map (toAbs fs)

/-- Depth-first pre-order over a list of directly included paths, in the words of the
specification: a path already visited is skipped; otherwise it is marked visited and emitted,
followed at once by everything its own resolution emits, and only then do the later paths
follow. -/
def preorder (recur : String → List String → Option Resolved) :
    List String → List String → Option (List String × List String)
  | [], visited => some ([], visited)
  | m :: ms, visited =>
    if m ∈ visited then preorder recur ms visited
    else
      match recur m (m :: visited) with
      | none => none
      | some r =>
        match preorder recur ms r.visited with
        | none => none
        | some (rest, visited2) => some (m :: (r.paths ++ rest), visited2)

/-- Every path that globbing can produce lies, in absolute form, in the finite list
`allPaths`: the file system has finitely many paths. -/
def GlobWithin (fs : FileSystem) (allPaths : List String) : Prop :=
  ∀ pattern globbed, fs.glob pattern = some globbed → ∀ m ∈ globbed, toAbs fs m ∈ allPaths

/-- The number of paths of `allPaths` that are not in `visited`. -/
def unvisited (allPaths visited : List String) : Nat :=
  (allPaths.filter (fun p => decide (p ∉ visited))).length

/-- What a call started with the visited set `v` guarantees about its result: the visited set
only grew, every returned path was added to it during the call, and no path is returned
twice. -/
def ResolvedOK (v : List String) (r : Resolved) : Prop :=
  v ⊆ r.visited ∧ (∀ p ∈ r.paths, p ∈ r.visited ∧ p ∉ v) ∧ r.paths.Nodup

/-- The recursive call keeps `ResolvedOK` whenever it returns. -/
def RecurOK (recur : String → List String → Option Resolved) : Prop :=
  ∀ c v r, recur c v = some r → ResolvedOK v r

/-- The invariant of the three loops of a call started with the visited set `v0`: `added`
holds exactly the paths of `results`, all of which were inserted into `visited` during the
call, and `results` has no duplicate. -/
def LoopOK (v0 : List String) (st : LoopState) : Prop :=
  v0 ⊆ st.visited ∧ (∀ p ∈ st.results, p ∈ st.visited ∧ p ∉ v0) ∧ st.results.Nodup ∧
    (∀ p, p ∈ st.added ↔ p ∈ st.results)

/-- Two files that include each other. -/
def mutualFS : FileSystem := listFS [("/r/A", ["Include B"]), ("/r/B", ["Include A"])]

/-- Another cyclic file system: one file that includes itself. -/
def selfFS : FileSystem := listFS [("/r/A", ["Include A"])]

/-- A root with `Include a.conf b.conf`, where `a.conf` has `Include c.conf`. -/
def nestedFS : FileSystem :=
  listFS [("/r/config", ["Include a.conf b.conf"]), ("/r/a.conf", ["Include c.conf"]),
    ("/r/b.conf", []), ("/r/c.conf", [])]

/-! ## `validateServer` (`server_service.go`, lines 250-284) -/

/-- Go `strings.HasSuffix`. -/
def HasSuffix (s suf : String) : Bool := suf.data.isSuffixOf s.data

/-- Go `strings.Split` for a separator of one rune: the pieces between the separators, empty
pieces included; the empty string gives one empty piece. -/
def splitRunes (sep : Char) : List Char → List (List Char)
  | [] => [[]]
  | c :: cs =>
    if c == sep then [] :: splitRunes sep cs
    else
      match splitRunes sep cs with
      | [] => [[c]]
      | piece :: pieces => (c :: piece) :: pieces

/-- Go `strings.Split(s, sep)` for a separator of one rune. -/
def Split (s : String) (sep : Char) : List String := (splitRunes sep s.data).map String.mk

/-- A rune of the class `[A-Za-z0-9]`. -/
def isAsciiAlnum (c : Char) : Bool :=
  ('A' ≤ c && c ≤ 'Z') || ('a' ≤ c && c ≤ 'z') || ('0' ≤ c && c ≤ '9')

/-- Go `regexp.MatchString` with the pattern `^[A-Za-z0-9_.-]+$` (line 255): a non-empty
string of runes of the class. -/
def matchAliasPattern (s : String) : Bool :=
  s.data.length > 0 && s.data.all (fun c => isAsciiAlnum c || c == '_' || c == '.' || c == '-')

/-- Go `regexp.MatchString` with the pattern `^[A-Za-z0-9.-]+$` (line 265). -/
def matchHostPattern (s : String) : Bool :=
  s.data.length > 0 && s.data.all (fun c => isAsciiAlnum c || c == '.' || c == '-')

/-- The loop over the labels of the host name (lines 271-278). -/
def labelLoop : List String → Except String Unit
  | [] => .ok ()
  | lbl :: rest =>
    if lbl == "" then .error "host must not contain empty labels"
    else if HasPrefix lbl "-" || HasSuffix lbl "-" then
      .error "hostname labels must not start or end with a hyphen"
    else labelLoop rest

/-- The host-name checks made when the host is not an IP address (lines 262-278). -/
def validateHostName (srv : Server) : Except String Unit :=
  if srv.Host.data.contains ' ' then .error "host must not contain spaces"
  else if !matchHostPattern srv.Host then .error "host contains invalid characters"
  else if HasPrefix srv.Host "." || HasSuffix srv.Host "." then
    .error "host must not start or end with a dot"
  else labelLoop (Split srv.Host '.')

/-- The port check (lines 280-283) and the final `return nil`. -/
def validatePort (srv : Server) : Except String Unit :=
  if srv.Port != 0 && (decide (srv.Port < 1) || decide (srv.Port > 65535)) then
    .error "port must be a number between 1 and 65535"
  else .ok ()

/-- Go `validateServer` (lines 251-284); `parseIP s` tells whether `net.ParseIP(s)` is
non-nil.  The result is the returned error, `ok` for `nil`. -/
def validateServer (U : UnicodeTables) (parseIP : String → Bool) (srv : Server) :
    Except String Unit :=
  if TrimSpace U srv.Alias == "" then .error "alias is required"
  else if !matchAliasPattern srv.Alias then
    .error "alias may contain letters, digits, dot, dash, underscore"
  else if TrimSpace U srv.Host == "" then .error "Host/IP is required"
  else if !parseIP srv.Host then
    match validateHostName srv with
    | .error err => .error err
    | .ok _ => validatePort srv
  else validatePort srv

/-! ## Quoted spans, in the words of the specification -/

/-- How one rune changes the pair (inside a single-quoted span, inside a double-quoted span):
a quote character opens or closes a span of its kind unless a span of the other kind is
open. -/
def quoteStep (st : Bool × Bool) (c : Char) : Bool × Bool :=
  if c == '\'' then (if st.2 then st else (!st.1, st.2))
  else if c == '"' then (if st.1 then st else (st.1, !st.2))
  else st

/-- The quoted spans that are open after the runes `cs`. -/
def quoteState (cs : List Char) : Bool × Bool := cs.foldl quoteStep (false, false)

/-- Position `i` of `cs` lies outside every single-quoted and double-quoted span. -/
def outsideQuotes (cs : List Char) (i : Nat) : Bool := quoteState (cs.take i) == (false, false)

/-- A space or a tab. -/
def isBlank (c : Char) : Bool := c == ' ' || c == '\t'

/-- The runes of `cs` without the spaces and tabs that lie outside quoted spans. -/
def dropOuterBlanks (cs : List Char) : List Char :=
  (cs.enum.filter (fun ic => !(isBlank ic.2 && outsideQuotes cs ic.1))).map Prod.snd

/-! ## The config loader (`mapper_include.go`; `include.go`, lines 28-67 and 168-177) -/

/-- A key-value directive of a host block (`ssh_config.KV`, of the external decoder). -/
structure KV where
  /-- The keyword. -/
  Key : String
  /-- Its argument. -/
  Value : String
  deriving DecidableEq

/-- A node of a host block (`ssh_config.Node`): a key-value directive, or anything else
(a comment, an empty line, an Include). -/
inductive Node where
  | kv (kvNode : KV)
  | other
  deriving DecidableEq

/-- A host block of a decoded file (`ssh_config.Host`): its patterns, each as the string
`pattern.String()` gives, and its nodes. -/
structure HostBlock where
  /-- The patterns after the keyword `Host`. -/
  Patterns : List String
  /-- The lines of the block. -/
  Nodes : List Node
  deriving DecidableEq

/-- A decoded file (`ssh_config.Config`). -/
structure Config where
  /-- The host blocks, in file order. -/
  Hosts : List HostBlock
  deriving DecidableEq

/-- What the loader takes from outside the sources: `decode path` is the result of
`ssh_config.Decode` on the contents of the file at `path` (`none` for an error), and
`mapKVToServer` is the repository's key-value mapper, whose code is not among the sources. -/
structure Loader where
  /-- The external decoder applied to the file at a path. -/
  decode : String → Option Config
  /-- The key-value mapper `mapKVToServer`. -/
  mapKVToServer : Server → KV → Server

/-- Go `strings.ContainsAny`. -/
def ContainsAny (s chars : String) : Bool := s.data.any (fun c => chars.data.contains c)

/-- The loop over the patterns of a host block (lines 30-37 of `mapper_include.go`). -/
def aliasLoop (patterns : List String) : List String :=
  patterns.foldl
    (fun aliases pattern =>
      if ContainsAny pattern "!*?[]" then aliases else aliases ++ [pattern])
    []

/-- The loop over the nodes of a host block (lines 52-59): the nodes that are key-value
directives are handed to the mapper. -/
def nodeLoop (mapKV : Server → KV → Server) (server : Server) (nodes : List Node) : Server :=
  nodes.foldl
    (fun server node =>
      match node with
      | .kv kvNode => mapKV server kvNode
      | .other => server)
    server

/-- Go `toDomainServersFromConfig` (lines 26-63 of `mapper_include.go`).  The fields of
`domain.Server` the literal does not set have their zero values. -/
def toDomainServersFromConfig (mapKV : Server → KV → Server) (cfg : Config) (origin : String)
    (isMain : Bool) : List Server :=
  cfg.Hosts.foldl
    (fun servers host =>
      let aliases := aliasLoop host.Patterns
      if aliases.length == 0 then servers
      else
        let server : Server :=
          { Alias := aliases.headD "", Aliases := aliases, Host := "", User := "", Port := 22,
            IdentityFiles := [], Tags := [], PinnedAt := 0, SourceFile := origin,
            Readonly := !isMain }
        servers ++ [nodeLoop mapKV server host.Nodes])
    []

/-- Go `decodeConfigAt` (lines 169-177 of `include.go`): `none` when the file cannot be
opened or the decoder fails. -/
def decodeConfigAt (fs : FileSystem) (L : Loader) (path : String) : Option Config :=
  match fs.openFile path with
  | none => none
  | some _ => L.decode path

/-- The loop over the entries of one file (lines 58-64): an entry whose alias was seen is
skipped.  The state is the keys of `seen` and the slice `all`. -/
def serverLoop : List Server → List String × List Server → List String × List Server
  | [], st => st
  | s :: servers, (seen, all) =>
    if s.Alias ∈ seen then serverLoop servers (seen, all)
    else serverLoop servers (s.Alias :: seen, all ++ [s])

/-- The loop over the files (lines 50-65); the number is the index `i`. -/
def fileLoop (fs : FileSystem) (L : Loader) :
    Nat → List String → List String × List Server → List String × List Server
  | _, [], st => st
  | i, f :: files, st =>
    match decodeConfigAt fs L f with
    | none => fileLoop fs L (i + 1) files st
    | some cfg =>
      let isMain := i == 0
      let servers := toDomainServersFromConfig L.mapKVToServer cfg f isMain
      fileLoop fs L (i + 1) files (serverLoop servers st)

/-- Lines 32-36 of `loadAllServers`: the absolute path of the main file. -/
def absMainPath (fs : FileSystem) (configPath : String) : String :=
  match fs.abs (expandTilde fs configPath) with
  | some absMain => absMain
  | none => expandTilde fs configPath

/-- Go `loadAllServers` (lines 31-67 of `include.go`); the returned error is always nil.  The
first argument bounds the recursion of `resolveIncludes`; `none` means the bound was
reached. -/
def loadAllServers (fs : FileSystem) (U : UnicodeTables) (L : Loader) (fuel : Nat)
    (configPath : String) : Option (List Server) :=
  let absMain := absMainPath fs configPath
  match resolveIncludes fs U fuel absMain [absMain] with
  | none => none
  | some included =>
    let files := [absMain] ++ included.paths
    some (fileLoop fs L 0 files ([], [])).2

/-- Modelled from the spec: the key-value mapper `mapKVToServer`, whose code is not among the
sources, populates `Host`, `User`, `Port`, `IdentityFiles` and `Tags` from the directives of a
block; it leaves `Alias` and `Aliases` as `toDomainServersFromConfig` set them. -/
def MapperKeepsAliases (mapKV : Server → KV → Server) : Prop :=
  ∀ srv kv, (mapKV srv kv).Alias = srv.Alias ∧ (mapKV srv kv).Aliases = srv.Aliases

/-- The patterns of a host block that contain none of `!`, `*`, `?`, `[`, `]`, in order. -/
def plainPatterns (host : HostBlock) : List String :=
  host.Patterns.filter (fun p => p.data.all (fun c => !(['!', '*', '?', '[', ']'].contains c)))

/-- The entries decoded from the files in processing order, before the merge: the file at
index `i` gives the entries of its decoded config, as main file when `i = 0`; a file that
cannot be decoded gives none. -/
def decodedEntries (fs : FileSystem) (L : Loader) : Nat → List String → List Server
  | _, [] => []
  | i, f :: files =>
    (match decodeConfigAt fs L f with
      | none => []
      | some cfg => toDomainServersFromConfig L.mapKVToServer cfg f (i == 0))
      ++ decodedEntries fs L (i + 1) files

/-- A mapper for examples: `HostName` sets the host, `User` the user, other keys nothing. -/
def exampleMapper (server : Server) (kvNode : KV) : Server :=
  if kvNode.Key == "HostName" then { server with Host := kvNode.Value }
  else if kvNode.Key == "User" then { server with User := kvNode.Value }
  else server

/-- A loader for examples: the main file `/r/config` defines `web`, the included file
`/r/inc.conf` defines `web` again and `db`. -/
def exampleLoader : Loader where
  decode := fun path =>
    if path == "/r/config" then
      some { Hosts := [{ Patterns := ["web"], Nodes := [.kv { Key := "HostName", Value := "1.1.1.1" }] }] }
    else if path == "/r/inc.conf" then
      some { Hosts := [{ Patterns := ["web"], Nodes := [.kv { Key := "HostName", Value := "2.2.2.2" }] },
                       { Patterns := ["db", "db*"], Nodes := [] }] }
    else none
  mapKVToServer := exampleMapper

/-- The file system of the example: `/r/config` includes `inc.conf`. -/
def exampleFS : FileSystem :=
  listFS [("/r/config", ["Include inc.conf"]), ("/r/inc.conf", ["Host web", "Host db db*"])]

/-- The file system `fs` with one file replaced: the file at `path` can be opened, the scanner
delivers `lines` and ends with an error exactly when `scanErr` is set. -/
def withFile (fs : FileSystem) (path : String) (lines : List String) (scanErr : Bool) :
    FileSystem :=
  { fs with openFile := fun p => if p == path then some (lines, scanErr) else fs.openFile p }

/-! ## Strict weak orders, in the words of the specification -/

/-- A comparator is irreflexive and transitive, and its incomparability relation `ties` is
transitive. -/
def StrictWeakOrder {α : Type} (less : α → α → Bool) : Prop :=
  (∀ a, less a a = false) ∧
    (∀ a b c, less a b = true → less b c = true → less a c = true) ∧
    (∀ a b c, ties less a b = true → ties less b c = true → ties less a c = true)

/-- An entry of the scored sort with the given alias, host, pin time and score. -/
def scoredEntry (name host : String) (pinnedAt score : Int) : scored :=
  { srv := { aliasOnly name pinnedAt with Host := host }, score := score }

/-! ## `resolveIncludes` without the set `added`, in the words of the specification -/

/-- The variables the loops of the variant update: `results` and the keys of `visited`. -/
structure PlainState where
  /-- The slice `results`. -/
  results : List String
  /-- The keys of the map `visited`. -/
  visited : List String
  deriving DecidableEq

/-- The loop body of the variant: lines 136-157 without the tests of `added` on lines 146 and
153 and its updates on lines 148 and 155.  A child in `visited` is skipped; any other child
is inserted into `visited` and appended, and every element of the recursive result is
appended after it. -/
def matchStepUnconditional (fs : FileSystem) (recur : String → List String → Option Resolved)
    (st : PlainState) (m : String) : Option PlainState :=
  let child := toAbs fs m
  if child ∈ st.visited then some st
  else
    let visited := child :: st.visited
    let results := st.results ++ [child]
    match recur child visited with
    | none => none
    | some r => some { results := r.paths.foldl (fun results s => results ++ [s]) results,
                       visited := r.visited }

/-- The loop over the glob matches, for the variant. -/
def matchLoopUnconditional (fs : FileSystem) (recur : String → List String → Option Resolved) :
    List String → PlainState → Option PlainState
  | [], st => some st
  | m :: ms, st =>
    match matchStepUnconditional fs recur st m with
    | none => none
    | some st1 => matchLoopUnconditional fs recur ms st1

/-- The loop over the patterns of one line, for the variant. -/
def patternLoopUnconditional (fs : FileSystem) (U : UnicodeTables)
    (recur : String → List String → Option Resolved) (baseDir : String) :
    List String → PlainState → Option PlainState
  | [], st => some st
  | pat :: pats, st =>
    let p := unquote (TrimSpace U pat)
    if p == "" then patternLoopUnconditional fs U recur baseDir pats st
    else
      let p1 := expandTilde fs p
      let p2 := if !fs.isAbs p1 then fs.join baseDir p1 else p1
      match fs.glob p2 with
      | none => patternLoopUnconditional fs U recur baseDir pats st
      | some globbed =>
        if globbed.length == 0 then patternLoopUnconditional fs U recur baseDir pats st
        else
          match matchLoopUnconditional fs recur globbed st with
          | none => none
          | some st1 => patternLoopUnconditional fs U recur baseDir pats st1

/-- The loop over the lines of the file, for the variant. -/
def lineLoopUnconditional (fs : FileSystem) (U : UnicodeTables)
    (recur : String → List String → Option Resolved) (baseDir : String) :
    List String → PlainState → Option PlainState
  | [], st => some st
  | line0 :: lines, st =>
    let line1 := TrimSpace U line0
    if line1 == "" then lineLoopUnconditional fs U recur baseDir lines st
    else
      let line2 := stripInlineComment U line1
      if line2 == "" then lineLoopUnconditional fs U recur baseDir lines st
      else if HasPrefix (TrimSpace U line2) "#" then
        lineLoopUnconditional fs U recur baseDir lines st
      else
        let fields := splitFieldsRespectQuotes line2
        if fields.length == 0 then lineLoopUnconditional fs U recur baseDir lines st
        else if !EqualFold U (fields.headD "") "Include" then
          lineLoopUnconditional fs U recur baseDir lines st
        else
          match patternLoopUnconditional fs U recur baseDir (fields.drop 1) st with
          | none => none
          | some st1 => lineLoopUnconditional fs U recur baseDir lines st1

/-- The variant of `resolveIncludes` that keeps no set `added`: the same function, line for
line, except that the newly visited child and the elements of each recursive result are
appended to `results` unconditionally.  The first argument bounds the depth of the recursion
as in `resolveIncludes`. -/
def resolveIncludesUnconditional (fs : FileSystem) (U : UnicodeTables) :
    Nat → String → List String → Option Resolved
  | 0, _, _ => none
  | fuel + 1, filePath, visited =>
    let fp := toAbs fs (expandTilde fs filePath)
    match fs.openFile fp with
    | none => some { paths := [], err := false, visited := visited }
    | some (lines, scanErr) =>
      match lineLoopUnconditional fs U
          (fun child vis => resolveIncludesUnconditional fs U fuel child vis) (fs.dir fp)
          lines { results := [], visited := visited } with
      | none => none
      | some st => some { paths := st.results, err := scanErr, visited := st.visited }

/-- The state of the variant that corresponds to a state of the loops of `resolveIncludes`:
the same `results` and `visited`, without `added`. -/
def LoopState.plain (st : LoopState) : PlainState :=
  { results := st.results, visited := st.visited }

/-- A diamond: the root includes `a.conf` and `b.conf`, and both include `c.conf`. -/
def diamondFS : FileSystem :=
  listFS [("/r/config", ["Include a.conf b.conf"]), ("/r/a.conf", ["Include c.conf"]),
    ("/r/b.conf", ["Include c.conf"]), ("/r/c.conf", [])]

/-! # Theorems -/

/-! ## The scan of `fuzzyScore` -/

theorem scanPositions_isSome_iff (ql sl : List Char) (si : Nat) :
    (scanPositions ql sl si).isSome = true ↔ ql.Sublist sl := by
  induction sl generalizing ql si with
  | nil =>
    cases ql with
    | nil => simp [scanPositions]
    | cons c ql => simp [scanPositions]
  | cons d sl ih =>
    cases ql with
    | nil => simp [scanPositions]
    | cons c ql =>
      by_cases h : d = c
      · subst h
        simp [scanPositions, ih, List.cons_sublist_cons]
      · have h1 : (d == c) = false := by simpa using h
        have e : scanPositions (c :: ql) (d :: sl) si = scanPositions (c :: ql) sl (si + 1) := by
          simp [scanPositions, h1]
        rw [e, ih]
        constructor
        · intro hs
          exact List.Sublist.cons d hs
        · intro hs
          cases hs with
          | cons _ hs => exact hs
          | cons₂ _ hs => exact absurd rfl h
        
theorem fuzzyScore_empty_left (U : UnicodeTables) (s : String) : fuzzyScore U "" s = 0 := by
  simp [fuzzyScore]

theorem fuzzyScore_empty_right (U : UnicodeTables) (q : String) : fuzzyScore U q "" = 0 := by
  simp [fuzzyScore]

theorem fuzzyScore_of_scan_none (U : UnicodeTables) (q s : String)
    (h : scanPositions (ToLower U q).data (ToLower U s).data 0 = none) :
    fuzzyScore U q s = 0 := by
  unfold fuzzyScore
  split
  · rfl
  · simp only [h]

theorem fuzzyScore_of_not_sublist (U : UnicodeTables) (q s : String)
    (h : ¬ (ToLower U q).data.Sublist (ToLower U s).data) : fuzzyScore U q s = 0 := by
  apply fuzzyScore_of_scan_none
  rw [← scanPositions_isSome_iff _ _ 0] at h
  simpa using h

/-- C1: the greedy scan of `fuzzyScore` matches every rune of the lowercased query exactly
when the lowercased query is a subsequence of the lowercased target; when it is not, or when
the query or the target is empty, the score is 0. -/
theorem fuzzyScore_subsequence (U : UnicodeTables) (q s : String) :
    ((scanPositions (ToLower U q).data (ToLower U s).data 0).isSome = true ↔
        (ToLower U q).data.Sublist (ToLower U s).data) ∧
      ((¬ (ToLower U q).data.Sublist (ToLower U s).data ∨ q = "" ∨ s = "") →
        fuzzyScore U q s = 0) := by
  refine ⟨scanPositions_isSome_iff _ _ _, ?_⟩
  rintro (h | h | h)
  · exact fuzzyScore_of_not_sublist U q s h
  · subst h; exact fuzzyScore_empty_left U s
  · subst h; exact fuzzyScore_empty_right U q

theorem fuzzyScore_subsequence_witness :
    (scanPositions (ToLower asciiTables "abc").data (ToLower asciiTables "xaxbxc").data 0).isSome
        = true ∧
      ¬ (ToLower asciiTables "abc").data.Sublist (ToLower asciiTables "acb").data ∧
      fuzzyScore asciiTables "abc" "acb" = 0 :=
  ⟨by decide, by decide,
    (fuzzyScore_subsequence asciiTables "abc" "acb").2 (Or.inl (by decide))⟩

theorem scanPositions_length {ql sl : List Char} {si : Nat} {ps : List Nat}
    (h : scanPositions ql sl si = some ps) : ps.length = ql.length := by
  induction sl generalizing ql si ps with
  | nil =>
    cases ql with
    | nil => simp [scanPositions] at h; subst h; rfl
    | cons c ql => simp [scanPositions] at h
  | cons d sl ih =>
    cases ql with
    | nil => simp [scanPositions] at h; subst h; rfl
    | cons c ql =>
      rw [scanPositions] at h
      split at h
      · simp only [Option.map_eq_some'] at h
        obtain ⟨ps', h', rfl⟩ := h
        simp [ih h']
      · exact ih h

theorem scanPositions_bounds {ql sl : List Char} {si : Nat} {ps : List Nat}
    (h : scanPositions ql sl si = some ps) : ∀ p ∈ ps, si ≤ p ∧ p < si + sl.length := by
  induction sl generalizing ql si ps with
  | nil =>
    cases ql with
    | nil => simp [scanPositions] at h; subst h; simp
    | cons c ql => simp [scanPositions] at h
  | cons d sl ih =>
    cases ql with
    | nil => simp [scanPositions] at h; subst h; simp
    | cons c ql =>
      rw [scanPositions] at h
      split at h
      · simp only [Option.map_eq_some'] at h
        obtain ⟨ps', h', rfl⟩ := h
        intro p hp
        simp only [List.mem_cons] at hp
        rcases hp with rfl | hp
        · simp
        · have := ih h' p hp
          simp only [List.length_cons]
          omega
      · intro p hp
        have := ih h p hp
        simp only [List.length_cons]
        omega

theorem scanPositions_increasing {ql sl : List Char} {si : Nat} {ps : List Nat}
    (h : scanPositions ql sl si = some ps) : ps.Pairwise (fun a b => a < b) := by
  induction sl generalizing ql si ps with
  | nil =>
    cases ql with
    | nil => simp [scanPositions] at h; subst h; simp
    | cons c ql => simp [scanPositions] at h
  | cons d sl ih =>
    cases ql with
    | nil => simp [scanPositions] at h; subst h; simp
    | cons c ql =>
      rw [scanPositions] at h
      split at h
      · simp only [Option.map_eq_some'] at h
        obtain ⟨ps', h', rfl⟩ := h
        refine List.Pairwise.cons ?_ (ih h')
        intro p hp
        have := scanPositions_bounds h' p hp
        omega
      · exact ih h

theorem adjacencyLoop_eq (ps : List Nat) (hps : ps.Pairwise (fun a b => a < b)) (sc g : Int) :
    adjacencyLoop ps (sc, g) =
      (sc + 5 * (((List.zip ps ps.tail).filter (fun ab => decide (ab.2 = ab.1 + 1))).length : Int),
        g + (((List.zip ps ps.tail).filter (fun ab => decide (ab.2 ≠ ab.1 + 1))).map
          (fun ab => (ab.2 : Int) - (ab.1 : Int) - 1)).sum) := by
  induction ps generalizing sc g with
  | nil => simp [adjacencyLoop]
  | cons p0 rest ih =>
    cases rest with
    | nil => simp [adjacencyLoop]
    | cons p1 rest =>
      have hlt : p0 < p1 := by
        have := (List.pairwise_cons.1 hps).1 p1 (by simp)
        exact this
      have htl := (List.pairwise_cons.1 hps).2
      by_cases hadj : p1 = p0 + 1
      · have e : adjacencyLoop (p0 :: p1 :: rest) (sc, g) = adjacencyLoop (p1 :: rest) (sc + 5, g) := by
          simp [adjacencyLoop, hadj]
        rw [e, ih htl]
        simp [hadj, List.filter_cons]
        ring
      · have hgap : ((p1 : Int) - (p0 : Int) - 1) > 0 := by omega
        have e : adjacencyLoop (p0 :: p1 :: rest) (sc, g)
            = adjacencyLoop (p1 :: rest) (sc, g + ((p1 : Int) - (p0 : Int) - 1)) := by
          simp [adjacencyLoop, hadj, hgap]
        rw [e, ih htl]
        simp [hadj, List.filter_cons]
        ring

theorem isWordBoundary_eq_spec (U : UnicodeTables) (sr : List Char) (pos : Nat)
    (hpos : pos < sr.length) :
    isWordBoundary U (if pos > 0 then sr.getD (pos - 1) (Char.ofNat 0) else Char.ofNat 0)
      (sr.getD pos (Char.ofNat 0)) pos = specBoundary U sr pos := by
  unfold isWordBoundary specBoundary
  by_cases h0 : pos = 0
  · subst h0; simp
  · have h1 : pos - 1 < sr.length := by omega
    have hp : pos > 0 := by omega
    have e1 : sr[pos - 1]? = some sr[pos - 1] := List.getElem?_eq_getElem h1
    have e2 : sr[pos]? = some sr[pos] := List.getElem?_eq_getElem hpos
    have e3 : sr.getD (pos - 1) (Char.ofNat 0) = sr[pos - 1] := by
      simp [List.getD_eq_getElem?_getD, e1]
    have e4 : sr.getD pos (Char.ofNat 0) = sr[pos] := by
      simp [List.getD_eq_getElem?_getD, e2]
    rw [e1, e2]
    simp only [hp, if_true, e3, e4]
    simp [h0]
    cases U.isSpace sr[pos - 1] <;> cases U.isLower sr[pos - 1] <;> cases U.isUpper sr[pos] <;>
      simp [h0, Bool.or_assoc]

theorem bonusLoop_eq (U : UnicodeTables) (qr sr : List Char) (ps : List Nat)
    (hps : ∀ p ∈ ps, p < sr.length) (idx : Nat) (sc : Int) :
    bonusLoop U qr sr idx ps sc =
      sc + ((ps.filter (specBoundary U sr)).map (fun pos => if pos = 0 then (8 : Int) else 6)).sum
        + (((List.zip (qr.drop idx) ps).filter
            (fun cp => decide (sr[cp.2]? = some cp.1))).length : Int) := by
  induction ps generalizing idx sc with
  | nil => simp [bonusLoop]
  | cons pos rest ih =>
    have hpos : pos < sr.length := hps pos (by simp)
    have hrest : ∀ p ∈ rest, p < sr.length := fun p hp => hps p (by simp [hp])
    rw [bonusLoop, isWordBoundary_eq_spec U sr pos hpos, ih hrest]
    have e2 : sr[pos]? = some sr[pos] := List.getElem?_eq_getElem hpos
    have e4 : sr.getD pos (Char.ofNat 0) = sr[pos] := by
      simp [List.getD_eq_getElem?_getD, e2]
    rw [e4]
    by_cases hidx : idx < qr.length
    · have e5 : qr.getD idx (Char.ofNat 0) = qr[idx] := by
        simp [List.getD_eq_getElem?_getD, List.getElem?_eq_getElem hidx]
      have e6 : qr.drop idx = qr[idx] :: qr.drop (idx + 1) := List.drop_eq_getElem_cons hidx
      rw [e5, e6]
      simp only [hidx, if_true, List.zip_cons_cons, List.filter_cons, e2]
      generalize specBoundary U sr pos = bd
      generalize qr[idx] = cq
      generalize sr[pos] = cs
      rcases eq_or_ne cq cs with rfl | hne
      · cases bd <;> by_cases hz : pos = 0 <;> simp [hz] <;> ring
      · have hne2 : cs ≠ cq := hne.symm
        cases bd <;> by_cases hz : pos = 0 <;> simp [hz, hne, hne2] <;> ring
    · have e6 : qr.drop idx = [] := List.drop_eq_nil_of_le (by omega)
      have e7 : qr.drop (idx + 1) = [] := List.drop_eq_nil_of_le (by omega)
      rw [e6, e7]
      simp only [hidx, if_false, List.zip_nil_left, List.filter_nil, List.length_nil,
        List.filter_cons]
      generalize specBoundary U sr pos = bd
      cases bd <;> by_cases hz : pos = 0 <;> simp [hz] <;> ring

theorem ToLower_length (U : UnicodeTables) (s : String) :
    (ToLower U s).data.length = s.data.length := by
  simp [ToLower]

/-- C2: for a non-empty query and target on which the scan succeeds with positions `p`, the
score is the closed formula `specScore`: base, early-start bonus, adjacency bonus, capped gap
penalty, word-boundary bonus and case bonus. -/
theorem fuzzyScore_eq_specScore (U : UnicodeTables) (q s : String) (p : List Nat)
    (hq : q ≠ "") (hs : s ≠ "")
    (hscan : scanPositions (ToLower U q).data (ToLower U s).data 0 = some p) :
    fuzzyScore U q s = specScore U q s p := by
  have hlen : p.length = q.data.length := by
    rw [scanPositions_length hscan, ToLower_length]
  have hb : ∀ x ∈ p, x < s.data.length := by
    intro x hx
    have := scanPositions_bounds hscan x hx
    rw [ToLower_length] at this
    omega
  have hinc := scanPositions_increasing hscan
  have hqne : q.data ≠ [] := by
    intro h
    apply hq
    cases q
    simp_all
  have hpne : p.length ≠ 0 := by
    rw [hlen]
    intro h
    exact hqne (List.length_eq_zero.1 h)
  unfold fuzzyScore
  have h1 : (q == "" || s == "") = false := by simp [hq, hs]
  simp only [h1, hscan]
  simp only [Bool.false_eq_true, if_false, beq_iff_eq, hpne]
  rw [bonusLoop_eq U q.data s.data p hb, adjacencyLoop_eq p hinc]
  unfold specScore
  have cap : ∀ g : Int, (if g > 15 then (15 : Int) else g) = min 15 g := by
    intro g
    split <;> omega
  cases p with
  | nil => simp at hpne
  | cons p0 rest =>
    simp only [List.getD_cons_zero, List.headD_cons, List.drop_zero, List.tail_cons, cap,
      zero_add]
    split <;> ring

theorem fuzzyScore_eq_specScore_witness :
    scanPositions (ToLower asciiTables "abc").data (ToLower asciiTables "xaxbxc").data 0
        = some [1, 3, 5] ∧
      specScore asciiTables "abc" "xaxbxc" [1, 3, 5] = 23 ∧
      fuzzyScore asciiTables "abc" "xaxbxc" = 23 :=
  ⟨by decide, by decide,
    (fuzzyScore_eq_specScore asciiTables "abc" "xaxbxc" [1, 3, 5] (by decide) (by decide)
      (by decide)).trans (by decide)⟩

/-! ## Strict weak orders and the two comparators -/

theorem runesLess_irrefl (a : List Char) : runesLess a a = false := by
  induction a with
  | nil => rfl
  | cons x xs ih => simp [runesLess, ih]

theorem runesLess_asymm (a b : List Char) (h : runesLess a b = true) : runesLess b a = false := by
  induction a generalizing b with
  | nil => cases b <;> simp_all [runesLess]
  | cons x xs ih =>
    cases b with
    | nil => simp [runesLess] at h
    | cons y ys =>
      rw [runesLess] at h ⊢
      by_cases hxy : x < y
      · have hyx : ¬ y < x := fun h' => lt_asymm hxy h'
        simp [hyx, hxy]
      · by_cases hyx : y < x
        · simp [hxy, hyx] at h
        · simp only [hxy, hyx, if_false] at h ⊢
          exact ih ys h

theorem runesLess_total (a b : List Char) (h1 : runesLess a b = false) (h2 : runesLess b a = false) :
    a = b := by
  induction a generalizing b with
  | nil => cases b <;> simp_all [runesLess]
  | cons x xs ih =>
    cases b with
    | nil => simp [runesLess] at h2
    | cons y ys =>
      rw [runesLess] at h1 h2
      by_cases hxy : x < y
      · simp [hxy] at h1
      · by_cases hyx : y < x
        · simp [hyx] at h2
        · simp only [hxy, hyx, if_false] at h1 h2
          have hx : x = y := le_antisymm (not_lt.1 hyx) (not_lt.1 hxy)
          rw [hx, ih ys h1 h2]

theorem runesLess_trans (a b c : List Char) (h1 : runesLess a b = true) (h2 : runesLess b c = true) :
    runesLess a c = true := by
  induction a generalizing b c with
  | nil =>
    cases b with
    | nil => simp [runesLess] at h1
    | cons y ys =>
      cases c with
      | nil => simp [runesLess] at h2
      | cons z zs => simp [runesLess]
  | cons x xs ih =>
    cases b with
    | nil => simp [runesLess] at h1
    | cons y ys =>
      cases c with
      | nil => simp [runesLess] at h2
      | cons z zs =>
        rw [runesLess] at h1 h2 ⊢
        by_cases hxy : x < y
        · by_cases hyz : y < z
          · simp [lt_trans hxy hyz]
          · by_cases hzy : z < y
            · simp [hyz, hzy] at h2
            · have hy : y = z := le_antisymm (not_lt.1 hzy) (not_lt.1 hyz)
              subst hy
              simp [hxy]
        · by_cases hyx : y < x
          · simp [hxy, hyx] at h1
          · have hx : x = y := le_antisymm (not_lt.1 hyx) (not_lt.1 hxy)
            subst hx
            simp only [hxy, if_false] at h1
            by_cases hyz : x < z
            · simp [hyz]
            · by_cases hzy : z < x
              · simp [hyz, hzy] at h2
              · simp only [hyz, hzy, if_false] at h2 ⊢
                exact ih ys zs h1 h2

theorem runesLess_strictWeak : StrictWeak runesLess := by
  refine ⟨runesLess_asymm, ?_⟩
  intro a b c h1 h2
  cases h3 : runesLess a c with
  | false => rfl
  | true =>
    exfalso
    cases h4 : runesLess b a with
    | false =>
      have hab : a = b := runesLess_total a b h1 h4
      subst hab
      rw [h3] at h2
      exact Bool.noConfusion h2
    | true =>
      have := runesLess_trans b a c h4 h3
      rw [this] at h2
      exact Bool.noConfusion h2

theorem stringLess_total (a b : String) (h1 : stringLess a b = false)
    (h2 : stringLess b a = false) : a = b := by
  have := runesLess_total a.data b.data h1 h2
  cases a; cases b; simp_all

/-- A comparator that reads its arguments through a key is a strict weak order as soon as the
comparison of the keys is one. -/
theorem StrictWeak.comap {α β : Type} {less : β → β → Bool} (h : StrictWeak less) (f : α → β) :
    StrictWeak (fun a b => less (f a) (f b)) :=
  ⟨fun a b hab => h.1 (f a) (f b) hab, fun a b c h1 h2 => h.2 (f a) (f b) (f c) h1 h2⟩

/-- Lexicographic combination: decide by `l1`, and by `l2` among the elements `l1` ties. -/
theorem StrictWeak.lex {α : Type} {l1 l2 : α → α → Bool} (h1 : StrictWeak l1)
    (h2 : StrictWeak l2) :
    StrictWeak (fun a b => l1 a b || (!l1 b a && l2 a b)) := by
  obtain ⟨a1, n1⟩ := h1
  obtain ⟨a2, n2⟩ := h2
  constructor
  · intro a b hab
    cases e1 : l1 a b with
    | true => simp [a1 a b e1, e1]
    | false =>
      simp only [e1, Bool.false_or, Bool.and_eq_true, Bool.not_eq_true'] at hab
      simp [hab.1, a2 a b hab.2]
  · intro a b c hab hbc
    simp only [Bool.or_eq_false_iff, Bool.and_eq_false_imp, Bool.not_eq_true'] at hab hbc ⊢
    refine ⟨n1 a b c hab.1 hbc.1, ?_⟩
    intro hca
    have hba : l1 b a = false := n1 b c a hbc.1 hca
    have hcb : l1 c b = false := n1 c a b hca hab.1
    exact n2 a b c (hab.2 hba) (hbc.2 hcb)

theorem int_gt_strictWeak : StrictWeak (fun a b : Int => decide (a > b)) := by
  constructor
  · intro a b h
    simp only [decide_eq_true_eq, decide_eq_false_iff_not] at h ⊢
    omega
  · intro a b c h1 h2
    simp only [decide_eq_false_iff_not] at h1 h2 ⊢
    omega

theorem bool_flag_strictWeak : StrictWeak (fun a b : Bool => a && !b) := by
  constructor
  · intro a b; cases a <;> cases b <;> simp
  · intro a b c; cases a <;> cases b <;> cases c <;> simp

theorem string_step (x y : String) (z : Bool) :
    (if x != y then stringLess x y else z) = (stringLess x y || (!stringLess y x && z)) := by
  by_cases h : x = y
  · subst h
    simp [stringLess, runesLess_irrefl]
  · have hne : (x != y) = true := by simpa using h
    rw [if_pos hne]
    cases h1 : stringLess x y with
    | true => rfl
    | false =>
      cases h2 : stringLess y x with
      | true => rfl
      | false => exact absurd (stringLess_total x y h1 h2) h

theorem int_step (s t : Int) (z : Bool) :
    (if s != t then decide (s > t) else z) = (decide (s > t) || (!decide (t > s) && z)) := by
  by_cases h : s = t
  · subst h
    simp
  · have hne : (s != t) = true := by simpa using h
    rw [if_pos hne]
    by_cases h1 : s > t
    · simp [h1]
    · have h2 : t > s := by omega
      simp [h1, h2]

/-- The scored comparator is the lexicographic combination of five comparisons: score
(descending), pinned flag, pin time (descending), lowercased alias, alias. -/
theorem lessScored_eq_lex (U : UnicodeTables) (a b : scored) :
    lessScored U a b =
      (decide (a.score > b.score) || (!decide (b.score > a.score) &&
        ((!(a.srv.PinnedAt == 0) && !(!(b.srv.PinnedAt == 0))) ||
          (!(!(b.srv.PinnedAt == 0) && !(!(a.srv.PinnedAt == 0))) &&
            (decide (a.srv.PinnedAt > b.srv.PinnedAt) ||
              (!decide (b.srv.PinnedAt > a.srv.PinnedAt) &&
                (stringLess (ToLower U a.srv.Alias) (ToLower U b.srv.Alias) ||
                  (!stringLess (ToLower U b.srv.Alias) (ToLower U a.srv.Alias) &&
                    stringLess a.srv.Alias b.srv.Alias)))))))) := by
  unfold lessScored
  rw [int_step]
  congr 2
  simp only [string_step]
  generalize (stringLess (ToLower U a.srv.Alias) (ToLower U b.srv.Alias) ||
    (!stringLess (ToLower U b.srv.Alias) (ToLower U a.srv.Alias) &&
      stringLess a.srv.Alias b.srv.Alias)) = z
  by_cases ha : a.srv.PinnedAt = 0 <;> by_cases hb : b.srv.PinnedAt = 0
  · simp [ha, hb]
  · have : ¬ (0 : Int) = b.srv.PinnedAt := fun h => hb h.symm
    simp [ha, hb]
  · simp [ha, hb]
  · by_cases hab : a.srv.PinnedAt = b.srv.PinnedAt
    · simp [ha, hb, hab]
    · by_cases h1 : a.srv.PinnedAt > b.srv.PinnedAt
      · simp [ha, hb, hab, h1]
      · have h2 : b.srv.PinnedAt > a.srv.PinnedAt := by omega
        have h3 : ¬ b.srv.PinnedAt < a.srv.PinnedAt := by omega
        simp [ha, hb, hab, h2, h3]

/-- The empty-query comparator is the lexicographic combination of four comparisons: pinned
flag, pin time (descending), lowercased alias, alias, where the two alias keys of a pinned
entry are empty: pinned entries are never compared by alias. -/
theorem lessEmptyQuery_eq_lex (U : UnicodeTables) (a b : Server) :
    lessEmptyQuery U a b =
      ((!(a.PinnedAt == 0) && !(!(b.PinnedAt == 0))) ||
        (!(!(b.PinnedAt == 0) && !(!(a.PinnedAt == 0))) &&
          (decide (a.PinnedAt > b.PinnedAt) ||
            (!decide (b.PinnedAt > a.PinnedAt) &&
              (runesLess (if a.PinnedAt = 0 then (ToLower U a.Alias).data else [])
                  (if b.PinnedAt = 0 then (ToLower U b.Alias).data else []) ||
                (!runesLess (if b.PinnedAt = 0 then (ToLower U b.Alias).data else [])
                    (if a.PinnedAt = 0 then (ToLower U a.Alias).data else []) &&
                  runesLess (if a.PinnedAt = 0 then a.Alias.data else [])
                    (if b.PinnedAt = 0 then b.Alias.data else []))))))) := by
  unfold lessEmptyQuery
  simp only [string_step]
  by_cases ha : a.PinnedAt = 0 <;> by_cases hb : b.PinnedAt = 0
  · simp [ha, hb, stringLess]
  · simp [ha, hb]
  · simp [ha, hb]
  · by_cases h1 : a.PinnedAt > b.PinnedAt
    · simp [ha, hb, h1]
    · have h3 : ¬ b.PinnedAt < a.PinnedAt := by omega
      simp [ha, hb, h3, runesLess]

theorem lessScored_strictWeak (U : UnicodeTables) : StrictWeak (lessScored U) := by
  have h : lessScored U = fun a b => _ := funext fun a => funext fun b => lessScored_eq_lex U a b
  rw [h]
  exact StrictWeak.lex (int_gt_strictWeak.comap (fun a : scored => a.score))
    (StrictWeak.lex (bool_flag_strictWeak.comap (fun a : scored => !(a.srv.PinnedAt == 0)))
      (StrictWeak.lex (int_gt_strictWeak.comap (fun a : scored => a.srv.PinnedAt))
        (StrictWeak.lex
          (runesLess_strictWeak.comap (fun a : scored => (ToLower U a.srv.Alias).data))
          (runesLess_strictWeak.comap (fun a : scored => a.srv.Alias.data)))))

theorem lessEmptyQuery_strictWeak (U : UnicodeTables) : StrictWeak (lessEmptyQuery U) := by
  have h : lessEmptyQuery U = fun a b => _ :=
    funext fun a => funext fun b => lessEmptyQuery_eq_lex U a b
  rw [h]
  exact StrictWeak.lex (bool_flag_strictWeak.comap (fun a : Server => !(a.PinnedAt == 0)))
    (StrictWeak.lex (int_gt_strictWeak.comap (fun a : Server => a.PinnedAt))
      (StrictWeak.lex
        (runesLess_strictWeak.comap
          (fun a : Server => if a.PinnedAt = 0 then (ToLower U a.Alias).data else []))
        (runesLess_strictWeak.comap
          (fun a : Server => if a.PinnedAt = 0 then a.Alias.data else []))))

/-! ## Insertion sort meets the contract of the `sort` package -/

theorem sinkLeft_eq_orderedInsert {α : Type} (less : α → α → Bool) (x : α) (l : List α) :
    sinkLeft less x l = List.orderedInsert (fun a b => less a b = false) x l := by
  induction l with
  | nil => rfl
  | cons y ys ih =>
    simp only [sinkLeft, List.orderedInsert, ih]
    by_cases e : less x y = true <;> simp [e]

theorem foldl_sinkLeft_eq {α : Type} (less : α → α → Bool) (data : List α) :
    data.foldl (fun sortedRev x => sinkLeft less x sortedRev) []
      = List.insertionSort (fun a b => less a b = false) data.reverse := by
  induction data using List.reverseRecOn with
  | nil => rfl
  | append_singleton l x ih =>
    rw [List.foldl_append, List.reverse_append, ih]
    show sinkLeft less x _ = List.insertionSort _ (x :: l.reverse)
    rw [sinkLeft_eq_orderedInsert]
    rfl

theorem insertionSortLessFunc_eq {α : Type} (less : α → α → Bool) (data : List α) :
    insertionSortLessFunc less data
      = (List.insertionSort (fun a b => less a b = false) data.reverse).reverse := by
  unfold insertionSortLessFunc
  rw [foldl_sinkLeft_eq]

theorem insertionSortLessFunc_perm {α : Type} (less : α → α → Bool) (data : List α) :
    (insertionSortLessFunc less data).Perm data := by
  rw [insertionSortLessFunc_eq]
  exact (List.reverse_perm _).trans ((List.perm_insertionSort _ _).trans (List.reverse_perm _))

theorem insertionSortLessFunc_sorted {α : Type} (less : α → α → Bool) (h : StrictWeak less)
    (data : List α) :
    (insertionSortLessFunc less data).Pairwise (fun a b => less b a = false) := by
  rw [insertionSortLessFunc_eq, List.pairwise_reverse]
  haveI : IsTotal α (fun a b => less a b = false) :=
    ⟨fun a b => by
      cases e : less a b with
      | false => exact Or.inl rfl
      | true => exact Or.inr (h.1 a b e)⟩
  haveI : IsTrans α (fun a b => less a b = false) := ⟨fun a b c => h.2 a b c⟩
  exact List.sorted_insertionSort (fun a b => less a b = false) data.reverse

theorem ties_pairwise {α : Type} (less : α → α → Bool) (h : StrictWeak less) (x : α)
    (l : List α) : (l.filter (ties less x)).Pairwise (fun a b => less b a = false) := by
  apply List.Pairwise.imp_of_mem (R := fun _ _ => True)
  · intro a b ha hb _
    have ha2 := (List.mem_filter.1 ha).2
    have hb2 := (List.mem_filter.1 hb).2
    simp only [ties, Bool.and_eq_true, Bool.not_eq_true'] at ha2 hb2
    exact h.2 b x a hb2.2 ha2.1
  · exact List.pairwise_of_forall (fun _ _ => trivial)

theorem insertionSortLessFunc_stable {α : Type} (less : α → α → Bool) (h : StrictWeak less)
    (data : List α) (x : α) :
    (insertionSortLessFunc less data).filter (ties less x) = data.filter (ties less x) := by
  have hsub : List.Sublist (data.filter (ties less x)) (insertionSortLessFunc less data) := by
    rw [insertionSortLessFunc_eq]
    have hc : List.Sublist (data.filter (ties less x)).reverse data.reverse :=
      List.reverse_sublist.2 (List.filter_sublist _)
    have hp : (data.filter (ties less x)).reverse.Pairwise (fun a b => less a b = false) := by
      rw [List.pairwise_reverse]
      exact ties_pairwise less h x data
    have := List.sublist_insertionSort (r := fun a b => less a b = false) hp hc
    have h2 := List.reverse_sublist.2 this
    rwa [List.reverse_reverse] at h2
  have hsub2 : List.Sublist (data.filter (ties less x))
      ((insertionSortLessFunc less data).filter (ties less x)) := by
    have := hsub.filter (ties less x)
    simpa [List.filter_filter] using this
  have hlen : ((insertionSortLessFunc less data).filter (ties less x)).length
      = (data.filter (ties less x)).length :=
    ((insertionSortLessFunc_perm less data).filter _).length_eq
  exact (hsub2.eq_of_length hlen.symm).symm

theorem insertionSortLib_lawful : insertionSortLib.Lawful where
  slice_perm := fun less l => insertionSortLessFunc_perm less l
  slice_sorted := fun less h l => insertionSortLessFunc_sorted less h l
  stable_perm := fun less l => insertionSortLessFunc_perm less l
  stable_sorted := fun less h l => insertionSortLessFunc_sorted less h l
  stable_stable := fun less h l x => insertionSortLessFunc_stable less h l x

/-! ## `ListServers` -/

theorem scoreLoop_eq (U : UnicodeTables) (q : String) (all : List Server) (acc : List scored) :
    all.foldl
        (fun results srv =>
          let score := computeServerScore U srv q
          if score > 0 then results ++ [{ srv := srv, score := score }] else results)
        acc
      = acc ++ (all.filter (fun srv => decide (computeServerScore U srv q > 0))).map
          (fun srv => ({ srv := srv, score := computeServerScore U srv q } : scored)) := by
  induction all generalizing acc with
  | nil => simp
  | cons srv rest ih =>
    simp only [List.foldl_cons]
    rw [ih]
    by_cases h : computeServerScore U srv q > 0
    · simp [h, List.filter_cons]
    · simp [h, List.filter_cons]

theorem outLoop_eq (sorted : List scored) (acc : List Server) :
    sorted.foldl (fun out r => out ++ [r.srv]) acc = acc ++ sorted.map (fun r => r.srv) := by
  induction sorted generalizing acc with
  | nil => simp
  | cons r rest ih => simp [ih]

/-- The slice `results` that `ListServers` sorts: the entries of positive score, each with its
score. -/
theorem ListServers_query_eq (U : UnicodeTables) (S : SortLib) (L : List Server)
    (query : String) (hq : TrimSpace U query ≠ "") :
    ListServers U S (.ok L) query =
      .ok ((S.Slice (lessScored U)
        ((L.filter (fun srv => decide (computeServerScore U srv (TrimSpace U query) > 0))).map
          (fun srv =>
            ({ srv := srv, score := computeServerScore U srv (TrimSpace U query) } : scored)))).map
        (fun r => r.srv)) := by
  unfold ListServers
  have h1 : (TrimSpace U query == "") = false := by simpa using hq
  simp only [h1, Bool.false_eq_true, if_false]
  rw [scoreLoop_eq, outLoop_eq]
  simp

theorem ListServers_empty_eq (U : UnicodeTables) (S : SortLib) (L : List Server)
    (query : String) (hq : TrimSpace U query = "") :
    ListServers U S (.ok L) query = .ok (S.SliceStable (lessEmptyQuery U) L) := by
  unfold ListServers
  simp [hq]

theorem lessScored_false_score (U : UnicodeTables) (a b : scored)
    (h : lessScored U b a = false) : a.score ≥ b.score := by
  unfold lessScored at h
  by_cases hs : b.score = a.score
  · omega
  · have hne : (b.score != a.score) = true := by simpa using hs
    rw [if_pos hne] at h
    simp only [decide_eq_false_iff_not] at h
    omega

/-- C3: with a non-empty trimmed query, `ListServers` returns a permutation of the entries of
positive score, and the scores do not increase along the returned list. -/
theorem ListServers_query_perm_sorted (U : UnicodeTables) (S : SortLib) (hS : S.Lawful)
    (L : List Server) (query : String) (hq : TrimSpace U query ≠ "") :
    ∃ out, ListServers U S (.ok L) query = .ok out ∧
      out.Perm (L.filter (fun e => decide (computeServerScore U e (TrimSpace U query) > 0))) ∧
      out.Pairwise (fun a b =>
        computeServerScore U a (TrimSpace U query) ≥ computeServerScore U b (TrimSpace U query)) := by
  refine ⟨_, ListServers_query_eq U S L query hq, ?_, ?_⟩
  · have hp := (hS.slice_perm (lessScored U)
      ((L.filter (fun srv => decide (computeServerScore U srv (TrimSpace U query) > 0))).map
        (fun srv =>
          ({ srv := srv, score := computeServerScore U srv (TrimSpace U query) } : scored)))).map
      (fun r => r.srv)
    refine hp.trans ?_
    rw [List.map_map]
    simp [Function.comp_def]
  · rw [List.pairwise_map]
    have hsorted := hS.slice_sorted (lessScored U) (lessScored_strictWeak U)
      ((L.filter (fun srv => decide (computeServerScore U srv (TrimSpace U query) > 0))).map
        (fun srv =>
          ({ srv := srv, score := computeServerScore U srv (TrimSpace U query) } : scored)))
    have hmem : ∀ r ∈ S.Slice (lessScored U)
        ((L.filter (fun srv => decide (computeServerScore U srv (TrimSpace U query) > 0))).map
          (fun srv =>
            ({ srv := srv, score := computeServerScore U srv (TrimSpace U query) } : scored))),
        r.score = computeServerScore U r.srv (TrimSpace U query) := by
      intro r hr
      have := (hS.slice_perm (lessScored U) _).mem_iff.1 hr
      simp only [List.mem_map] at this
      obtain ⟨srv, _, rfl⟩ := this
      rfl
    refine hsorted.imp_of_mem ?_
    intro a b ha hb hab
    rw [← hmem a ha, ← hmem b hb]
    exact lessScored_false_score U a b hab

/-- Two entries the empty-query order does not distinguish: both pinned at the same instant,
or both unpinned with the same alias. -/
theorem ties_lessEmptyQuery_iff (U : UnicodeTables) (x y : Server) :
    ties (lessEmptyQuery U) x y = true ↔
      (x.PinnedAt ≠ 0 ∧ y.PinnedAt ≠ 0 ∧ x.PinnedAt = y.PinnedAt) ∨
        (x.PinnedAt = 0 ∧ y.PinnedAt = 0 ∧ x.Alias = y.Alias) := by
  unfold ties lessEmptyQuery
  by_cases hx : x.PinnedAt = 0 <;> by_cases hy : y.PinnedAt = 0
  · simp only [hx, hy, string_step]
    simp only [beq_self_eq_true, Bool.not_true, bne_self_eq_false, Bool.false_eq_true, if_false,
      Bool.and_self, ne_eq, not_true_eq_false, false_and, true_and, false_or]
    constructor
    · intro h
      simp only [Bool.and_eq_true, Bool.not_eq_true', Bool.or_eq_false_iff,
        Bool.and_eq_false_imp] at h
      obtain ⟨⟨h1, h2⟩, h3, h4⟩ := h
      exact stringLess_total _ _ (h2 h3) (h4 h1)
    · intro h
      rw [h]
      simp [stringLess, runesLess_irrefl]
  · have : ¬ (0 : Int) = y.PinnedAt := fun h => hy h.symm
    simp [hx, hy]
  · simp [hx, hy]
  · simp [hx, hy]
    constructor
    · intro h; omega
    · intro h; omega

theorem lessEmptyQuery_false_ordered (U : UnicodeTables) (a b : Server)
    (h : lessEmptyQuery U b a = false) : emptyQueryOrdered U a b := by
  unfold lessEmptyQuery at h
  unfold emptyQueryOrdered
  by_cases ha : a.PinnedAt = 0 <;> by_cases hb : b.PinnedAt = 0
  · refine ⟨fun h' => absurd hb h', fun h' => absurd ha h', fun _ _ => ?_⟩
    simp only [ha, hb, beq_self_eq_true, Bool.not_true, bne_self_eq_false, Bool.false_eq_true,
      if_false, Bool.and_self] at h
    by_cases hl : ToLower U b.Alias = ToLower U a.Alias
    · have hne : (ToLower U b.Alias != ToLower U a.Alias) = false := by simpa using hl
      rw [hne] at h
      simp only [Bool.false_eq_true, if_false] at h
      refine ⟨?_, fun _ => h⟩
      rw [hl]
      exact runesLess_irrefl _
    · have hne : (ToLower U b.Alias != ToLower U a.Alias) = true := by simpa using hl
      rw [hne] at h
      simp only [if_true] at h
      exact ⟨h, fun h' => absurd h'.symm hl⟩
  · exfalso
    simp [ha, hb] at h
  · exact ⟨fun _ => ha, fun _ h' => absurd hb h', fun h' => absurd h' ha⟩
  · refine ⟨fun _ => ha, fun _ _ => ?_, fun h' => absurd h' ha⟩
    simp [ha, hb] at h
    omega

/-- C4: with a query that is empty after trimming, `ListServers` returns a stable reordering
of the repository list: a permutation in which entries of equal rank keep their order, no
unpinned entry precedes a pinned one, pinned entries come by non-increasing pin time and
unpinned entries by ascending lowercased alias, then ascending alias. -/
theorem ListServers_empty_query_order (U : UnicodeTables) (S : SortLib) (hS : S.Lawful)
    (L : List Server) (query : String) (hq : TrimSpace U query = "") :
    ∃ out, ListServers U S (.ok L) query = .ok out ∧ out.Perm L ∧
      (∀ x, out.filter (sameRank x) = L.filter (sameRank x)) ∧
      out.Pairwise (emptyQueryOrdered U) := by
  refine ⟨_, ListServers_empty_eq U S L query hq, hS.stable_perm _ _, ?_, ?_⟩
  · intro x
    have hfun : sameRank x = ties (lessEmptyQuery U) x := by
      funext y
      have := ties_lessEmptyQuery_iff U x y
      unfold sameRank
      cases hty : ties (lessEmptyQuery U) x y with
      | true => exact decide_eq_true (this.1 hty)
      | false =>
        apply decide_eq_false
        intro h'
        rw [this.2 h'] at hty
        exact Bool.noConfusion hty
    rw [hfun]
    exact hS.stable_stable _ (lessEmptyQuery_strictWeak U) L x
  · exact (hS.stable_sorted _ (lessEmptyQuery_strictWeak U) L).imp
      (fun {a b} h => lessEmptyQuery_false_ordered U a b h)

theorem ListServers_empty_query_order_witness :
    TrimSpace asciiTables "  " = "" ∧
      ListServers asciiTables insertionSortLib
          (.ok [aliasOnly "A" 5, aliasOnly "B" 0, aliasOnly "C" 9]) "  "
        = .ok [aliasOnly "C" 9, aliasOnly "A" 5, aliasOnly "B" 0] ∧
      ∃ out, ListServers asciiTables insertionSortLib
          (.ok [aliasOnly "A" 5, aliasOnly "B" 0, aliasOnly "C" 9]) "  " = .ok out ∧
        out.Perm [aliasOnly "A" 5, aliasOnly "B" 0, aliasOnly "C" 9] ∧
        (∀ x, out.filter (sameRank x)
          = [aliasOnly "A" 5, aliasOnly "B" 0, aliasOnly "C" 9].filter (sameRank x)) ∧
        out.Pairwise (emptyQueryOrdered asciiTables) :=
  ⟨by decide, by rfl,
    ListServers_empty_query_order asciiTables insertionSortLib insertionSortLib_lawful
      [aliasOnly "A" 5, aliasOnly "B" 0, aliasOnly "C" 9] "  " (by decide)⟩

theorem ListServers_query_perm_sorted_witness :
    TrimSpace asciiTables " web " ≠ "" ∧
      ∃ out, ListServers asciiTables insertionSortLib
          (.ok [aliasOnly "db-01" 0, aliasOnly "new-abcweb" 0, aliasOnly "web-01" 0]) " web "
          = .ok out ∧
        out.Perm ([aliasOnly "db-01" 0, aliasOnly "new-abcweb" 0, aliasOnly "web-01" 0].filter
          (fun e => decide (computeServerScore asciiTables e (TrimSpace asciiTables " web ") > 0))) ∧
        out.Pairwise (fun a b =>
          computeServerScore asciiTables a (TrimSpace asciiTables " web ")
            ≥ computeServerScore asciiTables b (TrimSpace asciiTables " web ")) :=
  ⟨by decide,
    ListServers_query_perm_sorted asciiTables insertionSortLib insertionSortLib_lawful
      [aliasOnly "db-01" 0, aliasOnly "new-abcweb" 0, aliasOnly "web-01" 0] " web " (by decide)⟩

/-! ## Which entries `ListServers` keeps -/

theorem bestLoop_pos (U : UnicodeTables) (q : String) (fields : List String) (best : Int)
    (hbest : best ≥ 0) :
    fields.foldl
        (fun best f =>
          if f == "" then best
          else
            let sc := fuzzyScore U q f
            if sc > best then sc else best)
        best > 0
      ↔ best > 0 ∨ ∃ f ∈ fields, fuzzyScore U q f > 0 := by
  induction fields generalizing best with
  | nil => simp
  | cons f rest ih =>
    simp only [List.foldl_cons]
    by_cases hf : f = ""
    · subst hf
      simp only [beq_self_eq_true, if_true]
      rw [ih best hbest]
      simp [fuzzyScore_empty_right]
    · have hne : (f == "") = false := by simpa using hf
      simp only [hne, Bool.false_eq_true, if_false]
      by_cases hsc : fuzzyScore U q f > best
      · simp only [hsc, if_true]
        rw [ih _ (by omega)]
        constructor
        · rintro (h | ⟨g, hg, hgs⟩)
          · exact Or.inr ⟨f, by simp, h⟩
          · exact Or.inr ⟨g, by simp [hg], hgs⟩
        · rintro (h | ⟨g, hg, hgs⟩)
          · exact Or.inl (by omega)
          · simp only [List.mem_cons] at hg
            rcases hg with rfl | hg
            · exact Or.inl hgs
            · exact Or.inr ⟨g, hg, hgs⟩
      · simp only [hsc, if_false]
        rw [ih _ hbest]
        constructor
        · rintro (h | ⟨g, hg, hgs⟩)
          · exact Or.inl h
          · exact Or.inr ⟨g, by simp [hg], hgs⟩
        · rintro (h | ⟨g, hg, hgs⟩)
          · exact Or.inl h
          · simp only [List.mem_cons] at hg
            rcases hg with rfl | hg
            · exact Or.inl (by omega)
            · exact Or.inr ⟨g, hg, hgs⟩

theorem computeServerScore_fields (U : UnicodeTables) (srv : Server) (q : String) :
    computeServerScore U srv q =
      (candidateFields srv).foldl
        (fun best f =>
          if f == "" then best
          else
            let sc := fuzzyScore U q f
            if sc > best then sc else best)
        0 := by
  unfold computeServerScore candidateFields
  cases ha : srv.Aliases with
  | nil =>
    cases ht : srv.Tags with
    | nil => simp
    | cons t ts => simp
  | cons a as =>
    cases ht : srv.Tags with
    | nil => simp
    | cons t ts => simp

theorem computeServerScore_pos_iff (U : UnicodeTables) (srv : Server) (q : String) :
    computeServerScore U srv q > 0 ↔ ∃ f ∈ candidateFields srv, fuzzyScore U q f > 0 := by
  rw [computeServerScore_fields, bestLoop_pos U q _ 0 (le_refl 0)]
  simp

theorem fuzzyScore_pos_contains (U : UnicodeTables) (q s : String) (h : fuzzyScore U q s > 0) :
    containsSubsequence U q s = true := by
  unfold containsSubsequence
  apply decide_eq_true
  by_contra hn
  have := fuzzyScore_of_not_sublist U q s hn
  omega

/-- C5 (as stated) fails: the alias below contains `ab` as a subsequence, yet its score is
negative (base 2, case bonus 2, gap penalty 15, no early-start bonus) and the entry is
dropped. -/
theorem discard_counterexample :
    containsSubsequence asciiTables "ab" "xxxxxxxxxxxxxxxxxxxxaxxxxxxxxxxxxxxxxxxxxb" = true ∧
      candidateFields (aliasOnly "xxxxxxxxxxxxxxxxxxxxaxxxxxxxxxxxxxxxxxxxxb" 0)
        = ["xxxxxxxxxxxxxxxxxxxxaxxxxxxxxxxxxxxxxxxxxb", "", ""] ∧
      fuzzyScore asciiTables "ab" "xxxxxxxxxxxxxxxxxxxxaxxxxxxxxxxxxxxxxxxxxb" = -11 ∧
      ListServers asciiTables insertionSortLib
        (.ok [aliasOnly "xxxxxxxxxxxxxxxxxxxxaxxxxxxxxxxxxxxxxxxxxb" 0]) "ab" = .ok [] := by
  refine ⟨by decide, by decide, by decide, by rfl⟩

/-- C5 (amended): with a non-empty trimmed query `q`, an entry of the repository list is
dropped exactly when none of its candidate fields scores above 0; every entry none of whose
candidate fields contains `q` as a case-insensitive subsequence is dropped, and every kept
entry has a candidate field that contains `q` as such a subsequence. -/
theorem ListServers_discard_iff (U : UnicodeTables) (S : SortLib) (hS : S.Lawful)
    (L : List Server) (query : String) (hq : TrimSpace U query ≠ "") :
    ∃ out, ListServers U S (.ok L) query = .ok out ∧
      ∀ e ∈ L,
        (e ∉ out ↔ ∀ f ∈ candidateFields e, fuzzyScore U (TrimSpace U query) f ≤ 0) ∧
        ((∀ f ∈ candidateFields e, containsSubsequence U (TrimSpace U query) f = false) →
          e ∉ out) ∧
        (e ∈ out → ∃ f ∈ candidateFields e, containsSubsequence U (TrimSpace U query) f = true) := by
  refine ⟨_, ListServers_query_eq U S L query hq, ?_⟩
  intro e he
  have hmem : e ∈ (S.Slice (lessScored U)
        ((L.filter (fun srv => decide (computeServerScore U srv (TrimSpace U query) > 0))).map
          (fun srv =>
            ({ srv := srv, score := computeServerScore U srv (TrimSpace U query) } : scored)))).map
        (fun r => r.srv)
      ↔ computeServerScore U e (TrimSpace U query) > 0 := by
    rw [((hS.slice_perm (lessScored U) _).map (fun r => r.srv)).mem_iff]
    simp only [List.map_map, List.mem_map, List.mem_filter, decide_eq_true_eq,
      Function.comp_apply]
    constructor
    · rintro ⟨a, ⟨_, ha⟩, rfl⟩
      exact ha
    · intro h
      exact ⟨e, ⟨he, h⟩, rfl⟩
  have hkeep := computeServerScore_pos_iff U e (TrimSpace U query)
  refine ⟨?_, ?_, ?_⟩
  · rw [hmem, hkeep]
    constructor
    · intro h f hf
      by_contra hpos
      exact h ⟨f, hf, by omega⟩
    · rintro h ⟨f, hf, hpos⟩
      have := h f hf
      omega
  · intro h
    rw [hmem, hkeep]
    rintro ⟨f, hf, hpos⟩
    have := fuzzyScore_pos_contains U _ f hpos
    rw [h f hf] at this
    exact Bool.noConfusion this
  · intro h
    obtain ⟨f, hf, hpos⟩ := hkeep.1 (hmem.1 h)
    exact ⟨f, hf, fuzzyScore_pos_contains U _ f hpos⟩

theorem ListServers_discard_iff_witness :
    TrimSpace asciiTables "ab" ≠ "" ∧
      ∃ out, ListServers asciiTables insertionSortLib
          (.ok [aliasOnly "xxxxxxxxxxxxxxxxxxxxaxxxxxxxxxxxxxxxxxxxxb" 0, aliasOnly "cab" 0]) "ab"
          = .ok out ∧
        ∀ e ∈ [aliasOnly "xxxxxxxxxxxxxxxxxxxxaxxxxxxxxxxxxxxxxxxxxb" 0, aliasOnly "cab" 0],
          (e ∉ out ↔ ∀ f ∈ candidateFields e,
            fuzzyScore asciiTables (TrimSpace asciiTables "ab") f ≤ 0) ∧
          ((∀ f ∈ candidateFields e,
              containsSubsequence asciiTables (TrimSpace asciiTables "ab") f = false) →
            e ∉ out) ∧
          (e ∈ out → ∃ f ∈ candidateFields e,
            containsSubsequence asciiTables (TrimSpace asciiTables "ab") f = true) :=
  ⟨by decide,
    ListServers_discard_iff asciiTables insertionSortLib insertionSortLib_lawful
      [aliasOnly "xxxxxxxxxxxxxxxxxxxxaxxxxxxxxxxxxxxxxxxxxb" 0, aliasOnly "cab" 0] "ab"
      (by decide)⟩

/-! ## The tie-break of the scored sort and the empty-query order -/

/-- Outside one case the two comparators agree on entries of equal score: they differ only
when both entries are pinned at the same instant. -/
theorem lessScored_eq_lessEmptyQuery (U : UnicodeTables) (a b : scored)
    (hscore : a.score = b.score)
    (hpin : ¬ (a.srv.PinnedAt ≠ 0 ∧ a.srv.PinnedAt = b.srv.PinnedAt)) :
    lessScored U a b = lessEmptyQuery U a.srv b.srv := by
  unfold lessScored lessEmptyQuery
  have h1 : (a.score != b.score) = false := by simpa using hscore
  simp only [h1, Bool.false_eq_true, if_false]
  by_cases ha : a.srv.PinnedAt = 0 <;> by_cases hb : b.srv.PinnedAt = 0
  · simp [ha, hb]
  · simp [ha, hb]
  · simp [ha, hb]
  · have hne : ¬ a.srv.PinnedAt = b.srv.PinnedAt := fun h => hpin ⟨ha, h⟩
    simp [ha, hb, hne]

/-- C6: the two comparators at two entries of equal score pinned at the same instant.  The
scored comparator goes on to the aliases and puts `a` first; the empty-query comparator
returns `After`, which is false both ways, so the stable sort keeps the repository order
`b, a`. -/
theorem tieBreak_differs_when_pinned_together :
    lessScored asciiTables { srv := aliasOnly "a" 5, score := 10 }
        { srv := aliasOnly "b" 5, score := 10 } = true ∧
      lessEmptyQuery asciiTables (aliasOnly "a" 5) (aliasOnly "b" 5) = false ∧
      lessEmptyQuery asciiTables (aliasOnly "b" 5) (aliasOnly "a" 5) = false ∧
      ListServers asciiTables insertionSortLib (.ok [aliasOnly "b" 5, aliasOnly "a" 5]) ""
        = .ok [aliasOnly "b" 5, aliasOnly "a" 5] := by
  refine ⟨by decide, by decide, by decide, by rfl⟩

/-! ## Relevance ordering for the query `web` -/

theorem sorted_pair_eq {α : Type} (less : α → α → Bool) (p q : α) (l : List α)
    (hperm : l.Perm [p, q]) (hsorted : l.Pairwise (fun a b => less b a = false))
    (hpq : less p q = true) : l = [p, q] := by
  have hlen := hperm.length_eq
  match l, hlen with
  | [u, v], _ =>
    have hu : u ∈ [p, q] := hperm.mem_iff.1 (by simp)
    simp only [List.mem_cons, List.mem_singleton, List.not_mem_nil, or_false] at hu
    rcases hu with rfl | rfl
    · have := (List.perm_cons u).1 hperm
      rw [List.perm_singleton.1 this]
    · exfalso
      have h2 : [u, v].Perm [u, p] := hperm.trans (List.Perm.swap u p [])
      have h3 := (List.perm_cons u).1 h2
      have hv := List.perm_singleton.1 h3
      simp only [List.singleton_inj] at hv
      subst hv
      have := (List.pairwise_cons.1 hsorted).1 v (by simp)
      rw [hpq] at this
      exact Bool.noConfusion this

theorem computeServerScore_aliasOnly (U : UnicodeTables) (name q : String) (t : Int)
    (h : fuzzyScore U q name ≥ 0) :
    computeServerScore U (aliasOnly name t) q = fuzzyScore U q name := by
  unfold computeServerScore aliasOnly
  simp only [List.length_nil, gt_iff_lt, lt_self_iff_false, if_false, List.foldl_cons,
    List.foldl_nil, beq_self_eq_true, if_true]
  by_cases hn : name = ""
  · subst hn
    simp [fuzzyScore_empty_right]
  · have hne : (name == "") = false := by simpa using hn
    simp only [hne, Bool.false_eq_true, if_false]
    split
    · rfl
    · omega

/-- C7: for the query `web`, the alias `web-01` scores strictly above `new-abcweb`, which
scores above 0, and `ListServers` over these two entries and a third one whose alias does not
contain `web` as a subsequence returns `web-01` and then `new-abcweb`, whatever the order in
the repository. -/
theorem relevance_ordering_web (S : SortLib) (hS : S.Lawful) (x : String)
    (hx : containsSubsequence asciiTables "web" x = false) (L : List Server)
    (hL : L.Perm [aliasOnly "web-01" 0, aliasOnly "new-abcweb" 0, aliasOnly x 0]) :
    fuzzyScore asciiTables "web" "web-01" > fuzzyScore asciiTables "web" "new-abcweb" ∧
      fuzzyScore asciiTables "web" "new-abcweb" > 0 ∧
      ListServers asciiTables S (.ok L) "web"
        = .ok [aliasOnly "web-01" 0, aliasOnly "new-abcweb" 0] := by
  have hq : TrimSpace asciiTables "web" = "web" := by decide
  have hq' : TrimSpace asciiTables "web" ≠ "" := by decide
  have hx0 : fuzzyScore asciiTables "web" x = 0 :=
    fuzzyScore_of_not_sublist _ _ _ (of_decide_eq_false hx)
  have s1 : computeServerScore asciiTables (aliasOnly "web-01" 0) "web" = 44 := by decide
  have s2 : computeServerScore asciiTables (aliasOnly "new-abcweb" 0) "web" = 24 := by decide
  have s3 : computeServerScore asciiTables (aliasOnly x 0) "web" = 0 := by
    rw [computeServerScore_aliasOnly _ _ _ _ (by omega), hx0]
  refine ⟨by decide, by decide, ?_⟩
  rw [ListServers_query_eq asciiTables S L "web" hq', hq]
  have hfilter : (L.filter (fun srv => decide (computeServerScore asciiTables srv "web" > 0))).Perm
      [aliasOnly "web-01" 0, aliasOnly "new-abcweb" 0] := by
    have := hL.filter (fun srv => decide (computeServerScore asciiTables srv "web" > 0))
    simpa [List.filter_cons, s1, s2, s3] using this
  have hres := (hS.slice_perm (lessScored asciiTables)
    ((L.filter (fun srv => decide (computeServerScore asciiTables srv "web" > 0))).map
      (fun srv => ({ srv := srv, score := computeServerScore asciiTables srv "web" } : scored)))).trans
    (hfilter.map _)
  simp only [List.map_cons, List.map_nil, s1, s2] at hres
  have hsorted := hS.slice_sorted (lessScored asciiTables) (lessScored_strictWeak asciiTables)
    ((L.filter (fun srv => decide (computeServerScore asciiTables srv "web" > 0))).map
      (fun srv => ({ srv := srv, score := computeServerScore asciiTables srv "web" } : scored)))
  rw [sorted_pair_eq (lessScored asciiTables) _ _ _ hres hsorted (by decide)]
  rfl

theorem relevance_ordering_web_witness :
    containsSubsequence asciiTables "web" "db-01" = false ∧
      fuzzyScore asciiTables "web" "web-01" > fuzzyScore asciiTables "web" "new-abcweb" ∧
      fuzzyScore asciiTables "web" "new-abcweb" > 0 ∧
      ListServers asciiTables insertionSortLib
          (.ok [aliasOnly "db-01" 0, aliasOnly "new-abcweb" 0, aliasOnly "web-01" 0]) "web"
        = .ok [aliasOnly "web-01" 0, aliasOnly "new-abcweb" 0] :=
  ⟨by decide,
    relevance_ordering_web insertionSortLib insertionSortLib_lawful "db-01"
      (by decide)
      [aliasOnly "db-01" 0, aliasOnly "new-abcweb" 0, aliasOnly "web-01" 0]
      (by decide)⟩

/-! ## The Include resolver: the loops as one pass over the direct includes -/

theorem matchLoop_append (fs : FileSystem) (recur : String → List String → Option Resolved)
    (xs ys : List String) (st : LoopState) :
    matchLoop fs recur (xs ++ ys) st
      = (matchLoop fs recur xs st).bind (fun st1 => matchLoop fs recur ys st1) := by
  induction xs generalizing st with
  | nil => simp [matchLoop]
  | cons x xs ih =>
    simp only [List.cons_append, matchLoop]
    cases h : matchStep fs recur st x with
    | none => simp
    | some st1 => simp [ih]

theorem patternLoop_eq (fs : FileSystem) (U : UnicodeTables)
    (recur : String → List String → Option Resolved) (baseDir : String) (pats : List String)
    (st : LoopState) :
    patternLoop fs U recur baseDir pats st
      = matchLoop fs recur (pats.flatMap (fun pat => patternMatches fs U baseDir pat)) st := by
  induction pats generalizing st with
  | nil => simp [patternLoop, matchLoop]
  | cons pat pats ih =>
    rw [List.flatMap_cons, matchLoop_append, patternLoop]
    by_cases hp : unquote (TrimSpace U pat) = ""
    · have e : patternMatches fs U baseDir pat = [] := by
        unfold patternMatches
        simp [hp]
      rw [e]
      simp [hp, matchLoop, ih]
    · have hp2 : (unquote (TrimSpace U pat) == "") = false := by simpa using hp
      simp only [hp2, Bool.false_eq_true, if_false]
      cases hg : fs.glob (if (!fs.isAbs (expandTilde fs (unquote (TrimSpace U pat)))) = true
          then fs.join baseDir (expandTilde fs (unquote (TrimSpace U pat)))
          else expandTilde fs (unquote (TrimSpace U pat))) with
      | none =>
        have e : patternMatches fs U baseDir pat = [] := by
          unfold patternMatches
          simp only [hp2, Bool.false_eq_true, if_false, hg]
        rw [e]
        simp [matchLoop, ih]
      | some globbed =>
        have e : patternMatches fs U baseDir pat = globbed := by
          unfold patternMatches
          simp only [hp2, Bool.false_eq_true, if_false, hg]
        rw [e]
        cases globbed with
        | nil => simp [matchLoop, ih]
        | cons g gs =>
          simp only [List.length_cons, Nat.add_one_ne_zero, beq_iff_eq, if_false]
          cases hm : matchLoop fs recur (g :: gs) st with
          | none => simp
          | some st1 => simp [ih]

theorem linePatterns_eq (U : UnicodeTables) (line : String) :
    linePatterns U line =
      if TrimSpace U line == "" then []
      else if stripInlineComment U (TrimSpace U line) == "" then []
      else if HasPrefix (TrimSpace U (stripInlineComment U (TrimSpace U line))) "#" then []
      else if (splitFieldsRespectQuotes (stripInlineComment U (TrimSpace U line))).length == 0
      then []
      else if !EqualFold U
          ((splitFieldsRespectQuotes (stripInlineComment U (TrimSpace U line))).headD "")
          "Include" then []
      else (splitFieldsRespectQuotes (stripInlineComment U (TrimSpace U line))).drop 1 := by
  rfl

theorem lineLoop_eq (fs : FileSystem) (U : UnicodeTables)
    (recur : String → List String → Option Resolved) (baseDir : String) (lines : List String)
    (st : LoopState) :
    lineLoop fs U recur baseDir lines st
      = matchLoop fs recur
          (lines.flatMap (fun line =>
            (linePatterns U line).flatMap (fun pat => patternMatches fs U baseDir pat))) st := by
  induction lines generalizing st with
  | nil => simp [lineLoop, matchLoop]
  | cons line lines ih =>
    rw [List.flatMap_cons, matchLoop_append, lineLoop, linePatterns_eq]
    simp only [patternLoop_eq, ih]
    generalize (TrimSpace U line == "") = c1
    generalize (stripInlineComment U (TrimSpace U line) == "") = c2
    generalize HasPrefix (TrimSpace U (stripInlineComment U (TrimSpace U line))) "#" = c3
    generalize ((splitFieldsRespectQuotes (stripInlineComment U (TrimSpace U line))).length
      == 0) = c4
    generalize EqualFold U ((splitFieldsRespectQuotes
      (stripInlineComment U (TrimSpace U line))).headD "") "Include" = c5
    generalize (splitFieldsRespectQuotes (stripInlineComment U (TrimSpace U line))).drop 1 = pats
    cases c1
    · cases c2
      · cases c3
        · cases c4
          · cases c5
            · simp [matchLoop]
            · simp only [Bool.not_true, Bool.false_eq_true, if_false]
              cases matchLoop fs recur
                (pats.flatMap (fun pat => patternMatches fs U baseDir pat)) st <;> rfl
          · simp [matchLoop]
        · simp [matchLoop]
      · simp [matchLoop]
    · simp [matchLoop]

/-! ## The Include resolver: invariants of the visited set -/

theorem appendSub_spec (sub : List String) (results added : List String)
    (hnodup : sub.Nodup) (hnew : ∀ s ∈ sub, s ∉ added) :
    (appendSub sub (results, added)).1 = results ++ sub ∧
      ∀ p, p ∈ (appendSub sub (results, added)).2 ↔ p ∈ added ∨ p ∈ sub := by
  induction sub generalizing results added with
  | nil => simp [appendSub]
  | cons s sub ih =>
    have hs : s ∉ added := hnew s (by simp)
    have hnd := List.nodup_cons.1 hnodup
    rw [appendSub, if_neg hs]
    have hnew2 : ∀ t ∈ sub, t ∉ s :: added := by
      intro t ht
      simp only [List.mem_cons, not_or]
      refine ⟨?_, hnew t (by simp [ht])⟩
      rintro rfl
      exact hnd.1 ht
    obtain ⟨h1, h2⟩ := ih (results ++ [s]) (s :: added) hnd.2 hnew2
    refine ⟨by simp [h1], ?_⟩
    intro p
    rw [h2 p]
    simp only [List.mem_cons]
    tauto

theorem matchStep_visited (fs : FileSystem) (recur : String → List String → Option Resolved)
    (st : LoopState) (m : String) (h : toAbs fs m ∈ st.visited) :
    matchStep fs recur st m = some st := by
  unfold matchStep
  simp [h]

theorem matchStep_none (fs : FileSystem) (recur : String → List String → Option Resolved)
    (st : LoopState) (m : String) (h : toAbs fs m ∉ st.visited)
    (hr : recur (toAbs fs m) (toAbs fs m :: st.visited) = none) :
    matchStep fs recur st m = none := by
  unfold matchStep
  simp [h, hr]

theorem matchStep_new (fs : FileSystem) (recur : String → List String → Option Resolved)
    (hrec : RecurOK recur) (v0 : List String) (st : LoopState) (hst : LoopOK v0 st) (m : String)
    (h : toAbs fs m ∉ st.visited) (r : Resolved)
    (hr : recur (toAbs fs m) (toAbs fs m :: st.visited) = some r) :
    ∃ st1, matchStep fs recur st m = some st1 ∧
      st1.results = st.results ++ toAbs fs m :: r.paths ∧ st1.visited = r.visited ∧
      LoopOK v0 st1 := by
  obtain ⟨hv0, hres, hnd, hadd⟩ := hst
  obtain ⟨rv, rp, rnd⟩ := hrec _ _ _ hr
  have hca : toAbs fs m ∉ st.added := fun hc => h (hres _ ((hadd _).1 hc)).1
  have hcr : toAbs fs m ∉ st.results := fun hc => h (hres _ hc).1
  have hnew : ∀ s ∈ r.paths, s ∉ toAbs fs m :: st.added := by
    intro s hs hmem
    have hsv := (rp s hs).2
    simp only [List.mem_cons, not_or] at hsv
    simp only [List.mem_cons] at hmem
    rcases hmem with rfl | hmem
    · exact hsv.1 rfl
    · exact hsv.2 (hres _ ((hadd _).1 hmem)).1
  obtain ⟨a1, a2⟩ := appendSub_spec r.paths (st.results ++ [toAbs fs m])
    (toAbs fs m :: st.added) rnd hnew
  refine ⟨{ results := (appendSub r.paths (st.results ++ [toAbs fs m], toAbs fs m :: st.added)).1,
            added := (appendSub r.paths (st.results ++ [toAbs fs m], toAbs fs m :: st.added)).2,
            visited := r.visited }, ?_, ?_, rfl, ?_⟩
  · unfold matchStep
    simp [h, hca, hr]
  · simp [a1]
  · refine ⟨?_, ?_, ?_, ?_⟩
    · intro p hp
      exact rv (List.mem_cons_of_mem _ (hv0 hp))
    · intro p hp
      simp only [a1, List.mem_append, List.mem_singleton] at hp
      rcases hp with (hp | rfl) | hp
      · exact ⟨rv (List.mem_cons_of_mem _ (hres p hp).1), (hres p hp).2⟩
      · exact ⟨rv (List.mem_cons_self _ _), fun hp0 => h (hv0 hp0)⟩
      · refine ⟨(rp p hp).1, fun hp0 => (rp p hp).2 (List.mem_cons_of_mem _ (hv0 hp0))⟩
    · simp only [a1]
      rw [List.nodup_append]
      refine ⟨?_, rnd, ?_⟩
      · rw [List.nodup_append]
        refine ⟨hnd, List.nodup_singleton _, ?_⟩
        intro a ha hb
        simp only [List.mem_singleton] at hb
        subst hb
        exact hcr ha
      · intro a ha hb
        have hsv := (rp a hb).2
        simp only [List.mem_cons, not_or] at hsv
        simp only [List.mem_append, List.mem_singleton] at ha
        rcases ha with ha | rfl
        · exact hsv.2 (hres a ha).1
        · exact hsv.1 rfl
    · intro p
      simp only [a2, a1, List.mem_cons, List.mem_append, List.mem_singleton, hadd]
      tauto

/-- The match loop against the pre-order specification: both fail together, and when they
return, the loop has appended the specified paths, reached the specified visited set, and kept
its invariant. -/
theorem matchLoop_spec (fs : FileSystem) (recur : String → List String → Option Resolved)
    (hrec : RecurOK recur) (v0 : List String) (ms : List String) (st : LoopState)
    (hst : LoopOK v0 st) :
    (matchLoop fs recur ms st = none ∧ preorder recur (ms.map (toAbs fs)) st.visited = none) ∨
      ∃ st1 ps, matchLoop fs recur ms st = some st1 ∧
        preorder recur (ms.map (toAbs fs)) st.visited = some (ps, st1.visited) ∧
        st1.results = st.results ++ ps ∧ LoopOK v0 st1 := by
  induction ms generalizing st with
  | nil =>
    right
    exact ⟨st, [], by simp [matchLoop], by simp [preorder], by simp, hst⟩
  | cons m ms ih =>
    simp only [List.map_cons, matchLoop, preorder]
    by_cases hvis : toAbs fs m ∈ st.visited
    · rw [matchStep_visited fs recur st m hvis, if_pos hvis]
      exact ih st hst
    · rw [if_neg hvis]
      cases hr : recur (toAbs fs m) (toAbs fs m :: st.visited) with
      | none =>
        left
        rw [matchStep_none fs recur st m hvis hr]
        exact ⟨rfl, rfl⟩
      | some r =>
        obtain ⟨st1, e1, e2, e3, hst1⟩ := matchStep_new fs recur hrec v0 st hst m hvis r hr
        rw [e1]
        simp only []
        rcases ih st1 hst1 with ⟨h1, h2⟩ | ⟨st2, ps, h1, h2, h3, h4⟩
        · left
          rw [e3] at h2
          rw [h1, h2]
          exact ⟨rfl, rfl⟩
        · right
          rw [e3] at h2
          refine ⟨st2, toAbs fs m :: (r.paths ++ ps), h1, ?_, ?_, h4⟩
          · rw [h2]
          · rw [h3, e2]
            simp

theorem loopOK_init (v : List String) :
    LoopOK v { results := [], added := [], visited := v } :=
  ⟨fun _ h => h, by simp, by simp, by simp⟩

/-- One call of `resolveIncludes` with the recursion left open. -/
theorem resolveIncludes_succ (fs : FileSystem) (U : UnicodeTables) (fuel : Nat)
    (filePath : String) (visited : List String) :
    resolveIncludes fs U (fuel + 1) filePath visited =
      match fs.openFile (toAbs fs (expandTilde fs filePath)) with
      | none => some { paths := [], err := false, visited := visited }
      | some (lines, scanErr) =>
        match matchLoop fs (fun child vis => resolveIncludes fs U fuel child vis)
            (lines.flatMap (fun line => (linePatterns U line).flatMap (fun pat =>
              patternMatches fs U (fs.dir (toAbs fs (expandTilde fs filePath))) pat)))
            { results := [], added := [], visited := visited } with
        | none => none
        | some st => some { paths := st.results, err := scanErr, visited := st.visited } := by
  rw [resolveIncludes]
  simp only [lineLoop_eq]

theorem resolveIncludes_ok (fs : FileSystem) (U : UnicodeTables) (fuel : Nat) :
    RecurOK (fun child vis => resolveIncludes fs U fuel child vis) := by
  induction fuel with
  | zero =>
    intro c v r h
    simp [resolveIncludes] at h
  | succ fuel ih =>
    intro c v r h
    simp only [resolveIncludes_succ] at h
    cases ho : fs.openFile (toAbs fs (expandTilde fs c)) with
    | none =>
      rw [ho] at h
      simp only [Option.some.injEq] at h
      subst h
      exact ⟨fun _ hp => hp, by simp, by simp⟩
    | some le =>
      obtain ⟨lines, scanErr⟩ := le
      rw [ho] at h
      simp only [] at h
      rcases matchLoop_spec fs _ ih v
          (lines.flatMap (fun line => (linePatterns U line).flatMap (fun pat =>
            patternMatches fs U (fs.dir (toAbs fs (expandTilde fs c))) pat)))
          { results := [], added := [], visited := v } (loopOK_init v) with
        ⟨h1, _⟩ | ⟨st1, ps, h1, _, _, h4⟩
      · rw [h1] at h
        exact absurd h (by simp)
      · rw [h1] at h
        simp only [Option.some.injEq] at h
        subst h
        exact ⟨h4.1, h4.2.1, h4.2.2.1⟩

/-! ## The Include resolver: termination -/

theorem unvisited_cons_lt (allPaths visited : List String) (c : String) (hc : c ∈ allPaths)
    (hv : c ∉ visited) : unvisited allPaths (c :: visited) < unvisited allPaths visited := by
  unfold unvisited
  have e : allPaths.filter (fun p => decide (p ∉ c :: visited))
      = (allPaths.filter (fun p => decide (p ∉ visited))).filter (fun p => decide (p ≠ c)) := by
    rw [List.filter_filter]
    apply List.filter_congr
    intro x _
    simp only [List.mem_cons, not_or, Bool.decide_and, ne_eq, Bool.and_comm]
  rw [e]
  apply List.length_filter_lt_length_iff_exists.2
  exact ⟨c, List.mem_filter.2 ⟨hc, by simpa using hv⟩, by simp⟩

theorem unvisited_mono (allPaths v1 v2 : List String) (h : v1 ⊆ v2) :
    unvisited allPaths v2 ≤ unvisited allPaths v1 := by
  unfold unvisited
  apply List.Sublist.length_le
  apply List.monotone_filter_right
  intro a ha
  simp only [decide_eq_true_eq] at ha ⊢
  exact fun h1 => ha (h h1)

theorem patternMatches_within (fs : FileSystem) (U : UnicodeTables) (allPaths : List String)
    (hfin : GlobWithin fs allPaths) (baseDir pat : String) :
    ∀ m ∈ patternMatches fs U baseDir pat, toAbs fs m ∈ allPaths := by
  intro m hm
  unfold patternMatches at hm
  simp only [] at hm
  split at hm
  · simp at hm
  · split at hm
    · simp at hm
    · rename_i globbed hg
      exact hfin _ globbed hg m hm

theorem matchLoop_isSome (fs : FileSystem) (recur : String → List String → Option Resolved)
    (hrec : RecurOK recur) (allPaths : List String) (n : Nat)
    (hterm : ∀ c vis, unvisited allPaths vis < n → ∃ r, recur c vis = some r)
    (v0 : List String) (ms : List String) (hms : ∀ m ∈ ms, toAbs fs m ∈ allPaths)
    (st : LoopState) (hst : LoopOK v0 st) (hn : unvisited allPaths st.visited ≤ n) :
    ∃ st1, matchLoop fs recur ms st = some st1 := by
  induction ms generalizing st with
  | nil => exact ⟨st, by simp [matchLoop]⟩
  | cons m ms ih =>
    have hms2 : ∀ m' ∈ ms, toAbs fs m' ∈ allPaths := fun m' h => hms m' (by simp [h])
    rw [matchLoop]
    by_cases hvis : toAbs fs m ∈ st.visited
    · rw [matchStep_visited fs recur st m hvis]
      exact ih hms2 st hst hn
    · have hlt := unvisited_cons_lt allPaths st.visited (toAbs fs m) (hms m (by simp)) hvis
      obtain ⟨r, hr⟩ := hterm (toAbs fs m) (toAbs fs m :: st.visited) (by omega)
      obtain ⟨st1, e1, _, e3, hst1⟩ := matchStep_new fs recur hrec v0 st hst m hvis r hr
      rw [e1]
      refine ih hms2 st1 hst1 ?_
      rw [e3]
      have := unvisited_mono allPaths _ _ (hrec _ _ _ hr).1
      omega

theorem resolveIncludes_isSome (fs : FileSystem) (U : UnicodeTables) (allPaths : List String)
    (hfin : GlobWithin fs allPaths) (fuel : Nat) :
    ∀ c vis, unvisited allPaths vis < fuel → ∃ r, resolveIncludes fs U fuel c vis = some r := by
  induction fuel with
  | zero => intro c vis h; omega
  | succ fuel ih =>
    intro c vis h
    rw [resolveIncludes_succ]
    cases ho : fs.openFile (toAbs fs (expandTilde fs c)) with
    | none => exact ⟨_, rfl⟩
    | some le =>
      obtain ⟨lines, scanErr⟩ := le
      simp only []
      obtain ⟨st1, h1⟩ := matchLoop_isSome fs _ (resolveIncludes_ok fs U fuel) allPaths fuel ih vis
        (lines.flatMap (fun line => (linePatterns U line).flatMap (fun pat =>
          patternMatches fs U (fs.dir (toAbs fs (expandTilde fs c))) pat)))
        (by
          intro m hm
          simp only [List.mem_flatMap] at hm
          obtain ⟨line, _, pat, _, hm⟩ := hm
          exact patternMatches_within fs U allPaths hfin _ pat m hm)
        { results := [], added := [], visited := vis } (loopOK_init vis) (by simpa using Nat.le_of_lt_succ h)
      rw [h1]
      exact ⟨_, rfl⟩

theorem matchStep_mono (fs : FileSystem) (recur1 recur2 : String → List String → Option Resolved)
    (hle : ∀ c v r, recur1 c v = some r → recur2 c v = some r) (st st1 : LoopState) (m : String)
    (h : matchStep fs recur1 st m = some st1) : matchStep fs recur2 st m = some st1 := by
  unfold matchStep at h ⊢
  by_cases hvis : toAbs fs m ∈ st.visited
  · simpa [hvis] using h
  · simp only [hvis, if_false] at h ⊢
    cases hr : recur1 (toAbs fs m) (toAbs fs m :: st.visited) with
    | none => simp [hr] at h
    | some r =>
      rw [hle _ _ _ hr]
      simpa [hr] using h

theorem matchLoop_mono (fs : FileSystem) (recur1 recur2 : String → List String → Option Resolved)
    (hle : ∀ c v r, recur1 c v = some r → recur2 c v = some r) (ms : List String)
    (st st1 : LoopState) (h : matchLoop fs recur1 ms st = some st1) :
    matchLoop fs recur2 ms st = some st1 := by
  induction ms generalizing st with
  | nil => simpa [matchLoop] using h
  | cons m ms ih =>
    rw [matchLoop] at h ⊢
    cases hs : matchStep fs recur1 st m with
    | none => simp [hs] at h
    | some st2 =>
      rw [matchStep_mono fs recur1 recur2 hle st st2 m hs]
      rw [hs] at h
      exact ih st2 h

theorem resolveIncludes_fuel_succ (fs : FileSystem) (U : UnicodeTables) (fuel : Nat) :
    ∀ c v r, resolveIncludes fs U fuel c v = some r →
      resolveIncludes fs U (fuel + 1) c v = some r := by
  induction fuel with
  | zero => intro c v r h; simp [resolveIncludes] at h
  | succ fuel ih =>
    intro c v r h
    rw [resolveIncludes_succ] at h ⊢
    cases ho : fs.openFile (toAbs fs (expandTilde fs c)) with
    | none => simpa [ho] using h
    | some le =>
      obtain ⟨lines, scanErr⟩ := le
      simp only [ho] at h ⊢
      cases hm : matchLoop fs (fun child vis => resolveIncludes fs U fuel child vis)
          (lines.flatMap (fun line => (linePatterns U line).flatMap (fun pat =>
            patternMatches fs U (fs.dir (toAbs fs (expandTilde fs c))) pat)))
          { results := [], added := [], visited := v } with
      | none => simp [hm] at h
      | some st1 =>
        rw [matchLoop_mono fs _ (fun child vis => resolveIncludes fs U (fuel + 1) child vis) ih _ _
          st1 hm]
        simpa [hm] using h

theorem resolveIncludes_fuel_le (fs : FileSystem) (U : UnicodeTables) (fuel1 fuel2 : Nat)
    (hle : fuel1 ≤ fuel2) (c : String) (v : List String) (r : Resolved)
    (h : resolveIncludes fs U fuel1 c v = some r) : resolveIncludes fs U fuel2 c v = some r := by
  induction hle with
  | refl => exact h
  | step _ ih => exact resolveIncludes_fuel_succ fs U _ c v r ih

theorem lookup_isSome_mem (files : List (String × List String)) (p : String)
    (h : (files.lookup p).isSome = true) : p ∈ files.map Prod.fst := by
  induction files with
  | nil => simp at h
  | cons kv files ih =>
    obtain ⟨k, v⟩ := kv
    by_cases hk : p = k
    · simp [hk]
    · have hne : (p == k) = false := by simpa using hk
      rw [List.lookup_cons, hne] at h
      simp only [List.map_cons, List.mem_cons]
      exact Or.inr (ih h)

theorem listFS_globWithin (files : List (String × List String)) :
    GlobWithin (listFS files) ((files.map Prod.fst).map (toAbs (listFS files))) := by
  intro pattern globbed hg m hm
  have hg2 : (if (files.lookup pattern).isSome then some [pattern] else some []) = some globbed :=
    hg
  by_cases hl : (files.lookup pattern).isSome = true
  · rw [if_pos hl] at hg2
    simp only [Option.some.injEq] at hg2
    subst hg2
    simp only [List.mem_singleton] at hm
    subst hm
    exact List.mem_map_of_mem _ (lookup_isSome_mem files m hl)
  · rw [if_neg hl] at hg2
    simp only [Option.some.injEq] at hg2
    subst hg2
    simp at hm

/-! ## The Include resolver: the claims -/

/-- C8: `resolveIncludes` returns no path twice and no path that was in the visited set when
it was called; with the visited set seeded with the root, the file-processing list
`root :: paths` has no duplicate; and on a file system with finitely many paths the call
returns. -/
theorem resolveIncludes_no_duplicates (fs : FileSystem) (U : UnicodeTables) (root : String)
    (visited : List String) :
    (∀ fuel r, resolveIncludes fs U fuel root visited = some r →
        r.paths.Nodup ∧ ∀ p ∈ r.paths, p ∉ visited) ∧
      (∀ fuel r, resolveIncludes fs U fuel root [root] = some r →
        (root :: r.paths).Nodup ∧ root ∉ r.paths) ∧
      (∀ allPaths, GlobWithin fs allPaths →
        ∃ r, resolveIncludes fs U (unvisited allPaths [root] + 1) root [root] = some r ∧
          (root :: r.paths).Nodup) := by
  have key : ∀ fuel v r, resolveIncludes fs U fuel root v = some r →
      r.paths.Nodup ∧ ∀ p ∈ r.paths, p ∉ v := by
    intro fuel v r h
    obtain ⟨_, h2, h3⟩ := resolveIncludes_ok fs U fuel root v r h
    exact ⟨h3, fun p hp => (h2 p hp).2⟩
  have key2 : ∀ fuel r, resolveIncludes fs U fuel root [root] = some r →
      (root :: r.paths).Nodup ∧ root ∉ r.paths := by
    intro fuel r h
    obtain ⟨h1, h2⟩ := key fuel [root] r h
    have hroot : root ∉ r.paths := fun hp => h2 root hp (by simp)
    exact ⟨List.nodup_cons.2 ⟨hroot, h1⟩, hroot⟩
  refine ⟨fun fuel r h => key fuel visited r h, key2, ?_⟩
  intro allPaths hfin
  obtain ⟨r, hr⟩ := resolveIncludes_isSome fs U allPaths hfin (unvisited allPaths [root] + 1)
    root [root] (Nat.lt_succ_self _)
  exact ⟨r, hr, (key2 _ r hr).1⟩

theorem resolveIncludes_no_duplicates_witness :
    resolveIncludes mutualFS asciiTables 3 "/r/A" ["/r/A"]
        = some { paths := ["/r/B"], err := false, visited := ["/r/B", "/r/A"] } ∧
      resolveIncludes mutualFS asciiTables 3 "/r/B" ["/r/B"]
        = some { paths := ["/r/A"], err := false, visited := ["/r/A", "/r/B"] } ∧
      (["/r/A", "/r/B"].Nodup ∧ "/r/A" ∉ ["/r/B"]) ∧
      (["/r/B", "/r/A"].Nodup ∧ "/r/B" ∉ ["/r/A"]) :=
  ⟨by decide, by decide,
    (resolveIncludes_no_duplicates mutualFS asciiTables "/r/A" []).2.1 3
      { paths := ["/r/B"], err := false, visited := ["/r/B", "/r/A"] } (by decide),
    (resolveIncludes_no_duplicates mutualFS asciiTables "/r/B" []).2.1 3
      { paths := ["/r/A"], err := false, visited := ["/r/A", "/r/B"] } (by decide)⟩

/-- C9: `resolveIncludes` emits the paths in depth-first pre-order.  A call that can open its
file returns `preorder` of the file's direct includes (line order, pattern order, glob-match
order): each included path not yet visited, followed at once by the whole result of its own
resolution with the visited set extended by it, before any later include. -/
theorem resolveIncludes_preorder (fs : FileSystem) (U : UnicodeTables) (fuel : Nat)
    (filePath : String) (visited : List String) :
    resolveIncludes fs U (fuel + 1) filePath visited =
      match fs.openFile (toAbs fs (expandTilde fs filePath)) with
      | none => some { paths := [], err := false, visited := visited }
      | some (lines, scanErr) =>
        (preorder (fun child vis => resolveIncludes fs U fuel child vis)
          (includeMatches fs U (fs.dir (toAbs fs (expandTilde fs filePath))) lines) visited).map
          (fun pv => { paths := pv.1, err := scanErr, visited := pv.2 }) := by
  rw [resolveIncludes_succ]
  cases ho : fs.openFile (toAbs fs (expandTilde fs filePath)) with
  | none => rfl
  | some le =>
    obtain ⟨lines, scanErr⟩ := le
    simp only []
    unfold includeMatches
    rcases matchLoop_spec fs _ (resolveIncludes_ok fs U fuel) visited
        (lines.flatMap (fun line => (linePatterns U line).flatMap (fun pat =>
          patternMatches fs U (fs.dir (toAbs fs (expandTilde fs filePath))) pat)))
        { results := [], added := [], visited := visited } (loopOK_init visited) with
      ⟨h1, h2⟩ | ⟨st1, ps, h1, h2, h3, _⟩
    · rw [h1, h2]
      rfl
    · rw [h1, h2]
      simp only [List.nil_append] at h3
      simp [h3]

theorem resolveIncludes_preorder_witness :
    (resolveIncludes nestedFS asciiTables 3 "/r/config" ["/r/config"]).map (fun r => r.paths)
        = some ["/r/a.conf", "/r/c.conf", "/r/b.conf"] ∧
      includeMatches nestedFS asciiTables "/r" ["Include a.conf b.conf"]
        = ["/r/a.conf", "/r/b.conf"] ∧
      resolveIncludes nestedFS asciiTables 3 "/r/config" ["/r/config"] =
        (preorder (fun child vis => resolveIncludes nestedFS asciiTables 2 child vis)
          (includeMatches nestedFS asciiTables "/r" ["Include a.conf b.conf"])
          ["/r/config"]).map (fun pv => { paths := pv.1, err := false, visited := pv.2 }) :=
  ⟨by decide, by decide, resolveIncludes_preorder nestedFS asciiTables 2 "/r/config" ["/r/config"]⟩

/-- C10: on a file system with finitely many paths `resolveIncludes` terminates, cycles
included: a recursion depth above the number of unvisited paths always suffices and the
result does not depend on it.  The loop body consults the recursive call only at a path it
has just added to the visited set, and adding an unvisited path strictly lowers the number of
unvisited paths. -/
theorem resolveIncludes_terminates (fs : FileSystem) (U : UnicodeTables)
    (allPaths : List String) (hfin : GlobWithin fs allPaths) (root : String)
    (visited : List String) :
    (∃ r, ∀ fuel, unvisited allPaths visited < fuel →
        resolveIncludes fs U fuel root visited = some r) ∧
      (∀ (recur1 recur2 : String → List String → Option Resolved) (st : LoopState) (m : String),
        (toAbs fs m ∉ st.visited →
          recur1 (toAbs fs m) (toAbs fs m :: st.visited)
            = recur2 (toAbs fs m) (toAbs fs m :: st.visited)) →
        matchStep fs recur1 st m = matchStep fs recur2 st m) ∧
      (∀ c vis, c ∈ allPaths → c ∉ vis →
        unvisited allPaths (c :: vis) < unvisited allPaths vis) := by
  refine ⟨?_, ?_, ?_⟩
  · obtain ⟨r, hr⟩ := resolveIncludes_isSome fs U allPaths hfin (unvisited allPaths visited + 1)
      root visited (Nat.lt_succ_self _)
    exact ⟨r, fun fuel hf => resolveIncludes_fuel_le fs U _ fuel hf root visited r hr⟩
  · intro recur1 recur2 st m h
    unfold matchStep
    by_cases hvis : toAbs fs m ∈ st.visited
    · simp [hvis]
    · simp only [hvis, if_false]
      rw [h hvis]
  · intro c vis hc hv
    exact unvisited_cons_lt allPaths vis c hc hv

theorem resolveIncludes_terminates_witness :
    GlobWithin selfFS ["/r/A"] ∧ GlobWithin mutualFS ["/r/A", "/r/B"] ∧
      (∃ r, ∀ fuel, unvisited ["/r/A"] ["/r/A"] < fuel →
        resolveIncludes selfFS asciiTables fuel "/r/A" ["/r/A"] = some r) ∧
      (∃ r, ∀ fuel, unvisited ["/r/A", "/r/B"] ["/r/A"] < fuel →
        resolveIncludes mutualFS asciiTables fuel "/r/A" ["/r/A"] = some r) ∧
      resolveIncludes selfFS asciiTables 1 "/r/A" ["/r/A"]
        = some { paths := [], err := false, visited := ["/r/A"] } :=
  ⟨listFS_globWithin _, listFS_globWithin _,
    (resolveIncludes_terminates selfFS asciiTables ["/r/A"] (listFS_globWithin _) "/r/A"
      ["/r/A"]).1,
    (resolveIncludes_terminates mutualFS asciiTables ["/r/A", "/r/B"] (listFS_globWithin _) "/r/A"
      ["/r/A"]).1,
    by decide⟩

/-! ## The scan of `fuzzyScore`: what the positions are -/

theorem scanPositions_match {ql sl : List Char} {si : Nat} {ps : List Nat}
    (h : scanPositions ql sl si = some ps) :
    ∀ (i x : Nat), ps[i]? = some x → ∃ c, ql[i]? = some c ∧ sl[x - si]? = some c := by
  induction sl generalizing ql si ps with
  | nil =>
    cases ql with
    | nil => simp [scanPositions] at h; subst h; simp
    | cons c ql => simp [scanPositions] at h
  | cons d sl ih =>
    cases ql with
    | nil => simp [scanPositions] at h; subst h; simp
    | cons c ql =>
      rw [scanPositions] at h
      split at h
      · rename_i hdc
        simp only [Option.map_eq_some'] at h
        obtain ⟨ps1, h1, rfl⟩ := h
        intro i x hx
        cases i with
        | zero =>
          simp only [List.getElem?_cons_zero, Option.some.injEq] at hx
          subst hx
          refine ⟨c, by simp, ?_⟩
          have : d = c := by simpa using hdc
          simp [this]
        | succ j =>
          simp only [List.getElem?_cons_succ] at hx
          obtain ⟨c1, hc1, hc2⟩ := ih h1 j x hx
          have hb := scanPositions_bounds h1 x (List.getElem?_mem hx)
          refine ⟨c1, by simpa using hc1, ?_⟩
          have e : x - si = (x - (si + 1)) + 1 := by omega
          rw [e]
          simpa using hc2
      · intro i x hx
        obtain ⟨c1, hc1, hc2⟩ := ih h i x hx
        have hb := scanPositions_bounds h x (List.getElem?_mem hx)
        refine ⟨c1, hc1, ?_⟩
        have e : x - si = (x - (si + 1)) + 1 := by omega
        rw [e]
        simpa using hc2

/-- C20: when the scan of `fuzzyScore` succeeds, the position list has one entry per rune of
the query, is strictly increasing, lies inside the target, and the lowercased target at the
`i`-th position is the `i`-th lowercased query rune.  Hence every index of the case-bonus
loop passes the guard `idx < len(q)`, and the query rune compared at index `i` is the one
whose lowercase form matched at that position. -/
theorem scanPositions_invariant (U : UnicodeTables) (q s : String) (p : List Nat)
    (hscan : scanPositions (ToLower U q).data (ToLower U s).data 0 = some p) :
    p.length = q.data.length ∧
      p.Pairwise (fun a b => a < b) ∧
      (∀ x ∈ p, x < s.data.length) ∧
      (∀ (i x : Nat), p[i]? = some x → ∃ c, (ToLower U q).data[i]? = some c ∧
        (ToLower U s).data[x]? = some c) ∧
      (∀ idx, idx < p.length → idx < q.data.length) ∧
      (∀ (i x : Nat), p[i]? = some x → ∃ qc sc, q.data[i]? = some qc ∧ s.data[x]? = some sc ∧
        U.toLower sc = U.toLower qc) := by
  have hlen : p.length = q.data.length := by
    rw [scanPositions_length hscan, ToLower_length]
  have hmatch := scanPositions_match hscan
  refine ⟨hlen, scanPositions_increasing hscan, ?_, ?_, ?_, ?_⟩
  · intro x hx
    have := scanPositions_bounds hscan x hx
    rw [ToLower_length] at this
    omega
  · intro i x hx
    simpa using hmatch i x hx
  · intro idx hidx
    omega
  · intro i x hx
    obtain ⟨c, hc1, hc2⟩ := hmatch i x hx
    simp only [ToLower, List.getElem?_map, Nat.sub_zero, Option.map_eq_some'] at hc1 hc2
    obtain ⟨qc, hq1, hq2⟩ := hc1
    obtain ⟨sc, hs1, hs2⟩ := hc2
    exact ⟨qc, sc, hq1, hs1, by rw [hs2, hq2]⟩

theorem scanPositions_invariant_witness :
    scanPositions (ToLower asciiTables "aB").data (ToLower asciiTables "xAxb").data 0
        = some [1, 3] ∧
      [1, 3].length = "aB".data.length ∧
      [1, 3].Pairwise (fun a b => a < b) ∧
      (∀ x ∈ [1, 3], x < "xAxb".data.length) ∧
      (∀ (i x : Nat), [1, 3][i]? = some x → ∃ c, (ToLower asciiTables "aB").data[i]? = some c ∧
        (ToLower asciiTables "xAxb").data[x]? = some c) ∧
      (∀ idx, idx < [1, 3].length → idx < "aB".data.length) ∧
      (∀ (i x : Nat), [1, 3][i]? = some x → ∃ qc sc, "aB".data[i]? = some qc ∧
        "xAxb".data[x]? = some sc ∧ asciiTables.toLower sc = asciiTables.toLower qc) :=
  ⟨by decide, scanPositions_invariant asciiTables "aB" "xAxb" [1, 3] (by decide)⟩

/-! ## `computeServerScore` as a maximum -/

theorem bestLoop_max (U : UnicodeTables) (q : String) (fields : List String) (best r : Int)
    (hbest : best ≥ 0)
    (hr : fields.foldl
        (fun best f =>
          if f == "" then best
          else
            let sc := fuzzyScore U q f
            if sc > best then sc else best)
        best = r) :
    best ≤ r ∧ (∀ f ∈ fields, fuzzyScore U q f ≤ r) ∧
      (r = best ∨ ∃ f ∈ fields, r = fuzzyScore U q f) := by
  induction fields generalizing best with
  | nil =>
    simp only [List.foldl_nil] at hr
    subst hr
    simp
  | cons f rest ih =>
    simp only [List.foldl_cons] at hr
    by_cases hf : f = ""
    · subst hf
      simp only [beq_self_eq_true, if_true] at hr
      obtain ⟨h1, h2, h3⟩ := ih best hbest hr
      refine ⟨h1, ?_, ?_⟩
      · intro g hg
        simp only [List.mem_cons] at hg
        rcases hg with rfl | hg
        · rw [fuzzyScore_empty_right]; omega
        · exact h2 g hg
      · rcases h3 with h3 | ⟨g, hg, h3⟩
        · exact Or.inl h3
        · exact Or.inr ⟨g, by simp [hg], h3⟩
    · have hne : (f == "") = false := by simpa using hf
      simp only [hne, Bool.false_eq_true, if_false] at hr
      by_cases hsc : fuzzyScore U q f > best
      · simp only [hsc, if_true] at hr
        obtain ⟨h1, h2, h3⟩ := ih (fuzzyScore U q f) (by omega) hr
        refine ⟨by omega, ?_, ?_⟩
        · intro g hg
          simp only [List.mem_cons] at hg
          rcases hg with rfl | hg
          · exact h1
          · exact h2 g hg
        · rcases h3 with h3 | ⟨g, hg, h3⟩
          · exact Or.inr ⟨f, by simp, h3⟩
          · exact Or.inr ⟨g, by simp [hg], h3⟩
      · simp only [hsc, if_false] at hr
        obtain ⟨h1, h2, h3⟩ := ih best hbest hr
        refine ⟨h1, ?_, ?_⟩
        · intro g hg
          simp only [List.mem_cons] at hg
          rcases hg with rfl | hg
          · omega
          · exact h2 g hg
        · rcases h3 with h3 | ⟨g, hg, h3⟩
          · exact Or.inl h3
          · exact Or.inr ⟨g, by simp [hg], h3⟩

/-- C18 (as stated) fails: when the alias, the host and the user all contain the query far
from their start and with a wide gap, every candidate field scores -11, so the maximum of the
field scores is -11, while `computeServerScore` starts from `best = 0` and returns 0. -/
theorem computeServerScore_counterexample :
    candidateFields
        { Alias := "xxxxxxxxxxxxxxxxxxxxaxxxxxxxxxxxxxxxxxxxxb", Aliases := [],
          Host := "xxxxxxxxxxxxxxxxxxxxaxxxxxxxxxxxxxxxxxxxxb",
          User := "xxxxxxxxxxxxxxxxxxxxaxxxxxxxxxxxxxxxxxxxxb", Port := 22, IdentityFiles := [],
          Tags := [], PinnedAt := 0, SourceFile := "", Readonly := false }
        = ["xxxxxxxxxxxxxxxxxxxxaxxxxxxxxxxxxxxxxxxxxb",
           "xxxxxxxxxxxxxxxxxxxxaxxxxxxxxxxxxxxxxxxxxb",
           "xxxxxxxxxxxxxxxxxxxxaxxxxxxxxxxxxxxxxxxxxb"] ∧
      fuzzyScore asciiTables "ab" "xxxxxxxxxxxxxxxxxxxxaxxxxxxxxxxxxxxxxxxxxb" = -11 ∧
      computeServerScore asciiTables
        { Alias := "xxxxxxxxxxxxxxxxxxxxaxxxxxxxxxxxxxxxxxxxxb", Aliases := [],
          Host := "xxxxxxxxxxxxxxxxxxxxaxxxxxxxxxxxxxxxxxxxxb",
          User := "xxxxxxxxxxxxxxxxxxxxaxxxxxxxxxxxxxxxxxxxxb", Port := 22, IdentityFiles := [],
          Tags := [], PinnedAt := 0, SourceFile := "", Readonly := false } "ab" = 0 := by
  refine ⟨by decide, by decide, by decide⟩

/-- C18 (amended): `computeServerScore` is the maximum of 0 and the scores of the candidate
fields: it is at least 0 and at least every field score, and it is 0 or the score of some
field.  Whenever some candidate field scores 0 or more (as every empty field does), it is the
maximum of the field scores. -/
theorem computeServerScore_max (U : UnicodeTables) (e : Server) (q : String) :
    0 ≤ computeServerScore U e q ∧
      (∀ f ∈ candidateFields e, fuzzyScore U q f ≤ computeServerScore U e q) ∧
      (computeServerScore U e q = 0 ∨
        ∃ f ∈ candidateFields e, computeServerScore U e q = fuzzyScore U q f) ∧
      ((∃ f ∈ candidateFields e, 0 ≤ fuzzyScore U q f) →
        ∃ f ∈ candidateFields e, computeServerScore U e q = fuzzyScore U q f ∧
          ∀ g ∈ candidateFields e, fuzzyScore U q g ≤ fuzzyScore U q f) := by
  obtain ⟨h1, h2, h3⟩ := bestLoop_max U q (candidateFields e) 0 (computeServerScore U e q)
    (le_refl 0) (computeServerScore_fields U e q).symm
  refine ⟨h1, h2, h3, ?_⟩
  rintro ⟨f, hf, hpos⟩
  rcases h3 with h0 | ⟨g, hg, hgs⟩
  · refine ⟨f, hf, ?_, ?_⟩
    · have := h2 f hf
      omega
    · intro g hg
      have := h2 g hg
      have := h2 f hf
      omega
  · refine ⟨g, hg, hgs, ?_⟩
    intro g2 hg2
    rw [← hgs]
    exact h2 g2 hg2

theorem computeServerScore_max_witness :
    (∃ f ∈ candidateFields (aliasOnly "web-01" 0), 0 ≤ fuzzyScore asciiTables "web" f) ∧
      ∃ f ∈ candidateFields (aliasOnly "web-01" 0),
        computeServerScore asciiTables (aliasOnly "web-01" 0) "web"
          = fuzzyScore asciiTables "web" f ∧
        ∀ g ∈ candidateFields (aliasOnly "web-01" 0),
          fuzzyScore asciiTables "web" g ≤ fuzzyScore asciiTables "web" f :=
  ⟨⟨"", by decide, by decide⟩,
    (computeServerScore_max asciiTables (aliasOnly "web-01" 0) "web").2.2.2
      ⟨"", by decide, by decide⟩⟩

/-! ## `resolveIncludes` on a file that cannot be opened -/

/-- C14: when the file cannot be opened, `resolveIncludes` returns the empty list and no
error, and the visited set is what it was. -/
theorem resolveIncludes_open_fails (fs : FileSystem) (U : UnicodeTables) (fuel : Nat)
    (filePath : String) (visited : List String)
    (hopen : fs.openFile (toAbs fs (expandTilde fs filePath)) = none) :
    resolveIncludes fs U (fuel + 1) filePath visited
      = some { paths := [], err := false, visited := visited } := by
  rw [resolveIncludes]
  simp only [hopen]

theorem resolveIncludes_open_fails_witness :
    (listFS []).openFile (toAbs (listFS []) (expandTilde (listFS []) "/r/missing")) = none ∧
      resolveIncludes (listFS []) asciiTables 1 "/r/missing" ["/r/config"]
        = some { paths := [], err := false, visited := ["/r/config"] } :=
  ⟨by decide,
    resolveIncludes_open_fails (listFS []) asciiTables 0 "/r/missing" ["/r/config"] (by decide)⟩

/-! ## `validateServer` and the port -/

theorem labelLoop_ne_port (labels : List String) :
    labelLoop labels ≠ .error "port must be a number between 1 and 65535" := by
  induction labels with
  | nil => simp [labelLoop]
  | cons lbl rest ih =>
    rw [labelLoop]
    split
    · simp
    · split
      · simp
      · exact ih

theorem validateHostName_ne_port (srv : Server) :
    validateHostName srv ≠ .error "port must be a number between 1 and 65535" := by
  unfold validateHostName
  split
  · simp
  · split
    · simp
    · split
      · simp
      · exact labelLoop_ne_port _

theorem validateHostName_port (srv : Server) (port : Int) :
    validateHostName { srv with Port := port } = validateHostName srv := rfl

/-- C19 (as stated) fails: port 0 is not a number between 1 and 65535, and a server with a
valid alias and host and port 0 is accepted. -/
theorem validateServer_port_zero_accepted :
    validateServer asciiTables (fun _ => false)
        { Alias := "web", Aliases := ["web"], Host := "example.com", User := "", Port := 0,
          IdentityFiles := [], Tags := [], PinnedAt := 0, SourceFile := "", Readonly := false }
      = .ok () := by
  rfl

/-- C19 (amended): `validateServer` returns an error for every server whose port is not 0 and
lies outside 1..65535; for port 0 and for every port in 1..65535 it never returns the port
error, and its result is the one the alias and host checks alone give (the result for the
same server with port 22). -/
theorem validateServer_port (U : UnicodeTables) (parseIP : String → Bool) (srv : Server) :
    (srv.Port ≠ 0 → (srv.Port < 1 ∨ 65535 < srv.Port) →
        ∃ msg, validateServer U parseIP srv = .error msg) ∧
      ((srv.Port = 0 ∨ (1 ≤ srv.Port ∧ srv.Port ≤ 65535)) →
        validateServer U parseIP srv ≠ .error "port must be a number between 1 and 65535" ∧
          validateServer U parseIP srv = validateServer U parseIP { srv with Port := 22 }) := by
  constructor
  · intro h0 hr
    have hport : validatePort srv = .error "port must be a number between 1 and 65535" := by
      unfold validatePort
      have : (srv.Port != 0 && (decide (srv.Port < 1) || decide (srv.Port > 65535))) = true := by
        simp only [Bool.and_eq_true, bne_iff_ne, ne_eq, Bool.or_eq_true, decide_eq_true_eq]
        exact ⟨h0, hr⟩
      rw [if_pos this]
    unfold validateServer
    split
    · exact ⟨_, rfl⟩
    · split
      · exact ⟨_, rfl⟩
      · split
        · exact ⟨_, rfl⟩
        · split
          · cases hv : validateHostName srv with
            | error err => exact ⟨err, rfl⟩
            | ok u => exact ⟨_, hport⟩
          · exact ⟨_, hport⟩
  · intro hr
    have hport : validatePort srv = .ok () := by
      unfold validatePort
      have : (srv.Port != 0 && (decide (srv.Port < 1) || decide (srv.Port > 65535))) = false := by
        rcases hr with h | ⟨h1, h2⟩
        · simp [h]
        · have a : ¬ srv.Port < 1 := by omega
          have b : ¬ srv.Port > 65535 := by omega
          simp [a, b]
      rw [this]
      rfl
    have hport22 : validatePort { srv with Port := 22 } = .ok () := by
      simp [validatePort]
    refine ⟨?_, ?_⟩
    rotate_left
    · unfold validateServer
      simp only [hport, hport22, validateHostName_port]
    unfold validateServer
    simp only [hport]
    split
    · simp
    · split
      · simp
      · split
        · simp
        · split
          · cases hv : validateHostName srv with
            | error err =>
              have := validateHostName_ne_port srv
              rw [hv] at this
              exact this
            | ok u => simp
          · simp

theorem validateServer_port_witness :
    (∃ msg, validateServer asciiTables (fun _ => false)
        { Alias := "web", Aliases := ["web"], Host := "example.com", User := "", Port := 70000,
          IdentityFiles := [], Tags := [], PinnedAt := 0, SourceFile := "", Readonly := false }
        = .error msg) ∧
      validateServer asciiTables (fun _ => false)
        { Alias := "web", Aliases := ["web"], Host := "example.com", User := "", Port := 70000,
          IdentityFiles := [], Tags := [], PinnedAt := 0, SourceFile := "", Readonly := false }
        = .error "port must be a number between 1 and 65535" :=
  ⟨(validateServer_port asciiTables (fun _ => false)
      { Alias := "web", Aliases := ["web"], Host := "example.com", User := "", Port := 70000,
        IdentityFiles := [], Tags := [], PinnedAt := 0, SourceFile := "", Readonly := false }).1
      (by decide) (Or.inr (by decide)),
    by rfl⟩

/-! ## `stripInlineComment` -/

theorem quoteState_append_singleton (cs : List Char) (c : Char) :
    quoteState (cs ++ [c]) = quoteStep (quoteState cs) c := by
  simp [quoteState, List.foldl_append]

theorem stripInlineCommentLoop_cons (c : Char) (cs : List Char) (a b : Bool) :
    stripInlineCommentLoop (c :: cs) a b =
      if c == '#' && (a, b) == (false, false) then []
      else c :: stripInlineCommentLoop cs (quoteStep (a, b) c).1 (quoteStep (a, b) c).2 := by
  rw [stripInlineCommentLoop]
  unfold quoteStep
  by_cases h1 : c = '\''
  · subst h1
    cases a <;> cases b <;> simp
  · by_cases h2 : c = '"'
    · subst h2
      cases a <;> cases b <;> simp
    · by_cases h3 : c = '#'
      · subst h3
        cases a <;> cases b <;> simp
      · cases a <;> cases b <;> simp [h1, h2, h3]

/-- The loop of `stripInlineComment` after the runes `done`: it returns what precedes the
first `#` outside quotes, or everything when there is none. -/
theorem stripInlineCommentLoop_spec (done rest : List Char) :
    (∃ pre post, rest = pre ++ '#' :: post ∧
        quoteState (done ++ pre) = (false, false) ∧
        (∀ j, j < pre.length → pre[j]? = some '#' →
          quoteState (done ++ pre.take j) ≠ (false, false)) ∧
        stripInlineCommentLoop rest (quoteState done).1 (quoteState done).2 = pre) ∨
      ((∀ j, rest[j]? = some '#' → quoteState (done ++ rest.take j) ≠ (false, false)) ∧
        stripInlineCommentLoop rest (quoteState done).1 (quoteState done).2 = rest) := by
  induction rest generalizing done with
  | nil =>
    right
    exact ⟨by simp, by simp [stripInlineCommentLoop]⟩
  | cons c cs ih =>
    rw [stripInlineCommentLoop_cons]
    by_cases hstop : (c == '#' && (quoteState done == (false, false))) = true
    · left
      simp only [Bool.and_eq_true, beq_iff_eq] at hstop
      obtain ⟨hc, hq⟩ := hstop
      subst hc
      refine ⟨[], cs, by simp, by simpa using hq, by simp, ?_⟩
      simp [hq]
    · have hstop2 : (c == '#' && ((quoteState done).1, (quoteState done).2) == (false, false))
          = false := by
        simpa using hstop
      rw [hstop2]
      simp only [Bool.false_eq_true, if_false]
      have hq : quoteStep ((quoteState done).1, (quoteState done).2) c
          = quoteState (done ++ [c]) := by
        rw [quoteState_append_singleton]
      rw [hq]
      have hhead : c = '#' → quoteState done ≠ (false, false) := by
        intro hc hq0
        apply hstop
        simp [hc, hq0]
      rcases ih (done ++ [c]) with ⟨pre, post, h1, h2, h3, h4⟩ | ⟨h1, h2⟩
      · left
        refine ⟨c :: pre, post, by simp [h1], by simpa using h2, ?_, by rw [h4]⟩
        intro j hj hjc
        cases j with
        | zero =>
          simp only [List.getElem?_cons_zero, Option.some.injEq] at hjc
          simpa using hhead hjc
        | succ k =>
          simp only [List.getElem?_cons_succ] at hjc
          have := h3 k (by simpa using hj) hjc
          simpa using this
      · right
        refine ⟨?_, by rw [h2]⟩
        intro j hjc
        cases j with
        | zero =>
          simp only [List.getElem?_cons_zero, Option.some.injEq] at hjc
          simpa using hhead hjc
        | succ k =>
          simp only [List.getElem?_cons_succ] at hjc
          have := h1 k hjc
          simpa using this

/-- No `#` of `cs` lies outside quotes. -/
theorem noOuterHash_prefix (l t u : List Char) (hl : l = t ++ u)
    (h : ∀ i, l[i]? = some '#' → outsideQuotes l i = false) :
    ∀ i, t[i]? = some '#' → outsideQuotes t i = false := by
  intro i hi
  have hlt : i < t.length := by
    by_contra hn
    rw [List.getElem?_eq_none (by omega)] at hi
    exact Option.noConfusion hi
  have h1 : l[i]? = some '#' := by
    rw [hl, List.getElem?_append_left hlt]
    exact hi
  have := h i h1
  unfold outsideQuotes at this ⊢
  rw [hl, List.take_append_of_le_length (by omega)] at this
  exact this

theorem quoteState_skip (U : UnicodeTables) (hs : U.isSpace '\'' = false)
    (hd : U.isSpace '"' = false) (sp x : List Char) (hsp : ∀ c ∈ sp, U.isSpace c = true) :
    quoteState (sp ++ x) = quoteState x := by
  unfold quoteState
  rw [List.foldl_append]
  congr 1
  induction sp with
  | nil => rfl
  | cons c cs ih =>
    have hc := hsp c (by simp)
    have h1 : c ≠ '\'' := fun h => by rw [h, hs] at hc; exact Bool.noConfusion hc
    have h2 : c ≠ '"' := fun h => by rw [h, hd] at hc; exact Bool.noConfusion hc
    rw [List.foldl_cons]
    have : quoteStep (false, false) c = (false, false) := by
      simp [quoteStep, h1, h2]
    rw [this]
    exact ih (fun c' hc' => hsp c' (by simp [hc']))

theorem noOuterHash_skip (U : UnicodeTables) (hs : U.isSpace '\'' = false)
    (hd : U.isSpace '"' = false) (sp x : List Char) (hsp : ∀ c ∈ sp, U.isSpace c = true)
    (h : ∀ i, (sp ++ x)[i]? = some '#' → outsideQuotes (sp ++ x) i = false) :
    ∀ i, x[i]? = some '#' → outsideQuotes x i = false := by
  intro i hi
  have h1 : (sp ++ x)[sp.length + i]? = some '#' := by
    rw [List.getElem?_append_right (by omega)]
    simpa using hi
  have h2 := h _ h1
  unfold outsideQuotes at h2 ⊢
  rw [List.take_append, quoteState_skip U hs hd _ _ hsp] at h2
  exact h2

theorem noOuterHash_dropWhile (U : UnicodeTables) (hs : U.isSpace '\'' = false)
    (hd : U.isSpace '"' = false) (l : List Char)
    (h : ∀ i, l[i]? = some '#' → outsideQuotes l i = false) :
    ∀ i, (l.dropWhile U.isSpace)[i]? = some '#' →
      outsideQuotes (l.dropWhile U.isSpace) i = false := by
  apply noOuterHash_skip U hs hd (l.takeWhile U.isSpace) (l.dropWhile U.isSpace)
    (fun c hc => List.mem_takeWhile_imp hc)
  rw [List.takeWhile_append_dropWhile]
  exact h

theorem noOuterHash_trim (U : UnicodeTables) (hs : U.isSpace '\'' = false)
    (hd : U.isSpace '"' = false) (l : List Char)
    (h : ∀ i, l[i]? = some '#' → outsideQuotes l i = false) :
    ∀ i, (TrimSpace U ⟨l⟩).data[i]? = some '#' →
      outsideQuotes (TrimSpace U ⟨l⟩).data i = false := by
  have h1 := noOuterHash_dropWhile U hs hd l h
  have hpre : (TrimSpace U ⟨l⟩).data <+: l.dropWhile U.isSpace :=
    List.rdropWhile_prefix U.isSpace (l.dropWhile U.isSpace)
  obtain ⟨u, hu⟩ := hpre
  exact noOuterHash_prefix _ _ u hu.symm h1

/-- C16: `stripInlineComment` returns the trimmed prefix that ends just before the first `#`
outside quotes, or the trimmed string when no `#` lies outside quotes.  With tables in which
the two quote characters are not white space, no `#` of the result lies outside quotes and
the result does not start with `#`. -/
theorem stripInlineComment_spec (U : UnicodeTables) (s : String) :
    ((∃ pre post, s.data = pre ++ '#' :: post ∧
          outsideQuotes s.data pre.length = true ∧
          (∀ i, i < pre.length → s.data[i]? = some '#' → outsideQuotes s.data i = false) ∧
          stripInlineComment U s = TrimSpace U ⟨pre⟩) ∨
        ((∀ i, s.data[i]? = some '#' → outsideQuotes s.data i = false) ∧
          stripInlineComment U s = TrimSpace U s)) ∧
      (U.isSpace '\'' = false → U.isSpace '"' = false →
        (∀ i, (stripInlineComment U s).data[i]? = some '#' →
          outsideQuotes (stripInlineComment U s).data i = false) ∧
        (stripInlineComment U s).data.head? ≠ some '#') := by
  have hloop := stripInlineCommentLoop_spec [] s.data
  have hmain : (∃ pre post, s.data = pre ++ '#' :: post ∧
          outsideQuotes s.data pre.length = true ∧
          (∀ i, i < pre.length → s.data[i]? = some '#' → outsideQuotes s.data i = false) ∧
          stripInlineComment U s = TrimSpace U ⟨pre⟩) ∨
        ((∀ i, s.data[i]? = some '#' → outsideQuotes s.data i = false) ∧
          stripInlineComment U s = TrimSpace U s) := by
    rcases hloop with ⟨pre, post, h1, h2, h3, h4⟩ | ⟨h1, h2⟩
    · left
      refine ⟨pre, post, h1, ?_, ?_, ?_⟩
      · unfold outsideQuotes
        rw [h1, List.take_left]
        simpa using h2
      · intro i hi hic
        unfold outsideQuotes
        rw [h1, List.take_append_of_le_length (by omega)]
        rw [h1, List.getElem?_append_left hi] at hic
        have := h3 i hi hic
        simpa using this
      · unfold stripInlineComment
        have : stripInlineCommentLoop s.data false false = pre := h4
        rw [this]
    · right
      refine ⟨?_, ?_⟩
      · intro i hic
        unfold outsideQuotes
        have := h1 i hic
        simpa using this
      · unfold stripInlineComment
        have : stripInlineCommentLoop s.data false false = s.data := h2
        rw [this]
  refine ⟨hmain, ?_⟩
  intro hs hd
  have hno : ∀ i, (stripInlineComment U s).data[i]? = some '#' →
      outsideQuotes (stripInlineComment U s).data i = false := by
    rcases hmain with ⟨pre, post, h1, _, h3, h4⟩ | ⟨h1, h2⟩
    · rw [h4]
      apply noOuterHash_trim U hs hd pre
      intro i hi
      have hlt : i < pre.length := by
        by_contra hn
        rw [List.getElem?_eq_none (by omega)] at hi
        exact Option.noConfusion hi
      have hsi : s.data[i]? = some '#' := by
        rw [h1, List.getElem?_append_left hlt]
        exact hi
      have := h3 i hlt hsi
      unfold outsideQuotes at this ⊢
      rw [h1, List.take_append_of_le_length (by omega)] at this
      exact this
    · rw [h2]
      exact noOuterHash_trim U hs hd s.data h1
  refine ⟨hno, ?_⟩
  intro hhead
  have h0 : (stripInlineComment U s).data[0]? = some '#' := by
    rw [← List.head?_eq_getElem?]
    exact hhead
  have := hno 0 h0
  simp [outsideQuotes, quoteState] at this

theorem stripInlineComment_spec_witness :
    stripInlineComment asciiTables "Include \"a#b.conf\" # note" = "Include \"a#b.conf\"" ∧
      asciiTables.isSpace '\'' = false ∧ asciiTables.isSpace '"' = false ∧
      (∀ i, (stripInlineComment asciiTables "Include \"a#b.conf\" # note").data[i]? = some '#' →
        outsideQuotes (stripInlineComment asciiTables "Include \"a#b.conf\" # note").data i
          = false) ∧
      (stripInlineComment asciiTables "Include \"a#b.conf\" # note").data.head? ≠ some '#' :=
  ⟨by decide, by decide, by decide,
    (stripInlineComment_spec asciiTables "Include \"a#b.conf\" # note").2 (by decide)
      (by decide)⟩

/-! ## `splitFieldsRespectQuotes` -/

theorem splitFieldsLoop_cons (ch : Char) (rest : List Char) (fields : List String)
    (b : List Char) (inSingle inDouble : Bool) :
    splitFieldsLoop (ch :: rest) fields b inSingle inDouble =
      if isBlank ch && (inSingle, inDouble) == (false, false) then
        splitFieldsLoop rest (flush fields b) [] inSingle inDouble
      else
        splitFieldsLoop rest fields (b ++ [ch]) (quoteStep (inSingle, inDouble) ch).1
          (quoteStep (inSingle, inDouble) ch).2 := by
  rw [splitFieldsLoop]
  unfold quoteStep isBlank
  by_cases h1 : ch = ' '
  · subst h1
    cases inSingle <;> cases inDouble <;> simp
  · by_cases h2 : ch = '\t'
    · subst h2
      cases inSingle <;> cases inDouble <;> simp
    · by_cases h3 : ch = '\''
      · subst h3
        cases inSingle <;> cases inDouble <;> simp
      · by_cases h4 : ch = '"'
        · subst h4
          cases inSingle <;> cases inDouble <;> simp
        · cases inSingle <;> cases inDouble <;> simp [h1, h2, h3, h4]

theorem flush_join (fields : List String) (b : List Char) :
    ((flush fields b).map String.data).flatten = (fields.map String.data).flatten ++ b := by
  unfold flush
  cases b with
  | nil => simp
  | cons c cs => simp

/-- The concatenation of the fields after the runes `done` have been read. -/
theorem splitFieldsLoop_join (done rest : List Char) (fields : List String) (b : List Char) :
    ((splitFieldsLoop rest fields b (quoteState done).1 (quoteState done).2).map
        String.data).flatten
      = (fields.map String.data).flatten ++ b ++
        (((rest.enumFrom done.length).filter
          (fun ic => !(isBlank ic.2 && outsideQuotes (done ++ rest) ic.1))).map Prod.snd) := by
  induction rest generalizing done fields b with
  | nil => simp [splitFieldsLoop, flush_join]
  | cons ch rest ih =>
    rw [splitFieldsLoop_cons]
    have hhead : outsideQuotes (done ++ ch :: rest) done.length
        = (quoteState done == (false, false)) := by
      unfold outsideQuotes
      rw [List.take_left]
    have hq : quoteStep ((quoteState done).1, (quoteState done).2) ch
        = quoteState (done ++ [ch]) := by
      rw [quoteState_append_singleton]
    have hblank : isBlank ch = true → quoteState (done ++ [ch]) = quoteState done := by
      intro hb
      rw [quoteState_append_singleton]
      unfold quoteStep
      unfold isBlank at hb
      have h3 : ch ≠ '\'' := by
        rintro rfl
        simp at hb
      have h4 : ch ≠ '"' := by
        rintro rfl
        simp at hb
      simp [h3, h4]
    have hrest := ih (done ++ [ch])
    simp only [List.length_append, List.length_singleton, List.append_assoc,
      List.singleton_append] at hrest
    simp only [List.enumFrom_cons, List.filter_cons, hhead]
    by_cases hdrop : (isBlank ch && (quoteState done == (false, false))) = true
    · have hdrop2 : (isBlank ch && ((quoteState done).1, (quoteState done).2) == (false, false))
          = true := by simpa using hdrop
      rw [hdrop2]
      simp only [if_true, hdrop, Bool.not_true, Bool.false_eq_true, if_false]
      have hb : isBlank ch = true := by
        simp only [Bool.and_eq_true] at hdrop
        exact hdrop.1
      have := hrest (flush fields b) []
      rw [hblank hb] at this
      rw [this, flush_join]
      simp
    · have hdrop2 : (isBlank ch && ((quoteState done).1, (quoteState done).2) == (false, false))
          = false := by simpa using hdrop
      have hdrop3 : (isBlank ch && (quoteState done == (false, false))) = false := by
        simpa using hdrop
      rw [hdrop2, hq]
      simp only [Bool.false_eq_true, if_false, hdrop3, Bool.not_false, if_true]
      rw [hrest fields (b ++ [ch])]
      simp

theorem flush_fields (fields : List String) (b : List Char)
    (hb : ∀ i c, b[i]? = some c → isBlank c = true → outsideQuotes b i = false)
    (hf : ∀ f ∈ fields, f ≠ "" ∧
      ∀ i c, f.data[i]? = some c → isBlank c = true → outsideQuotes f.data i = false) :
    ∀ f ∈ flush fields b, f ≠ "" ∧
      ∀ i c, f.data[i]? = some c → isBlank c = true → outsideQuotes f.data i = false := by
  unfold flush
  cases b with
  | nil => simpa using hf
  | cons x xs =>
    simp only [List.length_cons, gt_iff_lt, Nat.zero_lt_succ, if_true]
    intro f hfm
    simp only [List.mem_append, List.mem_singleton] at hfm
    rcases hfm with hfm | rfl
    · exact hf f hfm
    · refine ⟨?_, hb⟩
      intro h
      have := congrArg String.data h
      simp at this

/-- The fields are non-empty and have no space or tab outside quotes, given that this holds
of the fields flushed so far and of the builder `b`, whose quote state is the current one. -/
theorem splitFieldsLoop_fields (rest : List Char) (fields : List String) (b : List Char)
    (hb : ∀ i c, b[i]? = some c → isBlank c = true → outsideQuotes b i = false)
    (hf : ∀ f ∈ fields, f ≠ "" ∧
      ∀ i c, f.data[i]? = some c → isBlank c = true → outsideQuotes f.data i = false) :
    ∀ f ∈ splitFieldsLoop rest fields b (quoteState b).1 (quoteState b).2, f ≠ "" ∧
      ∀ i c, f.data[i]? = some c → isBlank c = true → outsideQuotes f.data i = false := by
  induction rest generalizing fields b with
  | nil =>
    rw [splitFieldsLoop]
    exact flush_fields fields b hb hf
  | cons ch rest ih =>
    rw [splitFieldsLoop_cons]
    by_cases hdrop : (isBlank ch && ((quoteState b).1, (quoteState b).2) == (false, false)) = true
    · rw [if_pos hdrop]
      have hq : quoteState b = (false, false) := by
        simp only [Bool.and_eq_true, beq_iff_eq] at hdrop
        exact hdrop.2
      have := ih (flush fields b) [] (by simp) (flush_fields fields b hb hf)
      rw [hq]
      exact this
    · rw [if_neg hdrop]
      have hq : quoteStep ((quoteState b).1, (quoteState b).2) ch = quoteState (b ++ [ch]) := by
        rw [quoteState_append_singleton]
      rw [hq]
      apply ih fields (b ++ [ch]) _ hf
      intro i c hic hblank
      by_cases hlt : i < b.length
      · rw [List.getElem?_append_left hlt] at hic
        have := hb i c hic hblank
        unfold outsideQuotes at this ⊢
        rw [List.take_append_of_le_length (by omega)]
        exact this
      · have hi : i = b.length := by
          by_contra hne
          rw [List.getElem?_eq_none (by simp; omega)] at hic
          exact Option.noConfusion hic
        subst hi
        simp only [List.getElem?_concat_length, Option.some.injEq] at hic
        subst hic
        unfold outsideQuotes
        rw [List.take_left]
        simp only [hblank, Bool.true_and] at hdrop
        simpa using hdrop

/-- C17: `splitFieldsRespectQuotes` returns non-empty fields whose concatenation is the
string without the spaces and tabs that lie outside quoted spans, and no field has a space or
a tab outside a quoted span. -/
theorem splitFieldsRespectQuotes_spec (s : String) :
    (∀ f ∈ splitFieldsRespectQuotes s, f ≠ "") ∧
      ((splitFieldsRespectQuotes s).map String.data).flatten = dropOuterBlanks s.data ∧
      (∀ f ∈ splitFieldsRespectQuotes s, ∀ i c, f.data[i]? = some c → isBlank c = true →
        outsideQuotes f.data i = false) := by
  have hfields := splitFieldsLoop_fields s.data [] [] (by simp) (by simp)
  have hjoin := splitFieldsLoop_join [] s.data [] []
  refine ⟨fun f hf => (hfields f hf).1, ?_, fun f hf => (hfields f hf).2⟩
  unfold splitFieldsRespectQuotes dropOuterBlanks
  have e : splitFieldsLoop s.data [] [] false false
      = splitFieldsLoop s.data [] [] (quoteState []).1 (quoteState []).2 := rfl
  rw [e, hjoin]
  simp [List.enum]

theorem splitFieldsRespectQuotes_spec_witness :
    splitFieldsRespectQuotes "Include \"my dir/a.conf\" b.conf"
        = ["Include", "\"my dir/a.conf\"", "b.conf"] ∧
      dropOuterBlanks "Include \"my dir/a.conf\" b.conf".data
        = "Include\"my dir/a.conf\"b.conf".data ∧
      (∀ f ∈ splitFieldsRespectQuotes "Include \"my dir/a.conf\" b.conf", f ≠ "") :=
  ⟨by decide, by decide,
    (splitFieldsRespectQuotes_spec "Include \"my dir/a.conf\" b.conf").1⟩

/-! ## The config loader: entries of one file -/

theorem aliasLoop_eq_filter (patterns acc : List String) :
    patterns.foldl
        (fun aliases pattern =>
          if ContainsAny pattern "!*?[]" then aliases else aliases ++ [pattern])
        acc
      = acc ++ patterns.filter (fun p => !ContainsAny p "!*?[]") := by
  induction patterns generalizing acc with
  | nil => simp
  | cons p ps ih =>
    simp only [List.foldl_cons, List.filter_cons]
    by_cases h : ContainsAny p "!*?[]" = true
    · simp [h, ih]
    · simp [h, ih]

theorem aliasLoop_eq_plainPatterns (host : HostBlock) :
    aliasLoop host.Patterns = plainPatterns host := by
  unfold aliasLoop plainPatterns
  rw [aliasLoop_eq_filter, List.nil_append]
  apply List.filter_congr
  intro p _
  unfold ContainsAny
  have e : "!*?[]".data = ['!', '*', '?', '[', ']'] := rfl
  rw [e]
  induction p.data with
  | nil => rfl
  | cons c cs ih =>
    simp only [List.any_cons, List.all_cons, Bool.not_or, ih]

theorem nodeLoop_preserves {α : Type} (mapKV : Server → KV → Server) (proj : Server → α)
    (hmap : ∀ srv kv, proj (mapKV srv kv) = proj srv) (server : Server) (nodes : List Node) :
    proj (nodeLoop mapKV server nodes) = proj server := by
  unfold nodeLoop
  induction nodes generalizing server with
  | nil => rfl
  | cons n ns ih =>
    rw [List.foldl_cons, ih]
    cases n with
    | kv kvNode => exact hmap server kvNode
    | other => rfl

theorem nodeLoop_no_directive (mapKV : Server → KV → Server) (server : Server)
    (nodes : List Node) (h : ∀ n ∈ nodes, n = Node.other) :
    nodeLoop mapKV server nodes = server := by
  unfold nodeLoop
  induction nodes generalizing server with
  | nil => rfl
  | cons n ns ih =>
    rw [List.foldl_cons]
    have hn := h n (by simp)
    subst hn
    exact ih server (fun m hm => h m (by simp [hm]))

theorem hostLoop_eq_flatMap (mapKV : Server → KV → Server) (origin : String) (isMain : Bool)
    (hosts : List HostBlock) (acc : List Server) :
    hosts.foldl
        (fun servers host =>
          let aliases := aliasLoop host.Patterns
          if aliases.length == 0 then servers
          else
            let server : Server :=
              { Alias := aliases.headD "", Aliases := aliases, Host := "", User := "",
                Port := 22, IdentityFiles := [], Tags := [], PinnedAt := 0,
                SourceFile := origin, Readonly := !isMain }
            servers ++ [nodeLoop mapKV server host.Nodes])
        acc
      = acc ++ hosts.flatMap (fun host =>
          toDomainServersFromConfig mapKV { Hosts := [host] } origin isMain) := by
  induction hosts generalizing acc with
  | nil => simp
  | cons h hs ih =>
    rw [List.foldl_cons, ih, List.flatMap_cons, ← List.append_assoc]
    congr 1
    unfold toDomainServersFromConfig
    simp only [List.foldl_cons, List.foldl_nil]
    split <;> simp

theorem toDomainServers_eq_flatMap (mapKV : Server → KV → Server) (cfg : Config)
    (origin : String) (isMain : Bool) :
    toDomainServersFromConfig mapKV cfg origin isMain
      = cfg.Hosts.flatMap (fun host =>
          toDomainServersFromConfig mapKV { Hosts := [host] } origin isMain) := by
  conv_lhs => unfold toDomainServersFromConfig
  rw [hostLoop_eq_flatMap, List.nil_append]

/-- What one host block gives: nothing when no pattern is plain, otherwise the entry built
from the plain patterns and run through the mapper. -/
theorem toDomainServers_single (mapKV : Server → KV → Server) (host : HostBlock)
    (origin : String) (isMain : Bool) :
    toDomainServersFromConfig mapKV { Hosts := [host] } origin isMain
      = if plainPatterns host = [] then []
        else
          [nodeLoop mapKV
            { Alias := (plainPatterns host).headD "", Aliases := plainPatterns host, Host := "",
              User := "", Port := 22, IdentityFiles := [], Tags := [], PinnedAt := 0,
              SourceFile := origin, Readonly := !isMain } host.Nodes] := by
  unfold toDomainServersFromConfig
  simp only [List.foldl_cons, List.foldl_nil, aliasLoop_eq_plainPatterns]
  cases h : plainPatterns host with
  | nil => simp
  | cons a as => simp

/-- C12: `toDomainServersFromConfig` yields, in block order, one entry for each host block
that has a pattern free of `!`, `*`, `?`, `[`, `]`; the entry's `Aliases` is the list of
these patterns in order and its `Alias` the first of them; other blocks yield nothing.  The
key-value mapper, which is not among the sources, is assumed to leave `Alias` and `Aliases`
alone. -/
theorem toDomainServers_aliases (mapKV : Server → KV → Server)
    (hmap : MapperKeepsAliases mapKV) (cfg : Config) (origin : String) (isMain : Bool) :
    (toDomainServersFromConfig mapKV cfg origin isMain).map (fun s => (s.Alias, s.Aliases))
      = (cfg.Hosts.filter (fun host => !(plainPatterns host).isEmpty)).map
          (fun host => ((plainPatterns host).headD "", plainPatterns host)) := by
  rw [toDomainServers_eq_flatMap]
  induction cfg.Hosts with
  | nil => rfl
  | cons h hs ih =>
    rw [List.flatMap_cons, List.map_append, ih, List.filter_cons, toDomainServers_single]
    cases hp : plainPatterns h with
    | nil => simp
    | cons a as =>
      simp only [List.isEmpty_cons, Bool.not_false, if_true, List.map_cons, List.headD_cons,
        List.cons_ne_nil, if_false, List.map_nil, List.singleton_append]
      congr 1
      rw [nodeLoop_preserves mapKV (fun s => s.Alias) (fun srv kv => (hmap srv kv).1),
        nodeLoop_preserves mapKV (fun s => s.Aliases) (fun srv kv => (hmap srv kv).2)]
      simp [hp]

theorem exampleMapper_keeps (srv : Server) (kv : KV) :
    (exampleMapper srv kv).Alias = srv.Alias ∧ (exampleMapper srv kv).Aliases = srv.Aliases ∧
      (exampleMapper srv kv).SourceFile = srv.SourceFile ∧
      (exampleMapper srv kv).Readonly = srv.Readonly := by
  unfold exampleMapper
  split
  · exact ⟨rfl, rfl, rfl, rfl⟩
  · split <;> exact ⟨rfl, rfl, rfl, rfl⟩

theorem toDomainServers_aliases_witness :
    toDomainServersFromConfig exampleMapper
        { Hosts := [{ Patterns := ["web*"], Nodes := [] }] } "/r/config" true = [] ∧
      (toDomainServersFromConfig exampleMapper
        { Hosts := [{ Patterns := ["web*"], Nodes := [] },
                    { Patterns := ["web1", "web*"], Nodes := [] }] } "/r/config" true).map
          (fun s => (s.Alias, s.Aliases))
        = [("web1", ["web1"])] :=
  ⟨by decide,
    (toDomainServers_aliases exampleMapper
      (fun srv kv => ⟨(exampleMapper_keeps srv kv).1, (exampleMapper_keeps srv kv).2.1⟩)
      { Hosts := [{ Patterns := ["web*"], Nodes := [] },
                  { Patterns := ["web1", "web*"], Nodes := [] }] } "/r/config" true).trans
      (by decide)⟩

/-! ## The config loader: the merge -/

theorem serverLoop_append (xs ys : List Server) (st : List String × List Server) :
    serverLoop (xs ++ ys) st = serverLoop ys (serverLoop xs st) := by
  induction xs generalizing st with
  | nil => simp [serverLoop]
  | cons x xs ih =>
    obtain ⟨seen, all⟩ := st
    simp only [List.cons_append, serverLoop]
    split <;> exact ih _

theorem fileLoop_eq (fs : FileSystem) (L : Loader) (i : Nat) (files : List String)
    (st : List String × List Server) :
    fileLoop fs L i files st = serverLoop (decodedEntries fs L i files) st := by
  induction files generalizing i st with
  | nil => simp [fileLoop, decodedEntries, serverLoop]
  | cons f files ih =>
    rw [fileLoop, decodedEntries, serverLoop_append]
    cases hd : decodeConfigAt fs L f with
    | none => simp [serverLoop, ih]
    | some cfg => simp [ih]

/-- The merge loop from a state whose `seen` holds the aliases of `all`: the entries it adds
are a sublist of the candidates, each the first candidate of its alias and of an alias not
seen before, with distinct aliases, and every candidate's alias is then present. -/
theorem serverLoop_spec (cands : List Server) (seen : List String) (all : List Server)
    (hseen : ∀ a, a ∈ seen ↔ a ∈ all.map (fun s => s.Alias)) :
    ∃ new, (serverLoop cands (seen, all)).2 = all ++ new ∧ List.Sublist new cands ∧
      (∀ t ∈ new, t.Alias ∉ seen ∧ cands.find? (fun s => s.Alias == t.Alias) = some t) ∧
      (new.map (fun s => s.Alias)).Nodup ∧
      (∀ s ∈ cands, s.Alias ∈ seen ∨ ∃ t ∈ new, t.Alias = s.Alias) := by
  induction cands generalizing seen all with
  | nil => exact ⟨[], by simp [serverLoop], List.Sublist.refl _, by simp, by simp, by simp⟩
  | cons s rest ih =>
    rw [serverLoop]
    by_cases hs : s.Alias ∈ seen
    · rw [if_pos hs]
      obtain ⟨new, h1, h2, h3, h4, h5⟩ := ih seen all hseen
      refine ⟨new, h1, h2.cons s, ?_, h4, ?_⟩
      · intro t ht
        obtain ⟨ha, hb⟩ := h3 t ht
        refine ⟨ha, ?_⟩
        have hne : (s.Alias == t.Alias) = false := by
          simp only [beq_eq_false_iff_ne, ne_eq]
          intro h
          exact ha (h ▸ hs)
        rw [List.find?_cons, hne]
        exact hb
      · intro c hc
        simp only [List.mem_cons] at hc
        rcases hc with rfl | hc
        · exact Or.inl hs
        · exact h5 c hc
    · rw [if_neg hs]
      have hseen2 : ∀ a, a ∈ s.Alias :: seen ↔ a ∈ (all ++ [s]).map (fun s => s.Alias) := by
        intro a
        simp only [List.mem_cons, List.map_append, List.map_cons, List.map_nil, List.mem_append,
          List.mem_singleton, hseen a]
        tauto
      obtain ⟨new, h1, h2, h3, h4, h5⟩ := ih (s.Alias :: seen) (all ++ [s]) hseen2
      refine ⟨s :: new, by simp [h1], h2.cons₂ s, ?_, ?_, ?_⟩
      · intro t ht
        simp only [List.mem_cons] at ht
        rcases ht with rfl | ht
        · exact ⟨hs, by simp⟩
        · obtain ⟨ha, hb⟩ := h3 t ht
          simp only [List.mem_cons, not_or] at ha
          refine ⟨ha.2, ?_⟩
          have hne : (s.Alias == t.Alias) = false := by
            simp only [beq_eq_false_iff_ne, ne_eq]
            exact fun h => ha.1 h.symm
          rw [List.find?_cons, hne]
          exact hb
      · rw [List.map_cons, List.nodup_cons]
        refine ⟨?_, h4⟩
        intro hmem
        simp only [List.mem_map] at hmem
        obtain ⟨t, ht, hta⟩ := hmem
        have := (h3 t ht).1
        simp only [List.mem_cons, not_or] at this
        exact this.1 hta
      · intro c hc
        simp only [List.mem_cons] at hc
        rcases hc with rfl | hc
        · exact Or.inr ⟨c, by simp, rfl⟩
        · rcases h5 c hc with h | ⟨t, ht, hta⟩
          · simp only [List.mem_cons] at h
            rcases h with h | h
            · exact Or.inr ⟨s, by simp, h.symm⟩
            · exact Or.inl h
          · exact Or.inr ⟨t, by simp [ht], hta⟩

theorem toDomainServers_origin (mapKV : Server → KV → Server)
    (hmap : ∀ srv kv, (mapKV srv kv).SourceFile = srv.SourceFile ∧
      (mapKV srv kv).Readonly = srv.Readonly)
    (cfg : Config) (origin : String) (isMain : Bool) :
    ∀ t ∈ toDomainServersFromConfig mapKV cfg origin isMain,
      ∃ host ∈ cfg.Hosts, toDomainServersFromConfig mapKV { Hosts := [host] } origin isMain = [t] ∧
        t.SourceFile = origin ∧ t.Readonly = !isMain ∧
        ((∀ n ∈ host.Nodes, n = Node.other) → t.Port = 22 ∧ t.IdentityFiles = []) := by
  intro t ht
  rw [toDomainServers_eq_flatMap] at ht
  simp only [List.mem_flatMap] at ht
  obtain ⟨host, hh, ht⟩ := ht
  refine ⟨host, hh, ?_⟩
  rw [toDomainServers_single] at ht ⊢
  by_cases hp : plainPatterns host = []
  · simp [hp] at ht
  · simp only [hp, if_false, List.mem_singleton] at ht ⊢
    subst ht
    refine ⟨rfl, ?_, ?_, ?_⟩
    · rw [nodeLoop_preserves mapKV (fun s => s.SourceFile) (fun srv kv => (hmap srv kv).1)]
    · rw [nodeLoop_preserves mapKV (fun s => s.Readonly) (fun srv kv => (hmap srv kv).2)]
    · intro hn
      rw [nodeLoop_no_directive mapKV _ _ hn]
      exact ⟨rfl, rfl⟩

theorem decodedEntries_mem (fs : FileSystem) (L : Loader) (k : Nat) (files : List String) :
    ∀ t ∈ decodedEntries fs L k files, ∃ j f cfg, files[j]? = some f ∧
      decodeConfigAt fs L f = some cfg ∧
      t ∈ toDomainServersFromConfig L.mapKVToServer cfg f (k + j == 0) := by
  induction files generalizing k with
  | nil => simp [decodedEntries]
  | cons f files ih =>
    intro t ht
    rw [decodedEntries, List.mem_append] at ht
    rcases ht with ht | ht
    · cases hd : decodeConfigAt fs L f with
      | none => simp [hd] at ht
      | some cfg =>
        simp only [hd] at ht
        exact ⟨0, f, cfg, by simp, hd, by simpa using ht⟩
    · obtain ⟨j, g, cfg, h1, h2, h3⟩ := ih (k + 1) t ht
      refine ⟨j + 1, g, cfg, by simpa using h1, h2, ?_⟩
      have e : (k + 1 + j == 0) = (k + (j + 1) == 0) := by
        congr 1
        omega
      rw [← e]
      exact h3
theorem loadAllServers_eq (fs : FileSystem) (U : UnicodeTables) (L : Loader) (fuel : Nat)
    (configPath : String) (all : List Server)
    (h : loadAllServers fs U L fuel configPath = some all) :
    ∃ included, resolveIncludes fs U fuel (absMainPath fs configPath)
        [absMainPath fs configPath] = some included ∧
      all = (serverLoop
        (decodedEntries fs L 0 (absMainPath fs configPath :: included.paths)) ([], [])).2 := by
  unfold loadAllServers at h
  simp only [] at h
  cases hr : resolveIncludes fs U fuel (absMainPath fs configPath) [absMainPath fs configPath] with
  | none => simp [hr] at h
  | some included =>
    simp only [hr, Option.some.injEq, List.singleton_append] at h
    refine ⟨included, rfl, ?_⟩
    rw [← h, fileLoop_eq]

theorem toDomainServers_readonly (mapKV : Server → KV → Server)
    (hmap : ∀ srv kv, (mapKV srv kv).Readonly = srv.Readonly)
    (cfg : Config) (origin : String) (isMain : Bool) :
    ∀ t ∈ toDomainServersFromConfig mapKV cfg origin isMain, t.Readonly = !isMain := by
  intro t ht
  rw [toDomainServers_eq_flatMap] at ht
  simp only [List.mem_flatMap] at ht
  obtain ⟨host, _, ht⟩ := ht
  rw [toDomainServers_single] at ht
  by_cases hp : plainPatterns host = []
  · simp [hp] at ht
  · simp only [hp, if_false, List.mem_singleton] at ht
    subst ht
    rw [nodeLoop_preserves mapKV (fun s => s.Readonly) hmap]

/-- C11: the registry `loadAllServers` returns has pairwise distinct aliases; it is a sublist
of the entries decoded in file-processing order, it holds an entry for every alias decoded,
and each of its entries is the first decoded entry of its alias.  So an alias the main file
defines is held once, by an entry of the main file, which is not read-only when the mapper
leaves `Readonly` alone.  On a file system with finitely many paths the call returns. -/
theorem loadAllServers_dedup (fs : FileSystem) (U : UnicodeTables) (L : Loader)
    (configPath : String) :
    (∀ fuel all, loadAllServers fs U L fuel configPath = some all →
      ∃ included, resolveIncludes fs U fuel (absMainPath fs configPath)
          [absMainPath fs configPath] = some included ∧
        (all.map (fun s => s.Alias)).Nodup ∧
        List.Sublist all
          (decodedEntries fs L 0 (absMainPath fs configPath :: included.paths)) ∧
        (∀ s ∈ decodedEntries fs L 0 (absMainPath fs configPath :: included.paths),
          ∃ t ∈ all, t.Alias = s.Alias) ∧
        (∀ t ∈ all,
          (decodedEntries fs L 0 (absMainPath fs configPath :: included.paths)).find?
            (fun s => s.Alias == t.Alias) = some t) ∧
        (∀ cfg, decodeConfigAt fs L (absMainPath fs configPath) = some cfg →
          ∀ s ∈ toDomainServersFromConfig L.mapKVToServer cfg (absMainPath fs configPath) true,
            ∃ t ∈ all, t.Alias = s.Alias ∧
              t ∈ toDomainServersFromConfig L.mapKVToServer cfg (absMainPath fs configPath)
                true ∧
              (all.map (fun s => s.Alias)).count s.Alias = 1 ∧
              ((∀ srv kv, (L.mapKVToServer srv kv).Readonly = srv.Readonly) →
                t.Readonly = false))) ∧
      (∀ allPaths, GlobWithin fs allPaths →
        ∃ all, loadAllServers fs U L (unvisited allPaths [absMainPath fs configPath] + 1)
          configPath = some all) := by
  constructor
  · intro fuel all h
    obtain ⟨included, hinc, hall⟩ := loadAllServers_eq fs U L fuel configPath all h
    obtain ⟨new, h1, h2, h3, h4, h5⟩ := serverLoop_spec
      (decodedEntries fs L 0 (absMainPath fs configPath :: included.paths)) [] [] (by simp)
    rw [List.nil_append] at h1
    rw [h1] at hall
    subst hall
    have hcover : ∀ s ∈ decodedEntries fs L 0 (absMainPath fs configPath :: included.paths),
        ∃ t ∈ all, t.Alias = s.Alias := by
      intro s hs
      rcases h5 s hs with h | h
      · simp at h
      · exact h
    refine ⟨included, hinc, h4, h2, hcover, fun t ht => (h3 t ht).2, ?_⟩
    intro cfg hcfg s hs
    have hcands : decodedEntries fs L 0 (absMainPath fs configPath :: included.paths)
        = toDomainServersFromConfig L.mapKVToServer cfg (absMainPath fs configPath) true
          ++ decodedEntries fs L 1 included.paths := by
      rw [decodedEntries, hcfg]
      rfl
    have hsc : s ∈ decodedEntries fs L 0 (absMainPath fs configPath :: included.paths) := by
      rw [hcands]
      exact List.mem_append_left _ hs
    obtain ⟨t, ht, hta⟩ := hcover s hsc
    have hfind := (h3 t ht).2
    rw [hcands, List.find?_append] at hfind
    have hsome : ((toDomainServersFromConfig L.mapKVToServer cfg (absMainPath fs configPath)
        true).find? (fun s => s.Alias == t.Alias)).isSome = true := by
      rw [List.find?_isSome]
      exact ⟨s, hs, by simp [hta]⟩
    obtain ⟨t0, ht0⟩ := Option.isSome_iff_exists.1 hsome
    rw [ht0] at hfind
    have hfind2 : t0 = t := by
      simpa [Option.or] using hfind
    subst hfind2
    have hmem := List.mem_of_find?_eq_some ht0
    refine ⟨t0, ht, hta, hmem, ?_, ?_⟩
    · apply List.count_eq_one_of_mem h4
      rw [← hta]
      exact List.mem_map_of_mem _ ht
    · intro hmap
      have := toDomainServers_readonly L.mapKVToServer hmap cfg _ true t0 hmem
      simpa using this
  · intro allPaths hfin
    obtain ⟨r, hr⟩ := resolveIncludes_isSome fs U allPaths hfin
      (unvisited allPaths [absMainPath fs configPath] + 1) (absMainPath fs configPath)
      [absMainPath fs configPath] (Nat.lt_succ_self _)
    unfold loadAllServers
    simp only [hr]
    exact ⟨_, rfl⟩

theorem loadAllServers_dedup_witness :
    (loadAllServers exampleFS asciiTables exampleLoader 3 "/r/config").map
        (fun all => all.map (fun s => (s.Alias, s.Host, s.SourceFile, s.Readonly)))
        = some [("web", "1.1.1.1", "/r/config", false), ("db", "", "/r/inc.conf", true)] ∧
      ∃ all, loadAllServers exampleFS asciiTables exampleLoader
        (unvisited ["/r/config", "/r/inc.conf"] [absMainPath exampleFS "/r/config"] + 1)
        "/r/config" = some all :=
  ⟨by decide,
    (loadAllServers_dedup exampleFS asciiTables exampleLoader "/r/config").2
      ["/r/config", "/r/inc.conf"] (listFS_globWithin _)⟩

/-- C13: when the key-value mapper leaves `SourceFile` and `Readonly` alone, every entry of
the registry comes from a host block of a decoded file of the processing list, has that
file's path as `SourceFile`, and is not read-only exactly when the file is the one at index 0,
the main file; an entry of a block without key-value directives has port 22 and no identity
file. -/
theorem loadAllServers_origin (fs : FileSystem) (U : UnicodeTables) (L : Loader)
    (hmap : ∀ srv kv, (L.mapKVToServer srv kv).SourceFile = srv.SourceFile ∧
      (L.mapKVToServer srv kv).Readonly = srv.Readonly)
    (fuel : Nat) (configPath : String) (all : List Server)
    (h : loadAllServers fs U L fuel configPath = some all) :
    ∃ included, resolveIncludes fs U fuel (absMainPath fs configPath)
        [absMainPath fs configPath] = some included ∧
      ∀ t ∈ all, ∃ i f cfg host,
        (absMainPath fs configPath :: included.paths)[i]? = some f ∧
        decodeConfigAt fs L f = some cfg ∧ host ∈ cfg.Hosts ∧
        toDomainServersFromConfig L.mapKVToServer { Hosts := [host] } f (i == 0) = [t] ∧
        t.SourceFile = f ∧ (t.Readonly = false ↔ i = 0) ∧
        (t.Readonly = false ↔ t.SourceFile = absMainPath fs configPath) ∧
        ((∀ n ∈ host.Nodes, n = Node.other) → t.Port = 22 ∧ t.IdentityFiles = []) := by
  obtain ⟨included, hinc, hall⟩ := loadAllServers_eq fs U L fuel configPath all h
  refine ⟨included, hinc, ?_⟩
  obtain ⟨new, h1, h2, _, _, _⟩ := serverLoop_spec
    (decodedEntries fs L 0 (absMainPath fs configPath :: included.paths)) [] [] (by simp)
  rw [List.nil_append] at h1
  rw [h1] at hall
  subst hall
  intro t ht
  obtain ⟨i, f, cfg, hf, hcfg, hmem⟩ := decodedEntries_mem fs L 0 _ t (h2.subset ht)
  rw [Nat.zero_add] at hmem
  obtain ⟨host, hh, hsingle, hsrc, hro, hport⟩ :=
    toDomainServers_origin L.mapKVToServer hmap cfg f (i == 0) t hmem
  have hro2 : t.Readonly = false ↔ i = 0 := by
    rw [hro]
    simp
  have hroot : i = 0 ↔ f = absMainPath fs configPath := by
    constructor
    · intro hi
      subst hi
      simpa using hf.symm
    · intro hfe
      cases i with
      | zero => rfl
      | succ j =>
        exfalso
        simp only [List.getElem?_cons_succ] at hf
        have hin : f ∈ included.paths := List.getElem?_mem hf
        have := ((resolveIncludes_ok fs U fuel _ _ _ hinc).2.1 f hin).2
        apply this
        simp [hfe]
  refine ⟨i, f, cfg, host, hf, hcfg, hh, hsingle, hsrc, hro2, ?_, hport⟩
  rw [hro2, hsrc, hroot]

theorem loadAllServers_origin_witness :
    loadAllServers exampleFS asciiTables exampleLoader 3 "/r/config"
        = some [{ Alias := "web", Aliases := ["web"], Host := "1.1.1.1", User := "", Port := 22,
                  IdentityFiles := [], Tags := [], PinnedAt := 0, SourceFile := "/r/config",
                  Readonly := false },
                { Alias := "db", Aliases := ["db"], Host := "", User := "", Port := 22,
                  IdentityFiles := [], Tags := [], PinnedAt := 0, SourceFile := "/r/inc.conf",
                  Readonly := true }] ∧
      ∃ included, resolveIncludes exampleFS asciiTables 3 (absMainPath exampleFS "/r/config")
          [absMainPath exampleFS "/r/config"] = some included ∧
        ∀ t ∈ [({ Alias := "web", Aliases := ["web"], Host := "1.1.1.1", User := "", Port := 22,
                  IdentityFiles := [], Tags := [], PinnedAt := 0, SourceFile := "/r/config",
                  Readonly := false } : Server),
                { Alias := "db", Aliases := ["db"], Host := "", User := "", Port := 22,
                  IdentityFiles := [], Tags := [], PinnedAt := 0, SourceFile := "/r/inc.conf",
                  Readonly := true }],
          ∃ i f cfg host,
            (absMainPath exampleFS "/r/config" :: included.paths)[i]? = some f ∧
            decodeConfigAt exampleFS exampleLoader f = some cfg ∧ host ∈ cfg.Hosts ∧
            toDomainServersFromConfig exampleLoader.mapKVToServer { Hosts := [host] } f (i == 0)
              = [t] ∧
            t.SourceFile = f ∧ (t.Readonly = false ↔ i = 0) ∧
            (t.Readonly = false ↔ t.SourceFile = absMainPath exampleFS "/r/config") ∧
            ((∀ n ∈ host.Nodes, n = Node.other) → t.Port = 22 ∧ t.IdentityFiles = []) :=
  ⟨by decide,
    loadAllServers_origin exampleFS asciiTables exampleLoader
      (fun srv kv => ⟨(exampleMapper_keeps srv kv).2.2.1, (exampleMapper_keeps srv kv).2.2.2⟩)
      3 "/r/config" _ (by decide)⟩

/-! ## An Include pattern that matches nothing -/

theorem matchLoop_withFile (fs : FileSystem) (path : String) (lines : List String)
    (scanErr : Bool) (recur : String → List String → Option Resolved) (ms : List String)
    (st : LoopState) :
    matchLoop (withFile fs path lines scanErr) recur ms st = matchLoop fs recur ms st := by
  induction ms generalizing st with
  | nil => rfl
  | cons m ms ih =>
    rw [matchLoop, matchLoop]
    have : matchStep (withFile fs path lines scanErr) recur st m = matchStep fs recur st m := rfl
    rw [this]
    cases matchStep fs recur st m with
    | none => rfl
    | some st1 => exact ih st1

theorem patternMatches_withFile (fs : FileSystem) (path : String) (lines : List String)
    (scanErr : Bool) (U : UnicodeTables) (baseDir pat : String) :
    patternMatches (withFile fs path lines scanErr) U baseDir pat
      = patternMatches fs U baseDir pat := rfl

theorem patternMatches_unmatched (fs : FileSystem) (U : UnicodeTables) (baseDir pat : String)
    (hglob :
      fs.glob (if !fs.isAbs (expandTilde fs (unquote (TrimSpace U pat))) then
          fs.join baseDir (expandTilde fs (unquote (TrimSpace U pat)))
        else expandTilde fs (unquote (TrimSpace U pat))) = none ∨
      fs.glob (if !fs.isAbs (expandTilde fs (unquote (TrimSpace U pat))) then
          fs.join baseDir (expandTilde fs (unquote (TrimSpace U pat)))
        else expandTilde fs (unquote (TrimSpace U pat))) = some []) :
    patternMatches fs U baseDir pat = [] := by
  unfold patternMatches
  simp only []
  split
  · rfl
  · rcases hglob with h | h <;> rw [h]

/-- The result of a call on the replaced file, with the recursion left open. -/
theorem resolveIncludes_withFile (fs : FileSystem) (U : UnicodeTables) (path : String)
    (lines : List String) (scanErr : Bool) (fuel : Nat) (filePath : String)
    (visited : List String) :
    resolveIncludes (withFile fs path lines scanErr) U (fuel + 1) filePath visited =
      match (if toAbs fs (expandTilde fs filePath) == path then some (lines, scanErr)
          else fs.openFile (toAbs fs (expandTilde fs filePath))) with
      | none => some { paths := [], err := false, visited := visited }
      | some (ls, e) =>
        match matchLoop fs
            (fun child vis => resolveIncludes (withFile fs path lines scanErr) U fuel child vis)
            (ls.flatMap (fun line => (linePatterns U line).flatMap (fun pat =>
              patternMatches fs U (fs.dir (toAbs fs (expandTilde fs filePath))) pat)))
            { results := [], added := [], visited := visited } with
        | none => none
        | some st => some { paths := st.results, err := e, visited := st.visited } := by
  rw [resolveIncludes_succ]
  simp only [matchLoop_withFile]
  rfl

/-- C15: an Include pattern whose glob expansion fails or matches nothing contributes no path
and no error.  Take a file one of whose lines has the pattern tokens `pre ++ pat :: post`,
where the expansion of `pat` fails or is empty, and the same file with that line replaced by
one whose pattern tokens are `pre ++ post`: every call of `resolveIncludes` returns the same
paths, the same error and the same visited set on both, so the later patterns and lines are
processed as before; and the error of a call on the file is the scanner's alone. -/
theorem resolveIncludes_unmatched_pattern (fs : FileSystem) (U : UnicodeTables)
    (path : String) (before after : List String) (line line2 : String) (scanErr : Bool)
    (pre post : List String) (pat : String)
    (hline : linePatterns U line = pre ++ pat :: post)
    (hline2 : linePatterns U line2 = pre ++ post)
    (hglob :
      fs.glob (if !fs.isAbs (expandTilde fs (unquote (TrimSpace U pat))) then
          fs.join (fs.dir path) (expandTilde fs (unquote (TrimSpace U pat)))
        else expandTilde fs (unquote (TrimSpace U pat))) = none ∨
      fs.glob (if !fs.isAbs (expandTilde fs (unquote (TrimSpace U pat))) then
          fs.join (fs.dir path) (expandTilde fs (unquote (TrimSpace U pat)))
        else expandTilde fs (unquote (TrimSpace U pat))) = some []) :
    (∀ fuel filePath visited,
        resolveIncludes (withFile fs path (before ++ line :: after) scanErr) U fuel filePath
            visited
          = resolveIncludes (withFile fs path (before ++ line2 :: after) scanErr) U fuel
            filePath visited) ∧
      (∀ fuel filePath visited r, toAbs fs (expandTilde fs filePath) = path →
        resolveIncludes (withFile fs path (before ++ line :: after) scanErr) U fuel filePath
            visited = some r →
          r.err = scanErr) := by
  have hpm := patternMatches_unmatched fs U (fs.dir path) pat hglob
  constructor
  · intro fuel
    induction fuel with
    | zero => intro filePath visited; rfl
    | succ fuel ih =>
      intro filePath visited
      have hrec : (fun child vis =>
            resolveIncludes (withFile fs path (before ++ line :: after) scanErr) U fuel child vis)
          = (fun child vis =>
            resolveIncludes (withFile fs path (before ++ line2 :: after) scanErr) U fuel child
              vis) := by
        funext child vis
        exact ih child vis
      rw [resolveIncludes_withFile, resolveIncludes_withFile, hrec]
      by_cases hp : (toAbs fs (expandTilde fs filePath) == path) = true
      · have hpe : toAbs fs (expandTilde fs filePath) = path := by simpa using hp
        rw [hpe]
        simp only [beq_self_eq_true, if_true]
        have hflat : (before ++ line :: after).flatMap (fun line =>
              (linePatterns U line).flatMap (fun pat => patternMatches fs U (fs.dir path) pat))
            = (before ++ line2 :: after).flatMap (fun line =>
              (linePatterns U line).flatMap (fun pat => patternMatches fs U (fs.dir path) pat)) := by
          simp only [List.flatMap_append, List.flatMap_cons, hline, hline2, hpm,
            List.nil_append]
        rw [hflat]
      · simp only [hp, Bool.false_eq_true, if_false]
  · intro fuel filePath visited r hpath hr
    cases fuel with
    | zero => simp [resolveIncludes] at hr
    | succ fuel =>
      rw [resolveIncludes_withFile] at hr
      have hp : (toAbs fs (expandTilde fs filePath) == path) = true := by simpa using hpath
      simp only [hp, if_true] at hr
      split at hr
      · exact Option.noConfusion hr
      · simp only [Option.some.injEq] at hr
        rw [← hr]

theorem resolveIncludes_unmatched_pattern_witness :
    linePatterns asciiTables "Include nomatch.conf b.conf" = [] ++ "nomatch.conf" :: ["b.conf"] ∧
      linePatterns asciiTables "Include b.conf" = [] ++ ["b.conf"] ∧
      resolveIncludes (withFile nestedFS "/r/config"
          ([] ++ "Include nomatch.conf b.conf" :: ["Include a.conf"]) false)
          asciiTables 3 "/r/config" ["/r/config"]
        = some { paths := ["/r/b.conf", "/r/a.conf", "/r/c.conf"], err := false,
                 visited := ["/r/c.conf", "/r/a.conf", "/r/b.conf", "/r/config"] } ∧
      (∀ fuel filePath visited,
        resolveIncludes (withFile nestedFS "/r/config"
            ([] ++ "Include nomatch.conf b.conf" :: ["Include a.conf"]) false)
            asciiTables fuel filePath visited
          = resolveIncludes (withFile nestedFS "/r/config"
            ([] ++ "Include b.conf" :: ["Include a.conf"]) false)
            asciiTables fuel filePath visited) :=
  ⟨by decide, by decide, by decide,
    (resolveIncludes_unmatched_pattern nestedFS asciiTables "/r/config" [] ["Include a.conf"]
      "Include nomatch.conf b.conf" "Include b.conf" false [] ["b.conf"] "nomatch.conf"
      (by decide) (by decide) (Or.inr (by decide))).1⟩

/-! ## The two comparators are strict weak orders -/

/-- Asymmetry and negative transitivity give irreflexivity, transitivity and transitive
incomparability. -/
theorem StrictWeak.strictWeakOrder {α : Type} {less : α → α → Bool} (h : StrictWeak less) :
    StrictWeakOrder less := by
  obtain ⟨asym, neg⟩ := h
  refine ⟨?_, ?_, ?_⟩
  · intro a
    cases e : less a a with
    | false => rfl
    | true =>
      have := asym a a e
      rw [e] at this
      exact Bool.noConfusion this
  · intro a b c hab hbc
    cases e : less a c with
    | true => rfl
    | false =>
      have := neg a c b e (asym b c hbc)
      rw [hab] at this
      exact Bool.noConfusion this
  · intro a b c hab hbc
    unfold ties at hab hbc ⊢
    simp only [Bool.and_eq_true, Bool.not_eq_true'] at hab hbc ⊢
    exact ⟨neg a b c hab.1 hbc.1, neg c b a hbc.2 hab.2⟩

/-- Two elements of the scored sort are incomparable exactly when they agree on the score,
the pin time and the alias. -/
theorem ties_lessScored_iff (U : UnicodeTables) (a b : scored) :
    ties (lessScored U) a b = true ↔
      a.score = b.score ∧ a.srv.PinnedAt = b.srv.PinnedAt ∧ a.srv.Alias = b.srv.Alias := by
  unfold ties
  rw [lessScored_eq_lex U a b, lessScored_eq_lex U b a]
  constructor
  · intro h
    simp only [Bool.and_eq_true, Bool.not_eq_true', Bool.or_eq_false_iff,
      Bool.and_eq_false_imp, decide_eq_false_iff_not, decide_eq_true_eq, Bool.not_eq_false',
      bne_iff_ne, ne_eq, beq_iff_eq, Bool.not_not] at h
    obtain ⟨⟨h1, h2⟩, h3, h4⟩ := h
    have hs : a.score = b.score := by omega
    have h2' := h2 h3
    have h4' := h4 h1
    obtain ⟨p1, p2⟩ := h2'
    obtain ⟨q1, q2⟩ := h4'
    have p2' := p2 q1
    have q2' := q2 p1
    obtain ⟨t1, t2⟩ := p2'
    obtain ⟨u1, u2⟩ := q2'
    have ht : a.srv.PinnedAt = b.srv.PinnedAt := by omega
    have t2' := t2 u1
    have u2' := u2 t1
    obtain ⟨l1, l2⟩ := t2'
    obtain ⟨m1, m2⟩ := u2'
    exact ⟨hs, ht, stringLess_total _ _ (l2 m1) (m2 l1)⟩
  · rintro ⟨hs, ht, ha⟩
    rw [hs, ht, ha]
    simp [stringLess, runesLess_irrefl]

/-- C21: both sort comparators of `ListServers` are strict weak orders: each is irreflexive
and transitive and its incomparability relation is transitive.  Moreover the comparator of
the non-empty query leaves two elements incomparable exactly when they have equal score,
equal pinned status, equal pin time when both are pinned, and the same alias. -/
theorem comparators_strictWeakOrder (U : UnicodeTables) :
    StrictWeakOrder (lessEmptyQuery U) ∧ StrictWeakOrder (lessScored U) ∧
      ∀ a b : scored, ties (lessScored U) a b = true ↔
        a.score = b.score ∧ (a.srv.PinnedAt = 0 ↔ b.srv.PinnedAt = 0) ∧
          (a.srv.PinnedAt ≠ 0 → b.srv.PinnedAt ≠ 0 → a.srv.PinnedAt = b.srv.PinnedAt) ∧
          a.srv.Alias = b.srv.Alias := by
  refine ⟨(lessEmptyQuery_strictWeak U).strictWeakOrder,
    (lessScored_strictWeak U).strictWeakOrder, ?_⟩
  intro a b
  rw [ties_lessScored_iff]
  constructor
  · rintro ⟨hs, ht, ha⟩
    exact ⟨hs, by rw [ht], fun _ _ => ht, ha⟩
  · rintro ⟨hs, hp, ht, ha⟩
    refine ⟨hs, ?_, ha⟩
    by_cases h0 : a.srv.PinnedAt = 0
    · rw [h0, hp.1 h0]
    · exact ht h0 (fun hb => h0 (hp.2 hb))

theorem comparators_strictWeakOrder_witness :
    ties (lessScored asciiTables) (scoredEntry "web" "10.0.0.1" 7 30)
        (scoredEntry "web" "10.0.0.2" 7 30) = true ∧
      scoredEntry "web" "10.0.0.1" 7 30 ≠ scoredEntry "web" "10.0.0.2" 7 30 ∧
      lessScored asciiTables (scoredEntry "web" "h" 7 30) (scoredEntry "Web" "h" 7 30) = false ∧
      lessScored asciiTables (scoredEntry "Web" "h" 7 30) (scoredEntry "web" "h" 7 30) = true ∧
      lessEmptyQuery asciiTables (aliasOnly "a" 9) (aliasOnly "b" 5) = true ∧
      lessEmptyQuery asciiTables (aliasOnly "b" 5) (aliasOnly "c" 0) = true ∧
      lessEmptyQuery asciiTables (aliasOnly "a" 9) (aliasOnly "c" 0) = true ∧
      ((scoredEntry "web" "10.0.0.1" 7 30).score = (scoredEntry "web" "10.0.0.2" 7 30).score ∧
        ((scoredEntry "web" "10.0.0.1" 7 30).srv.PinnedAt = 0 ↔
          (scoredEntry "web" "10.0.0.2" 7 30).srv.PinnedAt = 0) ∧
        ((scoredEntry "web" "10.0.0.1" 7 30).srv.PinnedAt ≠ 0 →
          (scoredEntry "web" "10.0.0.2" 7 30).srv.PinnedAt ≠ 0 →
          (scoredEntry "web" "10.0.0.1" 7 30).srv.PinnedAt
            = (scoredEntry "web" "10.0.0.2" 7 30).srv.PinnedAt) ∧
        (scoredEntry "web" "10.0.0.1" 7 30).srv.Alias
          = (scoredEntry "web" "10.0.0.2" 7 30).srv.Alias) :=
  ⟨by decide, by decide, by decide, by decide, by decide, by decide,
    (comparators_strictWeakOrder asciiTables).1.2.1 (aliasOnly "a" 9) (aliasOnly "b" 5)
      (aliasOnly "c" 0) (by decide) (by decide),
    ((comparators_strictWeakOrder asciiTables).2.2 (scoredEntry "web" "10.0.0.1" 7 30)
      (scoredEntry "web" "10.0.0.2" 7 30)).1 (by decide)⟩

/-! ## The set `added` of `resolveIncludes` is redundant -/

theorem foldl_append_singleton (sub results : List String) :
    sub.foldl (fun results s => results ++ [s]) results = results ++ sub := by
  induction sub generalizing results with
  | nil => simp
  | cons s sub ih => simp [ih]

/-- One step of the variant follows one step of `resolveIncludes`, as long as the loop
invariant holds and the recursive call keeps its guarantee. -/
theorem matchStepUnconditional_eq (fs : FileSystem)
    (recur : String → List String → Option Resolved) (hrec : RecurOK recur) (v0 : List String)
    (st : LoopState) (hst : LoopOK v0 st) (m : String) :
    matchStepUnconditional fs recur st.plain m
        = (matchStep fs recur st m).map LoopState.plain ∧
      ∀ st1, matchStep fs recur st m = some st1 → LoopOK v0 st1 := by
  by_cases hvis : toAbs fs m ∈ st.visited
  · rw [matchStep_visited fs recur st m hvis]
    refine ⟨?_, ?_⟩
    · unfold matchStepUnconditional
      simp [LoopState.plain, hvis]
    · intro st1 h
      simp only [Option.some.injEq] at h
      subst h
      exact hst
  · cases hr : recur (toAbs fs m) (toAbs fs m :: st.visited) with
    | none =>
      rw [matchStep_none fs recur st m hvis hr]
      refine ⟨?_, ?_⟩
      · unfold matchStepUnconditional
        simp [LoopState.plain, hvis, hr]
      · intro st1 h
        exact absurd h (by simp)
    | some r =>
      obtain ⟨st1, e1, e2, e3, hst1⟩ := matchStep_new fs recur hrec v0 st hst m hvis r hr
      rw [e1]
      refine ⟨?_, ?_⟩
      · unfold matchStepUnconditional
        simp [LoopState.plain, hvis, hr, foldl_append_singleton, e2, e3]
      · intro st2 h
        simp only [Option.some.injEq] at h
        subst h
        exact hst1

theorem matchLoopUnconditional_eq (fs : FileSystem)
    (recur : String → List String → Option Resolved) (hrec : RecurOK recur) (v0 : List String)
    (ms : List String) (st : LoopState) (hst : LoopOK v0 st) :
    matchLoopUnconditional fs recur ms st.plain
      = (matchLoop fs recur ms st).map LoopState.plain := by
  induction ms generalizing st with
  | nil => simp [matchLoopUnconditional, matchLoop]
  | cons m ms ih =>
    obtain ⟨h1, h2⟩ := matchStepUnconditional_eq fs recur hrec v0 st hst m
    rw [matchLoopUnconditional, matchLoop, h1]
    cases hs : matchStep fs recur st m with
    | none => simp
    | some st1 =>
      simp only [Option.map_some']
      exact ih st1 (h2 st1 hs)

theorem matchLoopUnconditional_append (fs : FileSystem)
    (recur : String → List String → Option Resolved) (xs ys : List String) (st : PlainState) :
    matchLoopUnconditional fs recur (xs ++ ys) st
      = (matchLoopUnconditional fs recur xs st).bind
          (fun st1 => matchLoopUnconditional fs recur ys st1) := by
  induction xs generalizing st with
  | nil => simp [matchLoopUnconditional]
  | cons x xs ih =>
    simp only [List.cons_append, matchLoopUnconditional]
    cases h : matchStepUnconditional fs recur st x with
    | none => simp
    | some st1 => simp [ih]

theorem patternLoopUnconditional_eq (fs : FileSystem) (U : UnicodeTables)
    (recur : String → List String → Option Resolved) (baseDir : String) (pats : List String)
    (st : PlainState) :
    patternLoopUnconditional fs U recur baseDir pats st
      = matchLoopUnconditional fs recur
          (pats.flatMap (fun pat => patternMatches fs U baseDir pat)) st := by
  induction pats generalizing st with
  | nil => simp [patternLoopUnconditional, matchLoopUnconditional]
  | cons pat pats ih =>
    rw [List.flatMap_cons, matchLoopUnconditional_append, patternLoopUnconditional]
    by_cases hp : unquote (TrimSpace U pat) = ""
    · have e : patternMatches fs U baseDir pat = [] := by
        unfold patternMatches
        simp [hp]
      rw [e]
      simp [hp, matchLoopUnconditional, ih]
    · have hp2 : (unquote (TrimSpace U pat) == "") = false := by simpa using hp
      simp only [hp2, Bool.false_eq_true, if_false]
      cases hg : fs.glob (if (!fs.isAbs (expandTilde fs (unquote (TrimSpace U pat)))) = true
          then fs.join baseDir (expandTilde fs (unquote (TrimSpace U pat)))
          else expandTilde fs (unquote (TrimSpace U pat))) with
      | none =>
        have e : patternMatches fs U baseDir pat = [] := by
          unfold patternMatches
          simp only [hp2, Bool.false_eq_true, if_false, hg]
        rw [e]
        simp [matchLoopUnconditional, ih]
      | some globbed =>
        have e : patternMatches fs U baseDir pat = globbed := by
          unfold patternMatches
          simp only [hp2, Bool.false_eq_true, if_false, hg]
        rw [e]
        cases globbed with
        | nil => simp [matchLoopUnconditional, ih]
        | cons g gs =>
          simp only [List.length_cons, Nat.add_one_ne_zero, beq_iff_eq, if_false]
          cases hm : matchLoopUnconditional fs recur (g :: gs) st with
          | none => simp
          | some st1 => simp [ih]

theorem lineLoopUnconditional_eq (fs : FileSystem) (U : UnicodeTables)
    (recur : String → List String → Option Resolved) (baseDir : String) (lines : List String)
    (st : PlainState) :
    lineLoopUnconditional fs U recur baseDir lines st
      = matchLoopUnconditional fs recur
          (lines.flatMap (fun line =>
            (linePatterns U line).flatMap (fun pat => patternMatches fs U baseDir pat))) st := by
  induction lines generalizing st with
  | nil => simp [lineLoopUnconditional, matchLoopUnconditional]
  | cons line lines ih =>
    rw [List.flatMap_cons, matchLoopUnconditional_append, lineLoopUnconditional, linePatterns_eq]
    simp only [patternLoopUnconditional_eq, ih]
    generalize (TrimSpace U line == "") = c1
    generalize (stripInlineComment U (TrimSpace U line) == "") = c2
    generalize HasPrefix (TrimSpace U (stripInlineComment U (TrimSpace U line))) "#" = c3
    generalize ((splitFieldsRespectQuotes (stripInlineComment U (TrimSpace U line))).length
      == 0) = c4
    generalize EqualFold U ((splitFieldsRespectQuotes
      (stripInlineComment U (TrimSpace U line))).headD "") "Include" = c5
    generalize (splitFieldsRespectQuotes (stripInlineComment U (TrimSpace U line))).drop 1 = pats
    cases c1
    · cases c2
      · cases c3
        · cases c4
          · cases c5
            · simp [matchLoopUnconditional]
            · simp only [Bool.not_true, Bool.false_eq_true, if_false]
              cases matchLoopUnconditional fs recur
                (pats.flatMap (fun pat => patternMatches fs U baseDir pat)) st <;> rfl
          · simp [matchLoopUnconditional]
        · simp [matchLoopUnconditional]
      · simp [matchLoopUnconditional]
    · simp [matchLoopUnconditional]

/-- The variant and `resolveIncludes` are the same function at every recursion bound. -/
theorem resolveIncludesUnconditional_eq (fs : FileSystem) (U : UnicodeTables) (fuel : Nat) :
    ∀ c v, resolveIncludesUnconditional fs U fuel c v = resolveIncludes fs U fuel c v := by
  induction fuel with
  | zero => intro c v; rfl
  | succ fuel ih =>
    intro c v
    have hfun : (fun child vis => resolveIncludesUnconditional fs U fuel child vis)
        = (fun child vis => resolveIncludes fs U fuel child vis) :=
      funext fun child => funext fun vis => ih child vis
    rw [resolveIncludes_succ, resolveIncludesUnconditional]
    simp only [lineLoopUnconditional_eq, hfun]
    cases ho : fs.openFile (toAbs fs (expandTilde fs c)) with
    | none => rfl
    | some le =>
      obtain ⟨lines, scanErr⟩ := le
      simp only []
      have h := matchLoopUnconditional_eq fs _ (resolveIncludes_ok fs U fuel) v
        (lines.flatMap (fun line => (linePatterns U line).flatMap (fun pat =>
          patternMatches fs U (fs.dir (toAbs fs (expandTilde fs c))) pat)))
        { results := [], added := [], visited := v } (loopOK_init v)
      have hp : ({ results := [], added := [], visited := v } : LoopState).plain
          = { results := [], visited := v } := rfl
      rw [hp] at h
      rw [h]
      cases matchLoop fs (fun child vis => resolveIncludes fs U fuel child vis)
        (lines.flatMap (fun line => (linePatterns U line).flatMap (fun pat =>
          patternMatches fs U (fs.dir (toAbs fs (expandTilde fs c))) pat)))
        { results := [], added := [], visited := v } <;> rfl

/-- C22: the per-call set `added` of `resolveIncludes` is redundant.  For every file system,
file, visited set and recursion bound, `resolveIncludes` returns what the variant returns
that appends each newly visited child and each element of each recursive result
unconditionally; every returned path was inserted into the shared visited set during the
call, after not being in it; and on a file system with finitely many paths both return. -/
theorem resolveIncludes_added_redundant (fs : FileSystem) (U : UnicodeTables)
    (filePath : String) (visited : List String) :
    (∀ fuel, resolveIncludes fs U fuel filePath visited
        = resolveIncludesUnconditional fs U fuel filePath visited) ∧
      (∀ fuel r, resolveIncludes fs U fuel filePath visited = some r →
        ∀ p ∈ r.paths, p ∈ r.visited ∧ p ∉ visited) ∧
      (∀ allPaths, GlobWithin fs allPaths →
        ∃ r, resolveIncludes fs U (unvisited allPaths visited + 1) filePath visited = some r ∧
          resolveIncludesUnconditional fs U (unvisited allPaths visited + 1) filePath visited
            = some r) := by
  refine ⟨fun fuel => (resolveIncludesUnconditional_eq fs U fuel filePath visited).symm, ?_, ?_⟩
  · intro fuel r h
    exact (resolveIncludes_ok fs U fuel filePath visited r h).2.1
  · intro allPaths hfin
    obtain ⟨r, hr⟩ := resolveIncludes_isSome fs U allPaths hfin (unvisited allPaths visited + 1)
      filePath visited (Nat.lt_succ_self _)
    exact ⟨r, hr, by rw [resolveIncludesUnconditional_eq, hr]⟩

theorem resolveIncludes_added_redundant_witness :
    resolveIncludesUnconditional diamondFS asciiTables 3 "/r/config" ["/r/config"]
        = some { paths := ["/r/a.conf", "/r/c.conf", "/r/b.conf"], err := false,
                 visited := ["/r/b.conf", "/r/c.conf", "/r/a.conf", "/r/config"] } ∧
      resolveIncludes diamondFS asciiTables 3 "/r/config" ["/r/config"]
        = resolveIncludesUnconditional diamondFS asciiTables 3 "/r/config" ["/r/config"] :=
  ⟨by decide,
    (resolveIncludes_added_redundant diamondFS asciiTables "/r/config" ["/r/config"]).1 3⟩

end LazySSH
